import Mathlib

/-!
# `scripts/apply-package.mjs`: lookup of a package entry and its materialisation

The script reads `manifests/index.json`, searches `manifest.packages` for the first
entry whose `id` is the command-line argument and writes that entry, pretty-printed,
to `dist/<id with slashes replaced>.json`.

The embedding follows the source statement by statement (`main`, `run`).  The
built-ins the script calls are modelled after ECMAScript and the Node POSIX `path`
module:

* strings are sequences of UTF-16 code units (`JSString`);
* `JSON.parse` is a lexer followed by a recursive-descent parser; objects keep the
  own-property order of ordinary objects (array-index keys ascending, then the other
  keys in insertion order), numbers are IEEE doubles obtained by round-to-nearest-even;
* `JSON.stringify(value, null, 2)` is `SerializeJSONProperty` with gap of two spaces;
* `path.resolve` splits on `/` and normalises `.`, `..` and empty segments; a path
  is kept as its list of segments below the root;
* the file system is a map from paths to file contents; whether the operating system
  lets `mkdir` and `writeFile` succeed is an input of the run.
-/

namespace ApplyPackage

/-! ## Strings -/

/-- A JavaScript string: its sequence of UTF-16 code units. -/
abbrev JSString := List Nat

/-- The UTF-16 code units of a string literal of the source. -/
def utf16 (s : String) : JSString :=
  s.data.flatMap fun c =>
    if c.toNat < 65536 then [c.toNat]
    else [55296 + (c.toNat - 65536) / 1024, 56320 + (c.toNat - 65536) % 1024]

/-! ## Number values -/

/-- The Number values `JSON.parse` can produce.  `finite neg m t` is the double
`(-1)^neg * m * 2^(t - 1074)`, with `m < 2^53`, `t ≤ 2045`, and `2^52 ≤ m` unless
`t = 0`; `infinite neg` is `±Infinity`. -/
inductive Number where
  | finite (neg : Bool) (m : Nat) (t : Nat)
  | infinite (neg : Bool)
  deriving DecidableEq, Repr

/-- The least `j`, counted from the given one, with `n < 2^(2^j)`. -/
def log2Bound (n : Nat) : Nat → Nat → Nat
  | 0, j => j
  | fuel + 1, j => if n < 2 ^ 2 ^ j then j else log2Bound n fuel (j + 1)

/-- Binary search for the binary logarithm of `n`: with `2^acc ≤ n < 2^(acc + 2^i)`, the
remaining `i` bits of the logarithm are settled from the highest down. -/
def log2Search (n : Nat) : Nat → Nat → Nat
  | 0, acc => acc
  | i + 1, acc => if 2 ^ (acc + 2 ^ i) ≤ n then log2Search n i (acc + 2 ^ i) else log2Search n i acc

/-- Floor of the binary logarithm (`0` at `0`). -/
def log2 (n : Nat) : Nat := log2Search n (log2Bound n n 0) 0

/-- The integer nearest to `A / D`, ties going to the even one. -/
def roundHalfEven (A D : Nat) : Nat :=
  if 2 * (A % D) < D then A / D
  else if D < 2 * (A % D) then A / D + 1
  else if (A / D) % 2 = 0 then A / D
  else A / D + 1

/-- The Number value of the rational `(-1)^neg * a / b`: the nearest double, ties to
the even significand, overflow to infinity. -/
def roundToNumber (neg : Bool) (a b : Nat) : Number :=
  let t := log2 (a * 2 ^ 1074 / b) - 52
  let m := roundHalfEven (a * 2 ^ 1074) (b * 2 ^ t)
  let t1 := if m = 2 ^ 53 then t + 1 else t
  let m1 := if m = 2 ^ 53 then 2 ^ 52 else m
  if 2045 < t1 then .infinite neg else .finite neg m1 t1

/-- The Number value of the decimal `(-1)^neg * M * 10^E`. -/
def decimalToNumber (neg : Bool) (M : Nat) (E : Int) : Number :=
  if 0 ≤ E then roundToNumber neg (M * 10 ^ E.toNat) 1
  else roundToNumber neg M (10 ^ (-E).toNat)

/-- Loop of `decimalDigits`. -/
def digitsFuel : Nat → Nat → JSString → JSString
  | 0, _, acc => acc
  | fuel + 1, n, acc =>
    if n < 10 then (48 + n) :: acc else digitsFuel fuel (n / 10) ((48 + n % 10) :: acc)

/-- The decimal digits of a natural number, as code units, most significant first. -/
def decimalDigits (n : Nat) : JSString := digitsFuel (n + 1) n []

/-- The natural number written by a sequence of decimal digits. -/
def natOfDigits (ds : JSString) : Nat := ds.foldl (fun a c => 10 * a + (c - 48)) 0

/-- Search of `Number::toString` for the shortest digit string `s` (tried lengths
`k, k + 1, ...`) with `s * 10^e` rounding to the double `m * 2^(t - 1074)`; the result
is `s` and the decimal exponent `e`, which is `n - k` in the terms of the standard.
`Z` is the double times `10^1074` and `L` the number of digits of `Z`, so that the
candidates of length `k` are `Z / 10^(L - k)` and its successor.  Of two candidates of
the same length the one closer to the double wins, the even one on a tie.  The search
ends at the latest with all the digits of `Z`, which write the double exactly. -/
def shortestSearch (m t Z L : Nat) : Nat → Nat → Nat × Int
  | 0, _ => (Z, -1074)
  | fuel + 1, k =>
    let p := 10 ^ (L - k)
    let e : Int := (L : Int) - (k : Int) - 1074
    let lo : Nat × Int := (Z / p, e)
    let hi : Nat × Int := if Z / p + 1 = 10 ^ k then (10 ^ (k - 1), e + 1) else (Z / p + 1, e)
    let okLo := roundToNumber false (Z / p * p) (10 ^ 1074) = .finite false m t
    let okHi := Z % p ≠ 0 ∧ roundToNumber false ((Z / p + 1) * p) (10 ^ 1074) = .finite false m t
    if okLo then
      if okHi then
        if 2 * (Z % p) < p then lo
        else if p < 2 * (Z % p) then hi
        else if (Z / p) % 2 = 0 then lo else hi
      else lo
    else if okHi then hi
    else shortestSearch m t Z L fuel (k + 1)

/-- The digits `s` and the decimal exponent `n - k` of `Number::toString` for the
positive double `m * 2^(t - 1074)`. -/
def shortestDigits (m t : Nat) : Nat × Int :=
  shortestSearch m t (m * 2 ^ t * 5 ^ 1074) (decimalDigits (m * 2 ^ t * 5 ^ 1074)).length
    (decimalDigits (m * 2 ^ t * 5 ^ 1074)).length 1

/-- The layout steps of `Number::toString`: `ds` are the `k` digits of `s`, and `n` is
the position of the decimal point after the first digit of `s`. -/
def formatDigits (ds : JSString) (n : Int) : JSString :=
  if -5 ≤ n ∧ n ≤ 21 then
    if (ds.length : Int) ≤ n then ds ++ List.replicate (n.toNat - ds.length) 48
    else if 0 < n then ds.take n.toNat ++ 46 :: ds.drop n.toNat
    else 48 :: 46 :: (List.replicate (-n).toNat 48 ++ ds)
  else
    let sign : Nat := if 0 ≤ n - 1 then 43 else 45
    let e := decimalDigits (n - 1).natAbs
    match ds with
    | [] => []
    | [d] => d :: 101 :: sign :: e
    | d :: rest => d :: 46 :: (rest ++ 101 :: sign :: e)

/-- The operation `Number::toString(x, 10)`. -/
def numberToString : Number → JSString
  | .infinite neg => (if neg then [45] else []) ++ utf16 "Infinity"
  | .finite neg m t =>
    if m = 0 then [48]
    else (if neg then [45] else []) ++
      formatDigits (decimalDigits (shortestDigits m t).1)
        ((shortestDigits m t).2 + ((decimalDigits (shortestDigits m t).1).length : Int))

/-! ## JSON values -/

/-- The values `JSON.parse` returns.  An object is the list of its own properties in
the order `[[OwnPropertyKeys]]` lists them. -/
inductive Json where
  | null
  | bool (b : Bool)
  | num (x : Number)
  | str (s : JSString)
  | arr (elements : List Json)
  | obj (props : List (JSString × Json))

/-- Whether every code unit is a decimal digit. -/
def allDigits (s : JSString) : Bool := s.all fun c => decide (48 ≤ c ∧ c ≤ 57)

/-- The array index a property key denotes, if it is one: a canonical numeric string
of an integer below `2^32 - 1`. -/
def arrayIndex (key : JSString) : Option Nat :=
  if key ≠ [] ∧ allDigits key = true ∧ (key = [48] ∨ key.head? ≠ some 48)
      ∧ natOfDigits key < 4294967295 then
    some (natOfDigits key)
  else none

/-- Own-property lookup. -/
def getProp (props : List (JSString × Json)) (key : JSString) : Option Json :=
  (props.find? fun p => decide (p.1 = key)).map Prod.snd

/-- Whether `key` is listed before the array-index key `i` among the own property
keys: only smaller array indices are. -/
def keyBeforeIndex (i : Nat) (key : JSString) : Bool :=
  match arrayIndex key with
  | some j => decide (j < i)
  | none => false

/-- Places a new array-index property: after the smaller indices, before everything
else. -/
def insertIndexProp (i : Nat) (key : JSString) (value : Json) :
    List (JSString × Json) → List (JSString × Json)
  | [] => [(key, value)]
  | p :: rest =>
    if keyBeforeIndex i p.1 = true then p :: insertIndexProp i key value rest
    else (key, value) :: p :: rest

/-- Replaces the value of an existing property, in place. -/
def replaceProp (key : JSString) (value : Json) :
    List (JSString × Json) → List (JSString × Json)
  | [] => []
  | p :: rest => if p.1 = key then (key, value) :: rest else p :: replaceProp key value rest

/-- The operation `CreateDataProperty` on an ordinary object: an existing key keeps its place and
takes the new value; a new array-index key goes among the indices in ascending
order; any other new key goes last. -/
def setProp (props : List (JSString × Json)) (key : JSString) (value : Json) :
    List (JSString × Json) :=
  if (getProp props key).isSome then replaceProp key value props
  else
    match arrayIndex key with
    | some i => insertIndexProp i key value props
    | none => props ++ [(key, value)]

/-! ## `JSON.parse` -/

/-- The tokens of the JSON grammar. -/
inductive Token where
  | lbrace
  | rbrace
  | lbracket
  | rbracket
  | colon
  | comma
  | null
  | true
  | false
  | string (s : JSString)
  | number (x : Number)

/-- The value of a hexadecimal digit. -/
def hexValue (c : Nat) : Option Nat :=
  if 48 ≤ c ∧ c ≤ 57 then some (c - 48)
  else if 97 ≤ c ∧ c ≤ 102 then some (c - 87)
  else if 65 ≤ c ∧ c ≤ 70 then some (c - 55)
  else none

/-- The code unit a single-character escape stands for. -/
def escapeValue (c : Nat) : Option Nat :=
  if c = 34 then some 34
  else if c = 92 then some 92
  else if c = 47 then some 47
  else if c = 98 then some 8
  else if c = 102 then some 12
  else if c = 110 then some 10
  else if c = 114 then some 13
  else if c = 116 then some 9
  else none

/-- The characters of a string literal after its opening quote, up to the closing
quote; the result is the string value and the text after the literal. -/
def lexString : List Nat → Option (JSString × List Nat)
  | [] => none
  | c :: rest =>
    if c = 34 then some ([], rest)
    else if c = 92 then
      match rest with
      | [] => none
      | e :: rest1 =>
        if e = 117 then
          match rest1 with
          | h1 :: h2 :: h3 :: h4 :: rest2 =>
            match hexValue h1, hexValue h2, hexValue h3, hexValue h4 with
            | some a, some b, some c, some d =>
              (lexString rest2).map fun r => ((a * 4096 + b * 256 + c * 16 + d) :: r.1, r.2)
            | _, _, _, _ => none
          | _ => none
        else
          match escapeValue e with
          | some v => (lexString rest1).map fun r => (v :: r.1, r.2)
          | none => none
    else if c < 32 then none
    else (lexString rest).map fun r => (c :: r.1, r.2)

/-- The longest run of decimal digits at the head of the text, and the text after
it. -/
def takeDigits : List Nat → JSString × List Nat
  | [] => ([], [])
  | c :: rest =>
    if 48 ≤ c ∧ c ≤ 57 then ((c :: (takeDigits rest).1), (takeDigits rest).2)
    else ([], c :: rest)

/-- The exponent part of a number literal, if there is one: its value and the text
after it. -/
def lexExponent (cs : List Nat) : Option (Int × List Nat) :=
  match cs with
  | c :: rest =>
    if c = 101 ∨ c = 69 then
      match rest with
      | s :: rest1 =>
        if s = 45 then
          if (takeDigits rest1).1 = [] then none
          else some (-(natOfDigits (takeDigits rest1).1 : Int), (takeDigits rest1).2)
        else if s = 43 then
          if (takeDigits rest1).1 = [] then none
          else some ((natOfDigits (takeDigits rest1).1 : Int), (takeDigits rest1).2)
        else
          if (takeDigits rest).1 = [] then none
          else some ((natOfDigits (takeDigits rest).1 : Int), (takeDigits rest).2)
      | [] => none
    else some (0, cs)
  | [] => some (0, cs)

/-- The fraction part of a number literal, if there is one: its digits and the text
after it. -/
def lexFraction (cs : List Nat) : Option (JSString × List Nat) :=
  match cs with
  | c :: rest =>
    if c = 46 then
      if (takeDigits rest).1 = [] then none else some (takeDigits rest)
    else some ([], cs)
  | [] => some ([], cs)

/-- A number literal without its sign: integer part without a superfluous leading
zero, optional fraction, optional exponent. -/
def lexUnsigned (neg : Bool) (cs : List Nat) : Option (Number × List Nat) :=
  let ip := takeDigits cs
  if ip.1 = [] ∨ (ip.1.head? = some 48 ∧ ip.1.length ≠ 1) then none
  else
    match lexFraction ip.2 with
    | none => none
    | some (fs, rest1) =>
      match lexExponent rest1 with
      | none => none
      | some (e, rest2) =>
        some (decimalToNumber neg (natOfDigits (ip.1 ++ fs)) (e - (fs.length : Int)), rest2)

/-- A number literal. -/
def lexNumber (cs : List Nat) : Option (Number × List Nat) :=
  match cs with
  | c :: rest => if c = 45 then lexUnsigned true rest else lexUnsigned false cs
  | [] => none

/-- The tokens of a text; each step drops one white-space character or reads one
token, so a `fuel` above the length of the text is never used up. -/
def lexAux : Nat → List Nat → Option (List Token)
  | 0, _ => none
  | _ + 1, [] => some []
  | fuel + 1, c :: rest =>
    if c = 32 ∨ c = 9 ∨ c = 10 ∨ c = 13 then lexAux fuel rest
    else if c = 123 then (lexAux fuel rest).map (Token.lbrace :: ·)
    else if c = 125 then (lexAux fuel rest).map (Token.rbrace :: ·)
    else if c = 91 then (lexAux fuel rest).map (Token.lbracket :: ·)
    else if c = 93 then (lexAux fuel rest).map (Token.rbracket :: ·)
    else if c = 58 then (lexAux fuel rest).map (Token.colon :: ·)
    else if c = 44 then (lexAux fuel rest).map (Token.comma :: ·)
    else if c = 34 then
      match lexString rest with
      | some (str, rest1) => (lexAux fuel rest1).map (Token.string str :: ·)
      | none => none
    else if c = 45 ∨ (48 ≤ c ∧ c ≤ 57) then
      match lexNumber (c :: rest) with
      | some (x, rest1) => (lexAux fuel rest1).map (Token.number x :: ·)
      | none => none
    else
      match c :: rest with
      | 110 :: 117 :: 108 :: 108 :: rest1 => (lexAux fuel rest1).map (Token.null :: ·)
      | 116 :: 114 :: 117 :: 101 :: rest1 => (lexAux fuel rest1).map (Token.true :: ·)
      | 102 :: 97 :: 108 :: 115 :: 101 :: rest1 => (lexAux fuel rest1).map (Token.false :: ·)
      | _ => none

/-- The tokens of a JSON text, `none` when it has a character sequence that is no
token. -/
def lex (text : JSString) : Option (List Token) := lexAux (text.length + 1) text

mutual
/-- Reads one JSON value from the head of the tokens. -/
def parseValue : Nat → List Token → Option (Json × List Token)
  | 0, _ => none
  | fuel + 1, toks =>
    match toks with
    | Token.null :: rest => some (Json.null, rest)
    | Token.true :: rest => some (Json.bool true, rest)
    | Token.false :: rest => some (Json.bool false, rest)
    | Token.string str :: rest => some (Json.str str, rest)
    | Token.number x :: rest => some (Json.num x, rest)
    | Token.lbracket :: Token.rbracket :: rest => some (Json.arr [], rest)
    | Token.lbracket :: rest =>
      match parseElements fuel rest with
      | some (xs, rest1) => some (Json.arr xs, rest1)
      | none => none
    | Token.lbrace :: Token.rbrace :: rest => some (Json.obj [], rest)
    | Token.lbrace :: rest =>
      match parseMembers fuel [] rest with
      | some (ps, rest1) => some (Json.obj ps, rest1)
      | none => none
    | _ => none
/-- Reads the elements of a non-empty array up to and including its `]`. -/
def parseElements : Nat → List Token → Option (List Json × List Token)
  | 0, _ => none
  | fuel + 1, toks =>
    match parseValue fuel toks with
    | some (v, Token.comma :: rest) =>
      match parseElements fuel rest with
      | some (vs, rest1) => some (v :: vs, rest1)
      | none => none
    | some (v, Token.rbracket :: rest) => some ([v], rest)
    | _ => none
/-- Reads the members of a non-empty object up to and including its `}`, defining
each one on the object built so far. -/
def parseMembers : Nat → List (JSString × Json) → List Token →
    Option (List (JSString × Json) × List Token)
  | 0, _, _ => none
  | fuel + 1, acc, toks =>
    match toks with
    | Token.string key :: Token.colon :: rest =>
      match parseValue fuel rest with
      | some (v, Token.comma :: rest1) => parseMembers fuel (setProp acc key v) rest1
      | some (v, Token.rbrace :: rest1) => some (setProp acc key v, rest1)
      | _ => none
    | _ => none
end

/-- The call `JSON.parse(text)`: the value of the text, `none` when it throws a SyntaxError. -/
def JSON.parse (text : JSString) : Option Json :=
  match lex text with
  | none => none
  | some toks =>
    match parseValue (toks.length + 1) toks with
    | some (v, []) => some v
    | _ => none

/-! ## `JSON.stringify` -/

/-- The hexadecimal digit, in lower case, of a value below sixteen. -/
def hexDigit (d : Nat) : Nat := if d < 10 then 48 + d else 87 + d

/-- The operation `UnicodeEscape`: a backslash, `u` and four hexadecimal digits. -/
def unicodeEscape (c : Nat) : JSString :=
  [92, 117, hexDigit (c / 4096 % 16), hexDigit (c / 256 % 16), hexDigit (c / 16 % 16),
    hexDigit (c % 16)]

/-- Whether the code unit is a leading surrogate. -/
def isLeadingSurrogate (c : Nat) : Bool := decide (55296 ≤ c ∧ c ≤ 56319)

/-- Whether the code unit is a trailing surrogate. -/
def isTrailingSurrogate (c : Nat) : Bool := decide (56320 ≤ c ∧ c ≤ 57343)

/-- Whether the text starts with a trailing surrogate. -/
def startsWithTrailing : JSString → Bool
  | [] => false
  | d :: _ => isTrailingSurrogate d

/-- The body of `QuoteJSONString`: the short escapes of the standard table, a
`\u` escape for the other control characters and for unpaired surrogates, every
other code point as it is.  `paired` tells that the code unit before the text was a
leading surrogate written as it is, so that a trailing surrogate at the head of the
text completes a surrogate pair. -/
def quoteUnits : Bool → JSString → JSString
  | _, [] => []
  | paired, c :: rest =>
    if c = 8 then 92 :: 98 :: quoteUnits false rest
    else if c = 9 then 92 :: 116 :: quoteUnits false rest
    else if c = 10 then 92 :: 110 :: quoteUnits false rest
    else if c = 12 then 92 :: 102 :: quoteUnits false rest
    else if c = 13 then 92 :: 114 :: quoteUnits false rest
    else if c = 34 then 92 :: 34 :: quoteUnits false rest
    else if c = 92 then 92 :: 92 :: quoteUnits false rest
    else if c < 32 then unicodeEscape c ++ quoteUnits false rest
    else if isLeadingSurrogate c = true then
      if startsWithTrailing rest = true then c :: quoteUnits true rest
      else unicodeEscape c ++ quoteUnits false rest
    else if isTrailingSurrogate c = true then
      if paired = true then c :: quoteUnits false rest
      else unicodeEscape c ++ quoteUnits false rest
    else c :: quoteUnits false rest

/-- The operation `QuoteJSONString`. -/
def quoteJSONString (s : JSString) : JSString := 34 :: (quoteUnits false s ++ [34])

/-- The gap of `JSON.stringify(value, null, 2)`: two spaces. -/
def gap : JSString := [32, 32]

mutual
/-- The operation `SerializeJSONProperty` for a value held by the wrapper or by a container, at the
current indentation. -/
def serializeJSONProperty (indent : JSString) : Json → JSString
  | Json.null => utf16 "null"
  | Json.bool b => if b = true then utf16 "true" else utf16 "false"
  | Json.num x =>
    match x with
    | Number.finite _ _ _ => numberToString x
    | Number.infinite _ => utf16 "null"
  | Json.str s => quoteJSONString s
  | Json.arr elements =>
    match elements with
    | [] => utf16 "[]"
    | _ :: _ =>
      91 :: 10 :: ((indent ++ gap) ++ serializeElements (indent ++ gap) elements
        ++ 10 :: (indent ++ [93]))
  | Json.obj props =>
    match props with
    | [] => utf16 "\x7b\x7d"
    | _ :: _ =>
      123 :: 10 :: ((indent ++ gap) ++ serializeMembers (indent ++ gap) props
        ++ 10 :: (indent ++ [125]))
/-- The elements of an array, joined by a comma, a line feed and the indentation. -/
def serializeElements (indent : JSString) : List Json → JSString
  | [] => []
  | x :: rest =>
    match rest with
    | [] => serializeJSONProperty indent x
    | _ :: _ =>
      serializeJSONProperty indent x ++ 44 :: 10 :: (indent ++ serializeElements indent rest)
/-- The members of an object, each `key: value`, joined like array elements. -/
def serializeMembers (indent : JSString) : List (JSString × Json) → JSString
  | [] => []
  | p :: rest =>
    match rest with
    | [] => quoteJSONString p.1 ++ 58 :: 32 :: serializeJSONProperty indent p.2
    | _ :: _ =>
      quoteJSONString p.1 ++ 58 :: 32 :: (serializeJSONProperty indent p.2
        ++ 44 :: 10 :: (indent ++ serializeMembers indent rest))
end

/-- The call `JSON.stringify(value, null, 2)` for a value that came from `JSON.parse`. -/
def JSON.stringify (value : Json) : JSString := serializeJSONProperty [] value

/-! ## Paths (`node:path`, POSIX) -/

/-- An absolute, normalised path: its segments below the root. -/
abbrev Path := List JSString

/-- The pieces of a string between its forward slashes. -/
def splitSlash : JSString → List JSString
  | [] => [[]]
  | c :: rest =>
    if c = 47 then [] :: splitSlash rest
    else
      match splitSlash rest with
      | seg :: segs => (c :: seg) :: segs
      | [] => [[c]]

/-- One step of path normalisation: empty and `.` segments are dropped, `..` removes
the segment before it, any other segment is appended. -/
def pushSegment (stack : Path) (seg : JSString) : Path :=
  if seg = [] ∨ seg = [46] then stack
  else if seg = [46, 46] then stack.dropLast
  else stack ++ [seg]

/-- The call `resolve(...args)` in the working directory `cwd`: an argument that starts with a
slash restarts from the root, every argument is split on `/` and normalised. -/
def resolve (cwd : Path) (args : List JSString) : Path :=
  args.foldl
    (fun acc arg => (splitSlash arg).foldl pushSegment (if arg.head? = some 47 then [] else acc))
    cwd

/-- The call `dirname(path)` on a resolved path. -/
def dirname (path : Path) : Path := path.dropLast

/-- The string of a resolved path, as `resolve` returns it. -/
def pathString (path : Path) : JSString :=
  match path with
  | [] => [47]
  | _ :: _ => path.flatMap fun seg => 47 :: seg

/-! ## The process and the file system -/

/-- The failures that reject the promise of `main`. -/
inductive Failure where
  | readError (path : Path)
  | syntaxError
  | typeError
  | mkdirError (path : Path)
  | writeError (path : Path)
  deriving DecidableEq

/-- What a run does that can be observed, in the order it does it. -/
inductive Event where
  | stdout (text : JSString)
  | stderr (text : JSString)
  | stderrError (error : Failure)
  | readFile (path : Path)
  | mkdir (path : Path)
  | writeFile (path : Path) (content : JSString)
  deriving DecidableEq

/-- The file system: the content of every file and the set of directories. -/
structure FileSystem where
  files : Path → Option JSString
  dirs : Path → Bool

/-- What a run is started with: `process.argv`, the working directory and whether the
operating system lets a directory be made or a file be written at a path. -/
structure Env where
  argv : List JSString
  cwd : Path
  mkdirOk : Path → Bool
  writeOk : Path → Bool

/-- The state of a run: the events so far, `process.exitCode` and the file system. -/
structure Process where
  events : List Event
  exitCode : Option Nat
  fs : FileSystem

/-- Appends an event to the log of the run. -/
def Process.emit (p : Process) (e : Event) : Process :=
  { p with events := p.events ++ [e] }

/-- The exit status of the process: `process.exitCode` when it was set, else `0`. -/
def Process.exitStatus (p : Process) : Nat := p.exitCode.getD 0

/-- A process at its start, on a given file system. -/
def Process.start (fs : FileSystem) : Process :=
  { events := [], exitCode := none, fs := fs }

/-- The call `mkdir(path, { recursive: true })`: the path and all its ancestors are
directories afterwards. -/
def FileSystem.mkdir (fs : FileSystem) (path : Path) : FileSystem :=
  { fs with dirs := fun q => fs.dirs q || decide (q <+: path) }

/-- The call `writeFile(path, content)`: the file holds exactly `content` afterwards. -/
def FileSystem.writeFile (fs : FileSystem) (path : Path) (content : JSString) : FileSystem :=
  { fs with files := fun q => if q = path then some content else fs.files q }

/-! ## The script -/

/-- The usage text. -/
def HELP_MESSAGE : JSString := utf16
  "\nUsage: node scripts/apply-package.mjs <package-id> [options]\n\nThis lightweight helper demonstrates where automation for downloading and applying\npackages will live. Future revisions will:\n  - Fetch package metadata from manifests/index.json or a remote URL.\n  - Download referenced assets and verify their checksums.\n  - Prepare the package contents for import into NinjaOne.\n"

/-- The guard `!command || command === '--help' || command === '-h'`; an absent
argument is `undefined`, and `undefined` and the empty string are falsy. -/
def isHelp (command : Option JSString) : Bool :=
  match command with
  | none => true
  | some c => decide (c = []) || decide (c = utf16 "--help") || decide (c = utf16 "-h")

/-- The callback `(pkg) => pkg.id === packageId`: reading `id` of `null` throws, a
value without an own `id` gives `undefined`, and only a string equal to `packageId`
code unit by code unit is strictly equal to it. -/
def idMatches (packageId : JSString) : Json → Except Failure Bool
  | Json.null => Except.error Failure.typeError
  | Json.obj props =>
    match getProp props (utf16 "id") with
    | some (Json.str s) => Except.ok (decide (s = packageId))
    | _ => Except.ok false
  | _ => Except.ok false

/-- The method `Array.prototype.find` with the callback `idMatches`. -/
def find (packageId : JSString) : List Json → Except Failure (Option Json)
  | [] => Except.ok none
  | pkg :: rest =>
    match idMatches packageId pkg with
    | Except.error e => Except.error e
    | Except.ok true => Except.ok (some pkg)
    | Except.ok false => find packageId rest

/-- The array on which `manifest.packages.find` runs: `manifest.packages` throws on
`null`, and `.find` is callable only when `packages` is an array. -/
def packagesOf : Json → Except Failure (List Json)
  | Json.obj props =>
    match getProp props (utf16 "packages") with
    | some (Json.arr elements) => Except.ok elements
    | _ => Except.error Failure.typeError
  | _ => Except.error Failure.typeError

/-- The call `packageId.replace(/\//g, '_')`. -/
def replaceSlashes : JSString → JSString
  | [] => []
  | c :: rest => (if c = 47 then 95 else c) :: replaceSlashes rest

/-- The file name in the template literal of `outputPath`. -/
def outputName (packageId : JSString) : JSString := replaceSlashes packageId ++ utf16 ".json"

/-- The value of `manifestPath`. -/
def manifestPath (cwd : Path) : Path := resolve cwd [utf16 "manifests", utf16 "index.json"]

/-- The value of `outputPath`. -/
def outputPath (cwd : Path) (packageId : JSString) : Path :=
  resolve cwd [utf16 "dist", outputName packageId]

/-- The body of `main`: the state it leaves and the failure it throws, if any. -/
def main (env : Env) (p : Process) : Process × Option Failure :=
  let command := env.argv[2]?
  if isHelp command = true then
    (p.emit (Event.stdout HELP_MESSAGE), none)
  else
    let packageId := command.getD []
    let p1 := p.emit (Event.readFile (manifestPath env.cwd))
    match p.fs.files (manifestPath env.cwd) with
    | none => (p1, some (Failure.readError (manifestPath env.cwd)))
    | some manifestRaw =>
      match JSON.parse manifestRaw with
      | none => (p1, some Failure.syntaxError)
      | some manifest =>
        match packagesOf manifest with
        | Except.error e => (p1, some e)
        | Except.ok packages =>
          match find packageId packages with
          | Except.error e => (p1, some e)
          | Except.ok none =>
            ({ p1.emit (Event.stderr
                (utf16 "Package \"" ++ packageId ++ utf16 "\" not found in manifest." ++ [10]))
                with exitCode := some 1 }, none)
          | Except.ok (some entry) =>
            let out := outputPath env.cwd packageId
            let p2 := p1.emit (Event.mkdir (dirname out))
            if env.mkdirOk (dirname out) = true then
              let p3 := { p2 with fs := p2.fs.mkdir (dirname out) }
              let p4 := p3.emit (Event.writeFile out (JSON.stringify entry))
              if env.writeOk out = true then
                ({ p4 with fs := p4.fs.writeFile out (JSON.stringify entry) }.emit
                  (Event.stdout (utf16 "Wrote package metadata to " ++ pathString out ++ [10])),
                  none)
              else (p4, some (Failure.writeError out))
            else (p2, some (Failure.mkdirError (dirname out)))

/-- The script: `main()` with the handler of `.catch`, which prints the failure to
standard error and sets the exit code to `1`. -/
def run (env : Env) (p : Process) : Process :=
  match main env p with
  | (p1, none) => p1
  | (p1, some e) => { p1.emit (Event.stderrError e) with exitCode := some 1 }


/-! ## Notions used to state the properties -/

/-- A string that `resolve` takes as one path segment. -/
def PlainSegment (s : JSString) : Prop := 47 ∉ s ∧ s ≠ [] ∧ s ≠ [46] ∧ s ≠ [46, 46]

/-- An entry whose `id` field is the string `s`. -/
def HasId (s : JSString) (e : Json) : Prop :=
  ∃ props, e = Json.obj props ∧ getProp props (utf16 "id") = some (Json.str s)

/-- The argument of the run, `argv[2]`, read as the package identifier. -/
def packageIdOf (env : Env) : JSString := env.argv[2]?.getD []

/-- A file system that holds the text `raw` at `manifests/index.json` of the working
directory `work` and nothing else. -/
def manifestOnly (raw : JSString) : FileSystem :=
  { files := fun q =>
      if q = [utf16 "work", utf16 "manifests", utf16 "index.json"] then some raw else none,
    dirs := fun _ => false }

/-- A file system without any file. -/
def emptyFs : FileSystem := { files := fun _ => none, dirs := fun _ => false }

/-- A run in the working directory `work` with the given arguments after the script
name, on an operating system that refuses nothing. -/
def envOf (args : List JSString) : Env :=
  { argv := utf16 "node" :: utf16 "scripts/apply-package.mjs" :: args,
    cwd := [utf16 "work"],
    mkdirOk := fun _ => true,
    writeOk := fun _ => true }

/-- The manifest of the scenario of the specification. -/
def scenarioManifest : JSString :=
  utf16 "\x7b\"packages\":[\x7b\"id\":\"agent-install\",\"version\":\"1.0.0\"\x7d]\x7d"

/-- A manifest with four entries: the identifiers of the first two differ from
`agent-install` in letter case and in surrounding blanks, the last two both have it. -/
def variantsManifest : JSString :=
  utf16 ("\x7b\"packages\":[\x7b\"id\":\"Agent-Install\",\"rank\":\"0\"\x7d,"
    ++ "\x7b\"id\":\" agent-install \",\"rank\":\"1\"\x7d,"
    ++ "\x7b\"id\":\"agent-install\",\"rank\":\"2\"\x7d,\x7b\"id\":\"agent-install\",\"rank\":\"3\"\x7d]\x7d")

/-- The entries of `variantsManifest`. -/
def variantsPackages : List Json :=
  [Json.obj [(utf16 "id", Json.str (utf16 "Agent-Install")), (utf16 "rank", Json.str (utf16 "0"))],
   Json.obj [(utf16 "id", Json.str (utf16 " agent-install ")), (utf16 "rank", Json.str (utf16 "1"))],
   Json.obj [(utf16 "id", Json.str (utf16 "agent-install")), (utf16 "rank", Json.str (utf16 "2"))],
   Json.obj [(utf16 "id", Json.str (utf16 "agent-install")), (utf16 "rank", Json.str (utf16 "3"))]]

/-- The entries of `scenarioManifest`. -/
def scenarioPackages : List Json :=
  [Json.obj [(utf16 "id", Json.str (utf16 "agent-install")),
    (utf16 "version", Json.str (utf16 "1.0.0"))]]

/-- A manifest whose only entry has an identifier with a slash. -/
def vendorManifest : JSString := utf16 "\x7b\"packages\":[\x7b\"id\":\"vendor/tool\"\x7d]\x7d"

/-- The entries of `vendorManifest`. -/
def vendorPackages : List Json := [Json.obj [(utf16 "id", Json.str (utf16 "vendor/tool"))]]

/-- The run gets past the help guard, reads the manifest, parses it, takes its
`packages` array, and `find` ends with `r` there. -/
def FindResult (env : Env) (fs : FileSystem) (r : Except Failure (Option Json)) : Prop :=
  isHelp env.argv[2]? = false ∧
  ∃ raw manifest packages, fs.files (manifestPath env.cwd) = some raw ∧
    JSON.parse raw = some manifest ∧ packagesOf manifest = Except.ok packages ∧
    find (packageIdOf env) packages = r

/-- No entry of the manifest matches the identifier. -/
def NoMatch (env : Env) (fs : FileSystem) : Prop := FindResult env fs (Except.ok none)

/-- A failure is thrown during the execution: the manifest file is missing, its text
is not JSON, the manifest has no `packages` array to search, the search itself throws
(a `null` element), or the directory or the file cannot be written. -/
def Throws (env : Env) (fs : FileSystem) : Prop :=
  isHelp env.argv[2]? = false ∧
  (fs.files (manifestPath env.cwd) = none ∨
   (∃ raw, fs.files (manifestPath env.cwd) = some raw ∧ JSON.parse raw = none) ∨
   (∃ raw manifest e, fs.files (manifestPath env.cwd) = some raw ∧
      JSON.parse raw = some manifest ∧ packagesOf manifest = Except.error e) ∨
   (∃ e, FindResult env fs (Except.error e)) ∨
   (∃ entry, FindResult env fs (Except.ok (some entry)) ∧
      (env.mkdirOk (dirname (outputPath env.cwd (packageIdOf env))) = false ∨
       env.writeOk (outputPath env.cwd (packageIdOf env)) = false)))

/-- An entry is found and written. -/
def Written (env : Env) (fs : FileSystem) : Prop :=
  ∃ entry, FindResult env fs (Except.ok (some entry)) ∧
    env.mkdirOk (dirname (outputPath env.cwd (packageIdOf env))) = true ∧
    env.writeOk (outputPath env.cwd (packageIdOf env)) = true

/-! ## Notions used for reading a serialisation back -/

/-- The doubles: significand below `2^53`, exponent field at most `2045`, and a
significand of at least `2^52` unless the exponent field is `0` (subnormals and zero). -/
def ValidDouble (m t : Nat) : Prop := m < 2 ^ 53 ∧ t ≤ 2045 ∧ (t = 0 ∨ 2 ^ 52 ≤ m)

/-- A Number value of the model that is a Number value of the language. -/
def Number.Valid : Number → Prop
  | Number.finite _ m t => ValidDouble m t
  | Number.infinite _ => True

/-- The order of own property keys: distinct keys, array indices ascending, and no
array index after another key. -/
def keyOrder (k1 k2 : JSString) : Prop :=
  k1 ≠ k2 ∧
  match arrayIndex k1, arrayIndex k2 with
  | some i, some j => i < j
  | some _, none => True
  | none, some _ => False
  | none, none => True

mutual
/-- A value as `JSON.parse` builds it: its numbers are doubles and the keys of each
of its objects are in own-property order. -/
def Json.WellFormed : Json → Prop
  | Json.null => True
  | Json.bool _ => True
  | Json.num x => x.Valid
  | Json.str _ => True
  | Json.arr elements => wellFormedList elements
  | Json.obj props => (props.map Prod.fst).Pairwise keyOrder ∧ wellFormedProps props
/-- Every element is well formed. -/
def wellFormedList : List Json → Prop
  | [] => True
  | x :: rest => x.WellFormed ∧ wellFormedList rest
/-- Every property value is well formed. -/
def wellFormedProps : List (JSString × Json) → Prop
  | [] => True
  | p :: rest => p.2.WellFormed ∧ wellFormedProps rest
end

/-- What `JSON.parse` reads from the serialisation of a number: `JSON.stringify`
writes both zeros as `0` and an infinity as `null`. -/
def readBackNumber : Number → Json
  | Number.finite neg m t =>
    if m = 0 then Json.num (Number.finite false 0 0) else Json.num (Number.finite neg m t)
  | Number.infinite _ => Json.null

mutual
/-- What `JSON.parse` reads from the serialisation of a value. -/
def readBack : Json → Json
  | Json.null => Json.null
  | Json.bool b => Json.bool b
  | Json.num x => readBackNumber x
  | Json.str s => Json.str s
  | Json.arr elements => Json.arr (readBackList elements)
  | Json.obj props => Json.obj (readBackProps props)
/-- The function `readBack` on every element. -/
def readBackList : List Json → List Json
  | [] => []
  | x :: rest => readBack x :: readBackList rest
/-- The function `readBack` on every property value. -/
def readBackProps : List (JSString × Json) → List (JSString × Json)
  | [] => []
  | p :: rest => (p.1, readBack p.2) :: readBackProps rest
end

mutual
/-- The tokens of the serialisation of a value. -/
def tokensOf : Json → List Token
  | Json.null => [Token.null]
  | Json.bool b => if b = true then [Token.true] else [Token.false]
  | Json.num x =>
    match readBackNumber x with
    | Json.num y => [Token.number y]
    | _ => [Token.null]
  | Json.str s => [Token.string s]
  | Json.arr elements => Token.lbracket :: (tokensOfElements elements ++ [Token.rbracket])
  | Json.obj props => Token.lbrace :: (tokensOfMembers props ++ [Token.rbrace])
/-- The tokens of the elements of an array, commas included. -/
def tokensOfElements : List Json → List Token
  | [] => []
  | x :: rest =>
    match rest with
    | [] => tokensOf x
    | _ :: _ => tokensOf x ++ Token.comma :: tokensOfElements rest
/-- The tokens of the members of an object, colons and commas included. -/
def tokensOfMembers : List (JSString × Json) → List Token
  | [] => []
  | p :: rest =>
    match rest with
    | [] => Token.string p.1 :: Token.colon :: tokensOf p.2
    | _ :: _ => Token.string p.1 :: Token.colon :: (tokensOf p.2 ++ Token.comma :: tokensOfMembers rest)
end

/-! ## Deep equality -/

/-- Equality of two Number values as deep equality sees it in its most permissive
form: the two zeros are equal. -/
def numberEq : Number → Number → Bool
  | Number.finite n1 m1 t1, Number.finite n2 m2 t2 =>
    (decide (m1 = 0) && decide (m2 = 0)) ||
      (decide (n1 = n2) && decide (m1 = m2) && decide (t1 = t2))
  | Number.infinite n1, Number.infinite n2 => decide (n1 = n2)
  | _, _ => false

mutual
/-- Deep equality of two JSON values: same kind, equal primitives, arrays equal
element by element, objects with the same number of properties and, for every key of
the first, a deep-equal value under that key in the second. -/
def deepEqual : Json → Json → Bool
  | Json.null, w => match w with
    | Json.null => true
    | _ => false
  | Json.bool a, w => match w with
    | Json.bool b => decide (a = b)
    | _ => false
  | Json.num x, w => match w with
    | Json.num y => numberEq x y
    | _ => false
  | Json.str a, w => match w with
    | Json.str b => decide (a = b)
    | _ => false
  | Json.arr xs, w => match w with
    | Json.arr ys => deepEqualList xs ys
    | _ => false
  | Json.obj ps, w => match w with
    | Json.obj qs => decide (ps.length = qs.length) && deepEqualProps ps qs
    | _ => false
/-- Deep equality of two arrays, element by element. -/
def deepEqualList : List Json → List Json → Bool
  | [], ys => ys.isEmpty
  | x :: xs, ys => match ys with
    | [] => false
    | y :: ys1 => deepEqual x y && deepEqualList xs ys1
/-- Every property of the first list has a deep-equal value under its key in the
second. -/
def deepEqualProps : List (JSString × Json) → List (JSString × Json) → Bool
  | [], _ => true
  | p :: ps, qs => (match getProp qs p.1 with
    | some w => deepEqual p.2 w
    | none => false) && deepEqualProps ps qs
end

mutual
/-- No number of the value is an infinity. -/
def allFinite : Json → Bool
  | Json.null => true
  | Json.bool _ => true
  | Json.num x => match x with
    | Number.finite _ _ _ => true
    | Number.infinite _ => false
  | Json.str _ => true
  | Json.arr elements => allFiniteList elements
  | Json.obj props => allFiniteProps props
/-- No number of the elements is an infinity. -/
def allFiniteList : List Json → Bool
  | [] => true
  | x :: rest => allFinite x && allFiniteList rest
/-- No number of the property values is an infinity. -/
def allFiniteProps : List (JSString × Json) → Bool
  | [] => true
  | p :: rest => allFinite p.2 && allFiniteProps rest
end

mutual
/-- No number of the value is the negative zero. -/
def noNegativeZero : Json → Bool
  | Json.null => true
  | Json.bool _ => true
  | Json.num x => match x with
    | Number.finite neg m _ => !(neg && decide (m = 0))
    | Number.infinite _ => true
  | Json.str _ => true
  | Json.arr elements => noNegativeZeroList elements
  | Json.obj props => noNegativeZeroProps props
/-- No number of the elements is the negative zero. -/
def noNegativeZeroList : List Json → Bool
  | [] => true
  | x :: rest => noNegativeZero x && noNegativeZeroList rest
/-- No number of the property values is the negative zero. -/
def noNegativeZeroProps : List (JSString × Json) → Bool
  | [] => true
  | p :: rest => noNegativeZero p.2 && noNegativeZeroProps rest
end

/-- The decimal `M * 10^E` and the fraction `a / b` are the same rational. -/
def SameValue (M : Nat) (E : Int) (a b : Nat) : Prop :=
  (0 ≤ E ∧ M * 10 ^ E.toNat * b = a) ∨ (E < 0 ∧ M * b = a * 10 ^ (-E).toNat)

/-- A text before which a number literal ends: it does not go on with a digit, a
decimal point or an exponent mark. -/
def NumberEnd (rest : JSString) : Prop :=
  ∀ c, rest.head? = some c → ¬ (48 ≤ c ∧ c ≤ 57) ∧ c ≠ 46 ∧ c ≠ 101 ∧ c ≠ 69

/-- The tokens of a text, for every fuel above its length. -/
def Lexes (cs : JSString) (toks : List Token) : Prop :=
  ∀ fuel, cs.length < fuel → lexAux fuel cs = some toks

/-- A text that follows a value in a serialisation: the end, a comma or a line
feed. -/
def Delimited (rest : JSString) : Prop := ∀ c, rest.head? = some c → c = 44 ∨ c = 10

/-- A token whose number, if it is one, is a double. -/
def Token.Valid : Token → Prop
  | Token.number x => x.Valid
  | _ => True

/-- A manifest whose only entry has the identifier `-h`. -/
def helpIdManifest : JSString := utf16 "\x7b\"packages\":[\x7b\"id\":\"-h\"\x7d]\x7d"

/-- The entry of `helpIdManifest`. -/
def helpIdEntry : Json := Json.obj [(utf16 "id", Json.str (utf16 "-h"))]

/-- A manifest whose only entry has a number too large for a double. -/
def overflowManifest : JSString := utf16 "\x7b\"packages\":[\x7b\"id\":\"a\",\"size\":1e400\x7d]\x7d"

/-- The entry of `overflowManifest`, as `JSON.parse` reads it: `1e400` is `Infinity`. -/
def overflowEntry : Json :=
  Json.obj [(utf16 "id", Json.str (utf16 "a")), (utf16 "size", Json.num (Number.infinite false))]

/-- A manifest whose only entry has an array-index key after its `id`. -/
def indexKeyManifest : JSString := utf16 "\x7b\"packages\":[\x7b\"id\":\"a\",\"1\":\"x\"\x7d]\x7d"

/-- A manifest whose only entry has a fraction, a negative number and nested
containers. -/
def numbersManifest : JSString :=
  utf16 "\x7b\"packages\":[\x7b\"id\":\"n\",\"v\":[1.5,-20,true,null],\"o\":\x7b\"k\":\"\\n\"\x7d\x7d]\x7d"

/-- The entry of `numbersManifest`: `1.5` is `3 * 2^51 * 2^(1022 - 1074)` and `20` is
`5 * 2^50 * 2^(1026 - 1074)`. -/
def numbersEntry : Json :=
  Json.obj [(utf16 "id", Json.str (utf16 "n")),
    (utf16 "v", Json.arr [Json.num (Number.finite false 6755399441055744 1022),
      Json.num (Number.finite true 5629499534213120 1026), Json.bool true, Json.null]),
    (utf16 "o", Json.obj [(utf16 "k", Json.str [10])])]

/-- A manifest with two entries whose identifiers differ only by `/` against `_`. -/
def collidingManifest : JSString := utf16 "\x7b\"packages\":[\x7b\"id\":\"a/b\"\x7d,\x7b\"id\":\"a_b\"\x7d]\x7d"

/-- The first entry of `collidingManifest`. -/
def slashEntry : Json := Json.obj [(utf16 "id", Json.str (utf16 "a/b"))]

/-- The second entry of `collidingManifest`. -/
def underscoreEntry : Json := Json.obj [(utf16 "id", Json.str (utf16 "a_b"))]

/-! ## Paths: the two paths of the script -/

theorem splitSlash_of_no_slash (s : JSString) (h : 47 ∉ s) : splitSlash s = [s] := by
  induction s with
  | nil => rfl
  | cons c rest ih =>
    have hc : c ≠ 47 := fun e => h (by simp [e])
    have hr : 47 ∉ rest := fun e => h (by simp [e])
    simp [splitSlash, hc, ih hr]

theorem head_ne_slash (s : JSString) (h : 47 ∉ s) : s.head? ≠ some 47 := by
  cases s with
  | nil => simp
  | cons c rest =>
    have hc : c ≠ 47 := fun e => h (by simp [e])
    simpa using hc


theorem resolve_plain (cwd : Path) (a b : JSString) (ha : PlainSegment a)
    (hb : PlainSegment b) : resolve cwd [a, b] = cwd ++ [a, b] := by
  obtain ⟨ha1, ha2, ha3, ha4⟩ := ha
  obtain ⟨hb1, hb2, hb3, hb4⟩ := hb
  simp [resolve, splitSlash_of_no_slash, ha1, hb1, head_ne_slash, pushSegment, ha2, ha3, ha4,
    hb2, hb3, hb4]

theorem replaceSlashes_eq_map (s : JSString) :
    replaceSlashes s = s.map fun c => if c = 47 then 95 else c := by
  induction s with
  | nil => rfl
  | cons c rest ih => simp [replaceSlashes, ih]

theorem no_slash_replaceSlashes (s : JSString) : 47 ∉ replaceSlashes s := by
  induction s with
  | nil => simp [replaceSlashes]
  | cons c rest ih =>
    simp only [replaceSlashes, List.mem_cons, not_or]
    refine ⟨?_, ih⟩
    by_cases hc : c = 47
    · simp [hc]
    · simp [hc]; omega

theorem utf16_dotjson : utf16 ".json" = [46, 106, 115, 111, 110] := by decide

theorem no_slash_outputName (s : JSString) : 47 ∉ outputName s := by
  simp [outputName, utf16_dotjson, no_slash_replaceSlashes]

theorem plain_outputName (s : JSString) : PlainSegment (outputName s) := by
  refine ⟨no_slash_outputName s, ?_, ?_, ?_⟩ <;>
  · intro h
    have := congrArg List.length h
    simp [outputName, utf16_dotjson] at this
    try omega

theorem plain_dist : PlainSegment (utf16 "dist") := by
  refine ⟨by decide, by decide, by decide, by decide⟩

theorem plain_manifests : PlainSegment (utf16 "manifests") := by
  refine ⟨by decide, by decide, by decide, by decide⟩

theorem plain_index_json : PlainSegment (utf16 "index.json") := by
  refine ⟨by decide, by decide, by decide, by decide⟩

theorem manifestPath_eq (cwd : Path) :
    manifestPath cwd = cwd ++ [utf16 "manifests", utf16 "index.json"] :=
  resolve_plain cwd _ _ plain_manifests plain_index_json

theorem outputPath_eq (cwd : Path) (s : JSString) :
    outputPath cwd s = cwd ++ [utf16 "dist", outputName s] :=
  resolve_plain cwd _ _ plain_dist (plain_outputName s)

theorem dirname_outputPath (cwd : Path) (s : JSString) :
    dirname (outputPath cwd s) = cwd ++ [utf16 "dist"] := by
  rw [outputPath_eq, dirname]
  have : cwd ++ [utf16 "dist", outputName s] = (cwd ++ [utf16 "dist"]) ++ [outputName s] := by simp
  rw [this, List.dropLast_concat]

theorem outputPath_ne_manifestPath (cwd : Path) (s : JSString) :
    outputPath cwd s ≠ manifestPath cwd := by
  rw [outputPath_eq, manifestPath_eq]
  intro h
  have h1 := List.append_cancel_left h
  have h2 : utf16 "dist" = utf16 "manifests" := by
    injection h1
  exact absurd h2 (by decide)

/-! ## The paths through `run` -/

theorem run_help (env : Env) (p : Process) (h : isHelp (env.argv[2]?) = true) :
    run env p = p.emit (Event.stdout HELP_MESSAGE) := by
  simp [run, main, h]

theorem run_read_error (env : Env) (p : Process) (h : isHelp (env.argv[2]?) = false)
    (hf : p.fs.files (manifestPath env.cwd) = none) :
    run env p =
      { (p.emit (Event.readFile (manifestPath env.cwd))).emit
          (Event.stderrError (Failure.readError (manifestPath env.cwd))) with
        exitCode := some 1 } := by
  simp [run, main, h, hf]

theorem run_syntax_error (env : Env) (p : Process) (raw : JSString)
    (h : isHelp (env.argv[2]?) = false)
    (hf : p.fs.files (manifestPath env.cwd) = some raw) (hp : JSON.parse raw = none) :
    run env p =
      { (p.emit (Event.readFile (manifestPath env.cwd))).emit
          (Event.stderrError Failure.syntaxError) with exitCode := some 1 } := by
  simp [run, main, h, hf, hp]

theorem run_packages_error (env : Env) (p : Process) (raw : JSString) (manifest : Json)
    (e : Failure) (h : isHelp (env.argv[2]?) = false)
    (hf : p.fs.files (manifestPath env.cwd) = some raw) (hp : JSON.parse raw = some manifest)
    (hk : packagesOf manifest = Except.error e) :
    run env p =
      { (p.emit (Event.readFile (manifestPath env.cwd))).emit (Event.stderrError e) with
        exitCode := some 1 } := by
  simp [run, main, h, hf, hp, hk]

theorem run_find_error (env : Env) (p : Process) (raw : JSString) (manifest : Json)
    (packages : List Json) (e : Failure) (h : isHelp (env.argv[2]?) = false)
    (hf : p.fs.files (manifestPath env.cwd) = some raw) (hp : JSON.parse raw = some manifest)
    (hk : packagesOf manifest = Except.ok packages)
    (hfind : find ((env.argv[2]?).getD []) packages = Except.error e) :
    run env p =
      { (p.emit (Event.readFile (manifestPath env.cwd))).emit (Event.stderrError e) with
        exitCode := some 1 } := by
  simp [run, main, h, hf, hp, hk, hfind]

theorem run_not_found (env : Env) (p : Process) (raw : JSString) (manifest : Json)
    (packages : List Json) (h : isHelp (env.argv[2]?) = false)
    (hf : p.fs.files (manifestPath env.cwd) = some raw) (hp : JSON.parse raw = some manifest)
    (hk : packagesOf manifest = Except.ok packages)
    (hfind : find ((env.argv[2]?).getD []) packages = Except.ok none) :
    run env p =
      { (p.emit (Event.readFile (manifestPath env.cwd))).emit
          (Event.stderr (utf16 "Package \"" ++ (env.argv[2]?).getD [] ++
            utf16 "\" not found in manifest." ++ [10])) with exitCode := some 1 } := by
  simp [run, main, h, hf, hp, hk, hfind]

theorem run_mkdir_error (env : Env) (p : Process) (raw : JSString) (manifest : Json)
    (packages : List Json) (entry : Json) (h : isHelp (env.argv[2]?) = false)
    (hf : p.fs.files (manifestPath env.cwd) = some raw) (hp : JSON.parse raw = some manifest)
    (hk : packagesOf manifest = Except.ok packages)
    (hfind : find ((env.argv[2]?).getD []) packages = Except.ok (some entry))
    (hm : env.mkdirOk (dirname (outputPath env.cwd ((env.argv[2]?).getD []))) = false) :
    run env p =
      { ((p.emit (Event.readFile (manifestPath env.cwd))).emit
          (Event.mkdir (dirname (outputPath env.cwd ((env.argv[2]?).getD []))))).emit
          (Event.stderrError
            (Failure.mkdirError (dirname (outputPath env.cwd ((env.argv[2]?).getD []))))) with
        exitCode := some 1 } := by
  simp [run, main, h, hf, hp, hk, hfind, hm]

theorem run_write_error (env : Env) (p : Process) (raw : JSString) (manifest : Json)
    (packages : List Json) (entry : Json) (h : isHelp (env.argv[2]?) = false)
    (hf : p.fs.files (manifestPath env.cwd) = some raw) (hp : JSON.parse raw = some manifest)
    (hk : packagesOf manifest = Except.ok packages)
    (hfind : find ((env.argv[2]?).getD []) packages = Except.ok (some entry))
    (hm : env.mkdirOk (dirname (outputPath env.cwd ((env.argv[2]?).getD []))) = true)
    (hw : env.writeOk (outputPath env.cwd ((env.argv[2]?).getD [])) = false) :
    run env p =
      { events := p.events ++
          [Event.readFile (manifestPath env.cwd),
           Event.mkdir (dirname (outputPath env.cwd ((env.argv[2]?).getD []))),
           Event.writeFile (outputPath env.cwd ((env.argv[2]?).getD []))
             (JSON.stringify entry),
           Event.stderrError
             (Failure.writeError (outputPath env.cwd ((env.argv[2]?).getD [])))],
        exitCode := some 1,
        fs := p.fs.mkdir (dirname (outputPath env.cwd ((env.argv[2]?).getD []))) } := by
  simp [run, main, h, hf, hp, hk, hfind, hm, hw, Process.emit]

theorem run_found (env : Env) (p : Process) (raw : JSString) (manifest : Json)
    (packages : List Json) (entry : Json) (h : isHelp (env.argv[2]?) = false)
    (hf : p.fs.files (manifestPath env.cwd) = some raw) (hp : JSON.parse raw = some manifest)
    (hk : packagesOf manifest = Except.ok packages)
    (hfind : find ((env.argv[2]?).getD []) packages = Except.ok (some entry))
    (hm : env.mkdirOk (dirname (outputPath env.cwd ((env.argv[2]?).getD []))) = true)
    (hw : env.writeOk (outputPath env.cwd ((env.argv[2]?).getD [])) = true) :
    run env p =
      { events := p.events ++
          [Event.readFile (manifestPath env.cwd),
           Event.mkdir (dirname (outputPath env.cwd ((env.argv[2]?).getD []))),
           Event.writeFile (outputPath env.cwd ((env.argv[2]?).getD []))
             (JSON.stringify entry),
           Event.stdout (utf16 "Wrote package metadata to " ++
             pathString (outputPath env.cwd ((env.argv[2]?).getD [])) ++ [10])],
        exitCode := p.exitCode,
        fs := (p.fs.mkdir (dirname (outputPath env.cwd ((env.argv[2]?).getD [])))).writeFile
          (outputPath env.cwd ((env.argv[2]?).getD [])) (JSON.stringify entry) } := by
  simp [run, main, h, hf, hp, hk, hfind, hm, hw, Process.emit]

/-! ## The search for the entry -/


theorem hasId_unique {s t : JSString} {e : Json} (hs : HasId s e) (ht : HasId t e) : t = s := by
  obtain ⟨ps, rfl, h1⟩ := hs
  obtain ⟨qs, h2, h3⟩ := ht
  cases h2
  rw [h1] at h3
  injection h3 with h4
  injection h4 with h5
  exact h5.symm

theorem idMatches_true {s : JSString} {e : Json} (h : idMatches s e = Except.ok true) :
    HasId s e := by
  cases e with
  | obj props =>
    simp only [idMatches] at h
    split at h
    · rename_i t ht
      simp at h
      exact ⟨props, rfl, by rw [ht, h]⟩
    · simp at h
  | _ => simp [idMatches] at h

theorem idMatches_false {s : JSString} {e : Json} (h : idMatches s e = Except.ok false) :
    ¬ HasId s e := by
  rintro ⟨props, rfl, hid⟩
  simp [idMatches, hid] at h

theorem idMatches_error {s : JSString} {e : Json} {f : Failure}
    (h : idMatches s e = Except.error f) : e = Json.null := by
  cases e with
  | null => rfl
  | obj props =>
    simp only [idMatches] at h
    split at h <;> simp at h
  | _ => simp [idMatches] at h

theorem idMatches_of_ne_null (s : JSString) {e : Json} (h : e ≠ Json.null) :
    idMatches s e = Except.ok true ∨ idMatches s e = Except.ok false := by
  cases hm : idMatches s e with
  | error f => exact absurd (idMatches_error hm) h
  | ok b => cases b <;> simp

theorem find_some {s : JSString} {packages : List Json} {entry : Json}
    (h : find s packages = Except.ok (some entry)) :
    ∃ i, packages[i]? = some entry ∧ HasId s entry ∧
      ∀ j : Nat, j < i → ∀ e, packages[j]? = some e → ¬ HasId s e := by
  induction packages with
  | nil => simp [find] at h
  | cons pkg rest ih =>
    simp only [find] at h
    split at h
    · simp at h
    · rename_i hm
      simp only [Except.ok.injEq, Option.some.injEq] at h
      subst h
      exact ⟨0, by simp, idMatches_true hm, fun j hj => absurd hj (Nat.not_lt_zero j)⟩
    · rename_i hm
      obtain ⟨i, hi, hid, hbefore⟩ := ih h
      refine ⟨i + 1, by simpa using hi, hid, ?_⟩
      intro j hj e he
      cases j with
      | zero =>
        simp at he
        subst he
        exact idMatches_false hm
      | succ j => exact hbefore j (by omega) e (by simpa using he)

theorem find_none {s : JSString} {packages : List Json}
    (h : find s packages = Except.ok none) : ∀ e ∈ packages, ¬ HasId s e := by
  induction packages with
  | nil => simp
  | cons pkg rest ih =>
    simp only [find] at h
    split at h
    · simp at h
    · simp at h
    · rename_i hm
      intro e he
      rcases List.mem_cons.1 he with rfl | he
      · exact idMatches_false hm
      · exact ih h e he

theorem find_ok_of_no_null (s : JSString) (packages : List Json)
    (h : ∀ e ∈ packages, e ≠ Json.null) : ∃ r, find s packages = Except.ok r := by
  induction packages with
  | nil => exact ⟨none, rfl⟩
  | cons pkg rest ih =>
    obtain ⟨r, hr⟩ := ih (fun e he => h e (List.mem_cons_of_mem _ he))
    rcases idMatches_of_ne_null s (h pkg (List.mem_cons_self _ _)) with hm | hm
    · exact ⟨some pkg, by simp [find, hm]⟩
    · exact ⟨r, by simp [find, hm, hr]⟩

theorem find_none_of_absent (s : JSString) (packages : List Json)
    (h : ∀ e ∈ packages, e ≠ Json.null) (hno : ∀ e ∈ packages, ¬ HasId s e) :
    find s packages = Except.ok none := by
  obtain ⟨r, hr⟩ := find_ok_of_no_null s packages h
  cases r with
  | none => exact hr
  | some entry =>
    obtain ⟨i, hi, hid, -⟩ := find_some hr
    exact absurd hid (hno entry (List.getElem?_mem hi))

theorem find_some_of_present (s : JSString) (packages : List Json)
    (h : ∀ e ∈ packages, e ≠ Json.null) (hyes : ∃ e ∈ packages, HasId s e) :
    ∃ entry, find s packages = Except.ok (some entry) := by
  obtain ⟨r, hr⟩ := find_ok_of_no_null s packages h
  cases r with
  | none =>
    obtain ⟨e, he, hid⟩ := hyes
    exact absurd hid (find_none hr e he)
  | some entry => exact ⟨entry, hr⟩

/-! ## What a run can write -/

theorem events_cases (env : Env) (fs : FileSystem) :
    (∀ path, Event.mkdir path ∈ (run env (Process.start fs)).events →
      path = dirname (outputPath env.cwd (env.argv[2]?.getD []))) ∧
    (∀ path content, Event.writeFile path content ∈ (run env (Process.start fs)).events →
      path = outputPath env.cwd (env.argv[2]?.getD []) ∧
      env.mkdirOk (dirname (outputPath env.cwd (env.argv[2]?.getD []))) = true ∧
      isHelp env.argv[2]? = false ∧
      ∃ raw manifest packages entry, fs.files (manifestPath env.cwd) = some raw ∧
        JSON.parse raw = some manifest ∧ packagesOf manifest = Except.ok packages ∧
        find (env.argv[2]?.getD []) packages = Except.ok (some entry) ∧
        content = JSON.stringify entry) := by
  cases h : isHelp env.argv[2]? with
  | true =>
    rw [run_help env _ h]
    simp [Process.emit, Process.start]
  | false =>
    cases hf : fs.files (manifestPath env.cwd) with
    | none =>
      rw [run_read_error env (Process.start fs) h hf]
      simp [Process.emit, Process.start]
    | some raw =>
      cases hp : JSON.parse raw with
      | none =>
        rw [run_syntax_error env (Process.start fs) raw h hf hp]
        simp [Process.emit, Process.start]
      | some manifest =>
        cases hk : packagesOf manifest with
        | error e =>
          rw [run_packages_error env (Process.start fs) raw manifest e h hf hp hk]
          simp [Process.emit, Process.start]
        | ok packages =>
          cases hfind : find (env.argv[2]?.getD []) packages with
          | error e =>
            rw [run_find_error env (Process.start fs) raw manifest packages e h hf hp hk hfind]
            simp [Process.emit, Process.start]
          | ok r =>
            cases r with
            | none =>
              rw [run_not_found env (Process.start fs) raw manifest packages h hf hp hk hfind]
              simp [Process.emit, Process.start]
            | some entry =>
              cases hm : env.mkdirOk (dirname (outputPath env.cwd (env.argv[2]?.getD []))) with
              | false =>
                rw [run_mkdir_error env (Process.start fs) raw manifest packages entry h hf hp
                  hk hfind hm]
                simp [Process.emit, Process.start]
              | true =>
                cases hw : env.writeOk (outputPath env.cwd (env.argv[2]?.getD [])) with
                | false =>
                  rw [run_write_error env (Process.start fs) raw manifest packages entry h hf hp
                    hk hfind hm hw]
                  simp only [Process.start, List.nil_append, List.mem_cons, List.mem_singleton,
                    reduceCtorEq, false_or, or_false, Event.mkdir.injEq, Event.writeFile.injEq,
                    List.not_mem_nil]
                  refine ⟨fun path hpath => hpath, ?_⟩
                  rintro path content ⟨rfl, rfl⟩
                  exact ⟨rfl, trivial, trivial, raw, manifest, packages, entry, rfl, hp, hk, hfind, rfl⟩
                | true =>
                  rw [run_found env (Process.start fs) raw manifest packages entry h hf hp
                    hk hfind hm hw]
                  simp only [Process.start, List.nil_append, List.mem_cons, List.mem_singleton,
                    reduceCtorEq, false_or, or_false, Event.mkdir.injEq, Event.writeFile.injEq,
                    List.not_mem_nil]
                  refine ⟨fun path hpath => hpath, ?_⟩
                  rintro path content ⟨rfl, rfl⟩
                  exact ⟨rfl, trivial, trivial, raw, manifest, packages, entry, rfl, hp, hk, hfind, rfl⟩

theorem write_event_of_found (env : Env) (fs : FileSystem) (raw : JSString)
    (manifest : Json) (packages : List Json) (entry : Json)
    (h : isHelp env.argv[2]? = false)
    (hf : fs.files (manifestPath env.cwd) = some raw)
    (hp : JSON.parse raw = some manifest)
    (hk : packagesOf manifest = Except.ok packages)
    (hfind : find (env.argv[2]?.getD []) packages = Except.ok (some entry))
    (hm : env.mkdirOk (dirname (outputPath env.cwd (env.argv[2]?.getD []))) = true) :
    Event.writeFile (outputPath env.cwd (env.argv[2]?.getD [])) (JSON.stringify entry)
      ∈ (run env (Process.start fs)).events := by
  cases hw : env.writeOk (outputPath env.cwd (env.argv[2]?.getD [])) with
  | false =>
    rw [run_write_error env (Process.start fs) raw manifest packages entry h hf hp hk hfind
      hm hw]
    simp [Process.start]
  | true =>
    rw [run_found env (Process.start fs) raw manifest packages entry h hf hp hk hfind hm hw]
    simp [Process.start]

/-! ## The help path -/

/-- C4: when the argument is absent, or is exactly `--help` or `-h`, the run writes the
usage text to standard output and does nothing else: no read of the manifest, no
`mkdir`, no `writeFile`; the exit code stays unset (exit status 0) and the file system
is unchanged, whatever the file system holds, a missing manifest included. -/
theorem help_shows_usage (env : Env) (fs : FileSystem)
    (h : env.argv[2]? = none ∨ env.argv[2]? = some (utf16 "--help") ∨
      env.argv[2]? = some (utf16 "-h")) :
    (run env (Process.start fs)).events = [Event.stdout HELP_MESSAGE] ∧
    (run env (Process.start fs)).exitCode = none ∧
    (run env (Process.start fs)).exitStatus = 0 ∧
    (run env (Process.start fs)).fs = fs := by
  have hh : isHelp env.argv[2]? = true := by
    rcases h with h | h | h <;> rw [h] <;> decide
  rw [run_help env _ hh]
  simp [Process.emit, Process.start, Process.exitStatus]

/-- Witness of C4: the three help inputs, on a file system without a manifest. -/
theorem help_shows_usage_witness :
    ((run (envOf []) (Process.start emptyFs)).events = [Event.stdout HELP_MESSAGE] ∧
      (run (envOf []) (Process.start emptyFs)).exitCode = none ∧
      (run (envOf []) (Process.start emptyFs)).exitStatus = 0 ∧
      (run (envOf []) (Process.start emptyFs)).fs = emptyFs) ∧
    ((run (envOf [utf16 "--help"]) (Process.start emptyFs)).events
        = [Event.stdout HELP_MESSAGE] ∧
      (run (envOf [utf16 "--help"]) (Process.start emptyFs)).exitCode = none ∧
      (run (envOf [utf16 "--help"]) (Process.start emptyFs)).exitStatus = 0 ∧
      (run (envOf [utf16 "--help"]) (Process.start emptyFs)).fs = emptyFs) ∧
    ((run (envOf [utf16 "-h"]) (Process.start (manifestOnly scenarioManifest))).events
        = [Event.stdout HELP_MESSAGE] ∧
      (run (envOf [utf16 "-h"]) (Process.start (manifestOnly scenarioManifest))).exitCode = none ∧
      (run (envOf [utf16 "-h"]) (Process.start (manifestOnly scenarioManifest))).exitStatus = 0 ∧
      (run (envOf [utf16 "-h"]) (Process.start (manifestOnly scenarioManifest))).fs
        = manifestOnly scenarioManifest) :=
  ⟨help_shows_usage (envOf []) emptyFs (Or.inl rfl),
    help_shows_usage (envOf [utf16 "--help"]) emptyFs (Or.inr (Or.inl rfl)),
    help_shows_usage (envOf [utf16 "-h"]) (manifestOnly scenarioManifest) (Or.inr (Or.inr rfl))⟩

/-! ## The entry that is selected -/

/-- C1: for a manifest whose `packages` is an array and a non-help identifier `s`, the
entry `find` returns, whose serialisation is all `main` ever writes, is the entry at
the lowest index whose `id` is the string `s` code unit by code unit: no entry before
it has `id` equal to `s`, and the selected entry has no other `id` (so an entry whose
`id` differs in letter case or surrounding white space is never selected).  When no
element of `packages` is `null` and some entry has `id` equal to `s`, an entry is
selected, and it is written when `mkdir` succeeds. -/
theorem main_selects_first_match (env : Env) (fs : FileSystem) (raw : JSString)
    (manifest : Json) (packages : List Json)
    (h : isHelp env.argv[2]? = false)
    (hf : fs.files (manifestPath env.cwd) = some raw)
    (hp : JSON.parse raw = some manifest)
    (hk : packagesOf manifest = Except.ok packages) :
    (∀ entry, find (packageIdOf env) packages = Except.ok (some entry) →
      ∃ i : Nat, packages[i]? = some entry ∧ HasId (packageIdOf env) entry ∧
        (∀ j : Nat, j < i → ∀ e, packages[j]? = some e → ¬ HasId (packageIdOf env) e) ∧
        (∀ t, HasId t entry → t = packageIdOf env)) ∧
    (∀ path content, Event.writeFile path content ∈ (run env (Process.start fs)).events →
      ∃ entry, find (packageIdOf env) packages = Except.ok (some entry) ∧
        content = JSON.stringify entry) ∧
    ((∀ e ∈ packages, e ≠ Json.null) → (∃ e ∈ packages, HasId (packageIdOf env) e) →
      ∃ entry, find (packageIdOf env) packages = Except.ok (some entry)) ∧
    (∀ entry, find (packageIdOf env) packages = Except.ok (some entry) →
      env.mkdirOk (dirname (outputPath env.cwd (packageIdOf env))) = true →
      Event.writeFile (outputPath env.cwd (packageIdOf env)) (JSON.stringify entry)
        ∈ (run env (Process.start fs)).events) := by
  refine ⟨?_, ?_, ?_, ?_⟩
  · intro entry hfind
    obtain ⟨i, hi, hid, hbefore⟩ := find_some hfind
    exact ⟨i, hi, hid, hbefore, fun t ht => hasId_unique hid ht⟩
  · intro path content hmem
    obtain ⟨-, -, -, raw1, manifest1, packages1, entry, hf1, hp1, hk1, hfind, hc⟩ :=
      (events_cases env fs).2 path content hmem
    rw [hf] at hf1
    cases hf1
    rw [hp] at hp1
    cases hp1
    rw [hk] at hk1
    cases hk1
    exact ⟨entry, hfind, hc⟩
  · intro hnull hex
    exact find_some_of_present _ packages hnull hex
  · intro entry hfind hm
    exact write_event_of_found env fs raw manifest packages entry h hf hp hk hfind hm

set_option maxRecDepth 100000 in
/-- Witness of C1: among four entries, two of which differ from the argument in case
or blanks, the third one (index 2) is selected. -/
theorem main_selects_first_match_witness :
    find (utf16 "agent-install") variantsPackages = Except.ok variantsPackages[2]? ∧
    ((∀ entry, find (packageIdOf (envOf [utf16 "agent-install"])) variantsPackages
        = Except.ok (some entry) →
      ∃ i : Nat, variantsPackages[i]? = some entry ∧
        HasId (packageIdOf (envOf [utf16 "agent-install"])) entry ∧
        (∀ j : Nat, j < i → ∀ e, variantsPackages[j]? = some e →
          ¬ HasId (packageIdOf (envOf [utf16 "agent-install"])) e) ∧
        (∀ t, HasId t entry → t = packageIdOf (envOf [utf16 "agent-install"]))) ∧
    (∀ path content, Event.writeFile path content ∈
        (run (envOf [utf16 "agent-install"]) (Process.start (manifestOnly variantsManifest))).events →
      ∃ entry, find (packageIdOf (envOf [utf16 "agent-install"])) variantsPackages
          = Except.ok (some entry) ∧
        content = JSON.stringify entry) ∧
    ((∀ e ∈ variantsPackages, e ≠ Json.null) →
      (∃ e ∈ variantsPackages, HasId (packageIdOf (envOf [utf16 "agent-install"])) e) →
      ∃ entry, find (packageIdOf (envOf [utf16 "agent-install"])) variantsPackages
        = Except.ok (some entry)) ∧
    (∀ entry, find (packageIdOf (envOf [utf16 "agent-install"])) variantsPackages
        = Except.ok (some entry) →
      (envOf [utf16 "agent-install"]).mkdirOk
        (dirname (outputPath (envOf [utf16 "agent-install"]).cwd
          (packageIdOf (envOf [utf16 "agent-install"])))) = true →
      Event.writeFile
        (outputPath (envOf [utf16 "agent-install"]).cwd
          (packageIdOf (envOf [utf16 "agent-install"])))
        (JSON.stringify entry)
        ∈ (run (envOf [utf16 "agent-install"])
            (Process.start (manifestOnly variantsManifest))).events)) :=
  ⟨by rfl,
    main_selects_first_match (envOf [utf16 "agent-install"]) (manifestOnly variantsManifest)
      variantsManifest (Json.obj [(utf16 "packages", Json.arr variantsPackages)])
      variantsPackages (by decide) (by rfl) (by rfl) (by rfl)⟩

/-! ## The not-found path -/

/-- C3: for a non-help identifier `s` and a manifest that parses, whose `packages` is
an array without a `null` element and without an entry of `id` equal to `s`, the run
reads the manifest, writes to standard error the message
`Package "<s>" not found in manifest.`, which contains `s`, and sets the exit code to
`1`; it calls neither `mkdir` nor `writeFile` and leaves the file system as it was. -/
theorem not_found_reports (env : Env) (fs : FileSystem) (raw : JSString)
    (manifest : Json) (packages : List Json)
    (h : isHelp env.argv[2]? = false)
    (hf : fs.files (manifestPath env.cwd) = some raw)
    (hp : JSON.parse raw = some manifest)
    (hk : packagesOf manifest = Except.ok packages)
    (hnull : ∀ e ∈ packages, e ≠ Json.null)
    (habsent : ∀ e ∈ packages, ¬ HasId (packageIdOf env) e) :
    (run env (Process.start fs)).events =
      [Event.readFile (manifestPath env.cwd),
       Event.stderr (utf16 "Package \"" ++ packageIdOf env ++
         utf16 "\" not found in manifest." ++ [10])] ∧
    packageIdOf env <:+: (utf16 "Package \"" ++ packageIdOf env ++
         utf16 "\" not found in manifest." ++ [10]) ∧
    (∀ path, Event.mkdir path ∉ (run env (Process.start fs)).events) ∧
    (∀ path content, Event.writeFile path content ∉ (run env (Process.start fs)).events) ∧
    (run env (Process.start fs)).fs = fs ∧
    (run env (Process.start fs)).exitCode = some 1 ∧
    (run env (Process.start fs)).exitStatus = 1 := by
  have hfind := find_none_of_absent (packageIdOf env) packages hnull habsent
  rw [run_not_found env (Process.start fs) raw manifest packages h hf hp hk hfind]
  refine ⟨by simp [Process.emit, Process.start, packageIdOf], ?_, by simp [Process.emit, Process.start],
    by simp [Process.emit, Process.start], rfl, rfl, rfl⟩
  exact ⟨utf16 "Package \"", utf16 "\" not found in manifest." ++ [10], by simp⟩

/-- Witness of C3: the scenario of the specification with the argument
`missing-pkg`. -/
theorem not_found_reports_witness :
    (run (envOf [utf16 "missing-pkg"]) (Process.start (manifestOnly scenarioManifest))).events =
      [Event.readFile (manifestPath (envOf [utf16 "missing-pkg"]).cwd),
       Event.stderr (utf16 "Package \"" ++ packageIdOf (envOf [utf16 "missing-pkg"]) ++
         utf16 "\" not found in manifest." ++ [10])] ∧
    packageIdOf (envOf [utf16 "missing-pkg"]) <:+:
      (utf16 "Package \"" ++ packageIdOf (envOf [utf16 "missing-pkg"]) ++
         utf16 "\" not found in manifest." ++ [10]) ∧
    (∀ path, Event.mkdir path ∉
      (run (envOf [utf16 "missing-pkg"]) (Process.start (manifestOnly scenarioManifest))).events) ∧
    (∀ path content, Event.writeFile path content ∉
      (run (envOf [utf16 "missing-pkg"]) (Process.start (manifestOnly scenarioManifest))).events) ∧
    (run (envOf [utf16 "missing-pkg"]) (Process.start (manifestOnly scenarioManifest))).fs
      = manifestOnly scenarioManifest ∧
    (run (envOf [utf16 "missing-pkg"]) (Process.start (manifestOnly scenarioManifest))).exitCode
      = some 1 ∧
    (run (envOf [utf16 "missing-pkg"]) (Process.start (manifestOnly scenarioManifest))).exitStatus
      = 1 :=
  not_found_reports (envOf [utf16 "missing-pkg"]) (manifestOnly scenarioManifest)
    scenarioManifest (Json.obj [(utf16 "packages", Json.arr scenarioPackages)])
    scenarioPackages (by decide) (by rfl) (by rfl) (by rfl)
    (by
      intro e he
      simp only [scenarioPackages, List.mem_singleton] at he
      subst he
      exact fun hne => Json.noConfusion hne)
    (by
      intro e he
      simp only [scenarioPackages, List.mem_singleton] at he
      subst he
      rintro ⟨props, hprops, hid⟩
      cases hprops
      have hval : getProp [(utf16 "id", Json.str (utf16 "agent-install")),
          (utf16 "version", Json.str (utf16 "1.0.0"))] (utf16 "id")
          = some (Json.str (utf16 "agent-install")) := by rfl
      rw [hval] at hid
      injection hid with h1
      injection h1 with h2
      exact absurd h2 (by decide))

/-! ## The output path -/

theorem resolve_single (cwd : Path) (a : JSString) (ha : PlainSegment a) :
    resolve cwd [a] = cwd ++ [a] := by
  obtain ⟨ha1, ha2, ha3, ha4⟩ := ha
  simp [resolve, splitSlash_of_no_slash, ha1, head_ne_slash, pushSegment, ha2, ha3, ha4]

theorem outputPath_eq_dist (cwd : Path) (s : JSString) :
    outputPath cwd s = resolve cwd [utf16 "dist"] ++ [outputName s] := by
  rw [outputPath_eq, resolve_single cwd _ plain_dist]
  simp

/-- C5: on the found path the file is written at the output directory `dist` (of the
working directory) joined with the file name made of the identifier, each of its
forward slashes replaced by an underscore, followed by `.json`; `vendor/tool` goes to
`dist/vendor_tool.json`. -/
theorem output_path_sanitized (env : Env) (fs : FileSystem) (raw : JSString)
    (manifest : Json) (packages : List Json) (entry : Json)
    (h : isHelp env.argv[2]? = false)
    (hf : fs.files (manifestPath env.cwd) = some raw)
    (hp : JSON.parse raw = some manifest)
    (hk : packagesOf manifest = Except.ok packages)
    (hfind : find (packageIdOf env) packages = Except.ok (some entry))
    (hm : env.mkdirOk (dirname (outputPath env.cwd (packageIdOf env))) = true) :
    resolve env.cwd [utf16 "dist"] = env.cwd ++ [utf16 "dist"] ∧
    outputPath env.cwd (packageIdOf env) =
      resolve env.cwd [utf16 "dist"] ++
        [(packageIdOf env).map (fun c => if c = 47 then 95 else c) ++ utf16 ".json"] ∧
    Event.writeFile
        (resolve env.cwd [utf16 "dist"] ++
          [(packageIdOf env).map (fun c => if c = 47 then 95 else c) ++ utf16 ".json"])
        (JSON.stringify entry) ∈ (run env (Process.start fs)).events ∧
    (∀ path content, Event.writeFile path content ∈ (run env (Process.start fs)).events →
      path = resolve env.cwd [utf16 "dist"] ++
        [(packageIdOf env).map (fun c => if c = 47 then 95 else c) ++ utf16 ".json"]) ∧
    outputPath env.cwd (utf16 "vendor/tool") = env.cwd ++ [utf16 "dist", utf16 "vendor_tool.json"] ∧
    pathString (outputPath [utf16 "work"] (utf16 "vendor/tool"))
      = utf16 "/work/dist/vendor_tool.json" := by
  have hout : outputPath env.cwd (packageIdOf env) =
      resolve env.cwd [utf16 "dist"] ++
        [(packageIdOf env).map (fun c => if c = 47 then 95 else c) ++ utf16 ".json"] := by
    rw [outputPath_eq_dist, outputName, replaceSlashes_eq_map]
  refine ⟨resolve_single _ _ plain_dist, hout, ?_, ?_, ?_, ?_⟩
  · rw [← hout]
    exact write_event_of_found env fs raw manifest packages entry h hf hp hk hfind hm
  · intro path content hmem
    rw [← hout]
    exact ((events_cases env fs).2 path content hmem).1
  · rw [outputPath_eq]
    rfl
  · rw [outputPath_eq]
    decide

/-- Witness of C5: a manifest with the identifier `vendor/tool`. -/
theorem output_path_sanitized_witness :
    resolve (envOf [utf16 "vendor/tool"]).cwd [utf16 "dist"]
      = (envOf [utf16 "vendor/tool"]).cwd ++ [utf16 "dist"] ∧
    outputPath (envOf [utf16 "vendor/tool"]).cwd (packageIdOf (envOf [utf16 "vendor/tool"])) =
      resolve (envOf [utf16 "vendor/tool"]).cwd [utf16 "dist"] ++
        [(packageIdOf (envOf [utf16 "vendor/tool"])).map (fun c => if c = 47 then 95 else c)
          ++ utf16 ".json"] ∧
    Event.writeFile
        (resolve (envOf [utf16 "vendor/tool"]).cwd [utf16 "dist"] ++
          [(packageIdOf (envOf [utf16 "vendor/tool"])).map (fun c => if c = 47 then 95 else c)
            ++ utf16 ".json"])
        (JSON.stringify (Json.obj [(utf16 "id", Json.str (utf16 "vendor/tool"))]))
      ∈ (run (envOf [utf16 "vendor/tool"]) (Process.start (manifestOnly vendorManifest))).events ∧
    (∀ path content, Event.writeFile path content
        ∈ (run (envOf [utf16 "vendor/tool"]) (Process.start (manifestOnly vendorManifest))).events →
      path = resolve (envOf [utf16 "vendor/tool"]).cwd [utf16 "dist"] ++
        [(packageIdOf (envOf [utf16 "vendor/tool"])).map (fun c => if c = 47 then 95 else c)
          ++ utf16 ".json"]) ∧
    outputPath (envOf [utf16 "vendor/tool"]).cwd (utf16 "vendor/tool")
      = (envOf [utf16 "vendor/tool"]).cwd ++ [utf16 "dist", utf16 "vendor_tool.json"] ∧
    pathString (outputPath [utf16 "work"] (utf16 "vendor/tool"))
      = utf16 "/work/dist/vendor_tool.json" :=
  output_path_sanitized (envOf [utf16 "vendor/tool"]) (manifestOnly vendorManifest)
    vendorManifest (Json.obj [(utf16 "packages", Json.arr vendorPackages)]) vendorPackages
    (Json.obj [(utf16 "id", Json.str (utf16 "vendor/tool"))])
    (by decide) (by rfl) (by rfl) (by rfl) (by rfl) (by rfl)

/-- C9: the file name `main` computes never contains a forward slash, whatever the
identifier; the only directory a run makes is `dist` of the working directory, and any
file it writes is a direct child of that directory: its path is `dist` followed by one
segment without a slash.  The identifiers `../x` and `a/b/c` give `dist/.._x.json` and
`dist/a_b_c.json`. -/
theorem output_stays_in_dist (env : Env) (fs : FileSystem) :
    (∀ s, 47 ∉ outputName s) ∧
    (∀ path, Event.mkdir path ∈ (run env (Process.start fs)).events →
      path = resolve env.cwd [utf16 "dist"]) ∧
    (∀ path content, Event.writeFile path content ∈ (run env (Process.start fs)).events →
      path = resolve env.cwd [utf16 "dist"] ++ [outputName (packageIdOf env)] ∧
      dirname path = resolve env.cwd [utf16 "dist"] ∧
      path.length = (resolve env.cwd [utf16 "dist"]).length + 1) ∧
    outputPath env.cwd (utf16 "../x") = resolve env.cwd [utf16 "dist"] ++ [utf16 ".._x.json"] ∧
    outputPath env.cwd (utf16 "a/b/c") = resolve env.cwd [utf16 "dist"] ++ [utf16 "a_b_c.json"] := by
  refine ⟨no_slash_outputName, ?_, ?_, ?_, ?_⟩
  · intro path hmem
    rw [(events_cases env fs).1 path hmem, dirname_outputPath, resolve_single _ _ plain_dist]
  · intro path content hmem
    have hpath := ((events_cases env fs).2 path content hmem).1
    refine ⟨by rw [hpath, outputPath_eq_dist]; rfl, ?_, ?_⟩
    · rw [hpath, dirname_outputPath, resolve_single _ _ plain_dist]
    · rw [hpath, outputPath_eq_dist]
      simp
  · rw [outputPath_eq_dist]
    rfl
  · rw [outputPath_eq_dist]
    rfl

/-! ## The exit status -/

/-- C6: the exit status of a run is `1` exactly when no entry of the manifest matches
the identifier or a failure is thrown (manifest file missing, text that is not JSON,
no `packages` array, a throwing search, `mkdir` or `writeFile` refused), which is
exactly when `main` ends with a failure; it is `0` exactly when the help is shown
(absent, empty, `--help` or `-h` argument) or an entry is found and written; and it is
never anything else. -/
theorem exit_status_cases (env : Env) (fs : FileSystem) :
    ((run env (Process.start fs)).exitStatus = 1 ↔ NoMatch env fs ∨ Throws env fs) ∧
    ((run env (Process.start fs)).exitStatus = 0 ↔
      isHelp env.argv[2]? = true ∨ Written env fs) ∧
    (Throws env fs ↔ (main env (Process.start fs)).2 ≠ none) ∧
    ((run env (Process.start fs)).exitStatus = 0 ∨
      (run env (Process.start fs)).exitStatus = 1) := by
  cases h : isHelp env.argv[2]? with
  | true =>
    rw [run_help env _ h]
    simp [NoMatch, Throws, Written, FindResult, h, main, Process.exitStatus, Process.emit,
      Process.start]
  | false =>
    cases hf : fs.files (manifestPath env.cwd) with
    | none =>
      rw [run_read_error env (Process.start fs) h hf]
      simp [NoMatch, Throws, Written, FindResult, h, hf, main, Process.exitStatus, Process.emit,
        Process.start]
    | some raw =>
      cases hp : JSON.parse raw with
      | none =>
        rw [run_syntax_error env (Process.start fs) raw h hf hp]
        simp [NoMatch, Throws, Written, FindResult, h, hf, hp, main, Process.exitStatus,
          Process.emit, Process.start]
      | some manifest =>
        cases hk : packagesOf manifest with
        | error e =>
          rw [run_packages_error env (Process.start fs) raw manifest e h hf hp hk]
          simp [NoMatch, Throws, Written, FindResult, h, hf, hp, hk, main, Process.exitStatus,
            Process.emit, Process.start]
        | ok packages =>
          cases hfind : find (env.argv[2]?.getD []) packages with
          | error e =>
            rw [run_find_error env (Process.start fs) raw manifest packages e h hf hp hk hfind]
            simp [NoMatch, Throws, Written, FindResult, h, hf, hp, hk, hfind, main, packageIdOf,
              Process.exitStatus, Process.emit, Process.start]
          | ok r =>
            cases r with
            | none =>
              rw [run_not_found env (Process.start fs) raw manifest packages h hf hp hk hfind]
              simp [NoMatch, Throws, Written, FindResult, h, hf, hp, hk, hfind, main,
                packageIdOf, Process.exitStatus, Process.emit, Process.start]
            | some entry =>
              cases hm : env.mkdirOk (dirname (outputPath env.cwd (env.argv[2]?.getD []))) with
              | false =>
                rw [run_mkdir_error env (Process.start fs) raw manifest packages entry h hf hp
                  hk hfind hm]
                simp [NoMatch, Throws, Written, FindResult, h, hf, hp, hk, hfind, hm, main,
                  packageIdOf, Process.exitStatus, Process.emit, Process.start]
              | true =>
                cases hw : env.writeOk (outputPath env.cwd (env.argv[2]?.getD [])) with
                | false =>
                  rw [run_write_error env (Process.start fs) raw manifest packages entry h hf hp
                    hk hfind hm hw]
                  simp [NoMatch, Throws, Written, FindResult, h, hf, hp, hk, hfind, hm, hw, main,
                    packageIdOf, Process.exitStatus, Process.emit, Process.start]
                | true =>
                  rw [run_found env (Process.start fs) raw manifest packages entry h hf hp
                    hk hfind hm hw]
                  simp [NoMatch, Throws, Written, FindResult, h, hf, hp, hk, hfind, hm, hw, main,
                    packageIdOf, Process.exitStatus, Process.emit, Process.start]

/-! ## Running the script twice -/

theorem mkdir_mkdir (fs : FileSystem) (d : Path) : (fs.mkdir d).mkdir d = fs.mkdir d := by
  simp only [FileSystem.mkdir]
  congr 1
  funext q
  cases fs.dirs q <;> simp

theorem writeFile_writeFile (fs : FileSystem) (path : Path) (content : JSString) :
    (fs.writeFile path content).writeFile path content = fs.writeFile path content := by
  simp only [FileSystem.writeFile]
  congr 1
  funext q
  by_cases hq : q = path <;> simp [hq]

theorem mkdir_writeFile_comm (fs : FileSystem) (d path : Path) (content : JSString) :
    (fs.writeFile path content).mkdir d = (fs.mkdir d).writeFile path content := rfl

theorem files_mkdir (fs : FileSystem) (d : Path) : (fs.mkdir d).files = fs.files := rfl

theorem files_writeFile_manifest (fs : FileSystem) (cwd : Path) (s content : JSString) :
    (fs.writeFile (outputPath cwd s) content).files (manifestPath cwd)
      = fs.files (manifestPath cwd) := by
  simp [FileSystem.writeFile, (outputPath_ne_manifestPath cwd s).symm]

/-- C8: a second run with the same arguments, on the file system the first run left,
does what the first run did: the same events in the same order (so the same output
path and the same content, byte for byte, in `writeFile`), the same exit code, and it
leaves the file system exactly as the first run left it; a file the first run wrote
holds the same content after either run. -/
theorem run_twice_same (env : Env) (fs : FileSystem) :
    (run env (Process.start (run env (Process.start fs)).fs)).events
      = (run env (Process.start fs)).events ∧
    (run env (Process.start (run env (Process.start fs)).fs)).exitCode
      = (run env (Process.start fs)).exitCode ∧
    (run env (Process.start (run env (Process.start fs)).fs)).fs
      = (run env (Process.start fs)).fs ∧
    (∀ path content, Event.writeFile path content ∈ (run env (Process.start fs)).events →
      env.writeOk path = true →
      Event.writeFile path content
        ∈ (run env (Process.start (run env (Process.start fs)).fs)).events ∧
      (run env (Process.start fs)).fs.files path = some content ∧
      (run env (Process.start (run env (Process.start fs)).fs)).fs.files path = some content) := by
  have key : run env (Process.start (run env (Process.start fs)).fs)
      = run env (Process.start fs) := by
    cases h : isHelp env.argv[2]? with
    | true =>
      rw [run_help env _ h, run_help env _ h]
      rfl
    | false =>
      cases hf : fs.files (manifestPath env.cwd) with
      | none =>
        rw [run_read_error env (Process.start fs) h hf]
        exact run_read_error env (Process.start fs) h hf
      | some raw =>
        cases hp : JSON.parse raw with
        | none =>
          rw [run_syntax_error env (Process.start fs) raw h hf hp]
          exact run_syntax_error env (Process.start fs) raw h hf hp
        | some manifest =>
          cases hk : packagesOf manifest with
          | error e =>
            rw [run_packages_error env (Process.start fs) raw manifest e h hf hp hk]
            exact run_packages_error env (Process.start fs) raw manifest e h hf hp hk
          | ok packages =>
            cases hfind : find (env.argv[2]?.getD []) packages with
            | error e =>
              rw [run_find_error env (Process.start fs) raw manifest packages e h hf hp hk hfind]
              exact run_find_error env (Process.start fs) raw manifest packages e h hf hp hk
                hfind
            | ok r =>
              cases r with
              | none =>
                rw [run_not_found env (Process.start fs) raw manifest packages h hf hp hk hfind]
                exact run_not_found env (Process.start fs) raw manifest packages h hf hp hk hfind
              | some entry =>
                cases hm : env.mkdirOk (dirname (outputPath env.cwd (env.argv[2]?.getD []))) with
                | false =>
                  rw [run_mkdir_error env (Process.start fs) raw manifest packages entry h hf hp
                    hk hfind hm]
                  exact run_mkdir_error env (Process.start fs) raw manifest packages entry h hf
                    hp hk hfind hm
                | true =>
                  cases hw : env.writeOk (outputPath env.cwd (env.argv[2]?.getD [])) with
                  | false =>
                    rw [run_write_error env (Process.start fs) raw manifest packages entry h hf
                      hp hk hfind hm hw]
                    rw [run_write_error env (Process.start _) raw manifest packages entry h
                      (by simpa [Process.start, files_mkdir] using hf) hp hk hfind hm hw]
                    simp [Process.start, mkdir_mkdir]
                  | true =>
                    rw [run_found env (Process.start fs) raw manifest packages entry h hf
                      hp hk hfind hm hw]
                    rw [run_found env (Process.start _) raw manifest packages entry h
                      (by
                        simp only [Process.start]
                        rw [files_writeFile_manifest, files_mkdir]
                        exact hf) hp hk hfind hm hw]
                    simp only [Process.start, List.nil_append]
                    rw [mkdir_writeFile_comm, mkdir_mkdir, writeFile_writeFile]
  rw [key]
  refine ⟨rfl, rfl, rfl, ?_⟩
  intro path content hmem hw
  refine ⟨hmem, ?_, ?_⟩ <;>
  · obtain ⟨hpath, hm, h, raw, manifest, packages, entry, hf, hp, hk, hfind, hc⟩ :=
      (events_cases env fs).2 path content hmem
    subst hpath
    rw [run_found env (Process.start fs) raw manifest packages entry h hf hp hk hfind hm hw, hc]
    simp [FileSystem.writeFile]

/-! ## Rounding to a double -/

theorem log2Bound_spec (n : Nat) :
    ∀ fuel j, n < 2 ^ 2 ^ (j + fuel) → n < 2 ^ 2 ^ log2Bound n fuel j := by
  intro fuel
  induction fuel with
  | zero =>
    intro j h
    exact h
  | succ f ih =>
    intro j h
    simp only [log2Bound]
    split
    · assumption
    · exact ih (j + 1) (by
        have e : j + 1 + f = j + (f + 1) := by omega
        rw [e]
        exact h)

theorem log2Search_spec (n : Nat) :
    ∀ i acc, 2 ^ acc ≤ n → n < 2 ^ (acc + 2 ^ i) →
      2 ^ log2Search n i acc ≤ n ∧ n < 2 ^ (log2Search n i acc + 1) := by
  intro i
  induction i with
  | zero =>
    intro acc h1 h2
    exact ⟨h1, h2⟩
  | succ i ih =>
    intro acc h1 h2
    simp only [log2Search]
    have e : acc + 2 ^ (i + 1) = acc + 2 ^ i + 2 ^ i := by
      rw [pow_succ]
      omega
    split
    · rename_i hle
      exact ih (acc + 2 ^ i) hle (by rw [← e]; exact h2)
    · rename_i hlt
      exact ih acc h1 (by omega)

theorem log2_bounds (n : Nat) (h0 : n ≠ 0) : 2 ^ log2 n ≤ n ∧ n < 2 ^ (log2 n + 1) := by
  apply log2Search_spec
  · simp only [pow_zero]
    omega
  · rw [Nat.zero_add]
    apply log2Bound_spec
    rw [Nat.zero_add]
    have h1 : n < 2 ^ n := Nat.lt_two_pow n
    have h2 : 2 ^ n ≤ 2 ^ 2 ^ n := Nat.pow_le_pow_right (by decide) (Nat.le_of_lt h1)
    omega

theorem log2_zero : log2 0 = 0 := rfl

theorem log2_eq_of_bounds (n L : Nat) (h1 : 2 ^ L ≤ n) (h2 : n < 2 ^ (L + 1)) :
    log2 n = L := by
  have h0 : n ≠ 0 := by
    have : 0 < 2 ^ L := pow_pos (by decide) _
    omega
  obtain ⟨b1, b2⟩ := log2_bounds n h0
  have c1 : L < log2 n + 1 :=
    (Nat.pow_lt_pow_iff_right (by decide : 1 < 2)).1 (Nat.lt_of_le_of_lt h1 b2)
  have c2 : log2 n < L + 1 :=
    (Nat.pow_lt_pow_iff_right (by decide : 1 < 2)).1 (Nat.lt_of_le_of_lt b1 h2)
  omega

theorem roundHalfEven_scale (A D c : Nat) (hc : 0 < c) :
    roundHalfEven (A * c) (D * c) = roundHalfEven A D := by
  have e1 : A * c / (D * c) = A / D := Nat.mul_div_mul_right A D hc
  have e2 : A * c % (D * c) = A % D * c := Nat.mul_mod_mul_right c A D
  have e3 : 2 * (A % D * c) = 2 * (A % D) * c := by ring
  have c1 : 2 * (A % D) * c < D * c ↔ 2 * (A % D) < D := Nat.mul_lt_mul_right hc
  have c2 : D * c < 2 * (A % D) * c ↔ D < 2 * (A % D) := Nat.mul_lt_mul_right hc
  simp only [roundHalfEven, e1, e2, e3, c1, c2]

theorem roundToNumber_scale (neg : Bool) (a b c : Nat) (hc : 0 < c) :
    roundToNumber neg (a * c) (b * c) = roundToNumber neg a b := by
  have e1 : a * c * 2 ^ 1074 = a * 2 ^ 1074 * c := by ring
  have e2 : ∀ t : Nat, b * c * 2 ^ t = b * 2 ^ t * c := fun t => by ring
  simp only [roundToNumber, e1, e2, Nat.mul_div_mul_right _ _ hc, roundHalfEven_scale _ _ _ hc]

theorem roundToNumber_congr (neg : Bool) (a b c d : Nat) (hb : 0 < b) (hd : 0 < d)
    (h : a * d = c * b) : roundToNumber neg a b = roundToNumber neg c d := by
  rw [← roundToNumber_scale neg a b d hd, ← roundToNumber_scale neg c d b hb, h,
    Nat.mul_comm b d]

theorem roundToNumber_unfold (neg : Bool) (a b : Nat) :
    roundToNumber neg a b =
      if roundHalfEven (a * 2 ^ 1074) (b * 2 ^ (log2 (a * 2 ^ 1074 / b) - 52)) = 2 ^ 53 then
        if 2045 < log2 (a * 2 ^ 1074 / b) - 52 + 1 then Number.infinite neg
        else Number.finite neg (2 ^ 52) (log2 (a * 2 ^ 1074 / b) - 52 + 1)
      else
        if 2045 < log2 (a * 2 ^ 1074 / b) - 52 then Number.infinite neg
        else Number.finite neg
          (roundHalfEven (a * 2 ^ 1074) (b * 2 ^ (log2 (a * 2 ^ 1074 / b) - 52)))
          (log2 (a * 2 ^ 1074 / b) - 52) := by
  unfold roundToNumber
  by_cases h : roundHalfEven (a * 2 ^ 1074) (b * 2 ^ (log2 (a * 2 ^ 1074 / b) - 52)) = 2 ^ 53
  · simp only [h, if_true]
  · simp only [h, if_false]

theorem roundToNumber_sign (neg : Bool) (a b m t : Nat)
    (h : roundToNumber false a b = Number.finite false m t) :
    roundToNumber neg a b = Number.finite neg m t := by
  rw [roundToNumber_unfold] at h ⊢
  split at h
  · rename_i hR
    rw [if_pos hR]
    split at h
    · exact absurd h (fun e => Number.noConfusion e)
    · rename_i hT
      rw [if_neg hT]
      injection h with h1 h2 h3
      rw [h2, h3]
  · rename_i hR
    rw [if_neg hR]
    split at h
    · exact absurd h (fun e => Number.noConfusion e)
    · rename_i hT
      rw [if_neg hT]
      injection h with h1 h2 h3
      rw [h2, h3]

theorem roundHalfEven_bounds (A D : Nat) :
    A / D ≤ roundHalfEven A D ∧ roundHalfEven A D ≤ A / D + 1 := by
  simp only [roundHalfEven]
  split
  · omega
  · split
    · omega
    · split <;> omega

theorem quotient_cases (q : Nat) :
    (log2 q - 52 = 0 ∧ q / 2 ^ (log2 q - 52) < 2 ^ 52) ∨
      (2 ^ 52 ≤ q / 2 ^ (log2 q - 52) ∧ q / 2 ^ (log2 q - 52) < 2 ^ 53) := by
  by_cases hq0 : q = 0
  · left
    subst hq0
    simp [log2_zero]
  · obtain ⟨b1, b2⟩ := log2_bounds q hq0
    by_cases hL : log2 q < 52
    · left
      have ht0 : log2 q - 52 = 0 := by omega
      refine ⟨ht0, ?_⟩
      rw [ht0]
      simp only [pow_zero, Nat.div_one]
      have : 2 ^ (log2 q + 1) ≤ 2 ^ 52 := Nat.pow_le_pow_right (by decide) (by omega)
      omega
    · right
      have hsplit : log2 q = (log2 q - 52) + 52 := by omega
      have p1 : 2 ^ log2 q = 2 ^ 52 * 2 ^ (log2 q - 52) := by
        conv_lhs => rw [hsplit]
        rw [pow_add, Nat.mul_comm]
      have p2 : 2 ^ (log2 q + 1) = 2 ^ 53 * 2 ^ (log2 q - 52) := by
        have : log2 q + 1 = (log2 q - 52) + 53 := by omega
        conv_lhs => rw [this]
        rw [pow_add, Nat.mul_comm]
      have hpos : 0 < 2 ^ (log2 q - 52) := pow_pos (by decide) _
      constructor
      · rw [Nat.le_div_iff_mul_le hpos, ← p1]
        exact b1
      · rw [Nat.div_lt_iff_lt_mul hpos, ← p2]
        exact b2

theorem roundToNumber_valid (neg neg1 : Bool) (a b m t : Nat)
    (h : roundToNumber neg a b = Number.finite neg1 m t) : ValidDouble m t := by
  rw [roundToNumber_unfold] at h
  have hquot : a * 2 ^ 1074 / (b * 2 ^ (log2 (a * 2 ^ 1074 / b) - 52))
      = a * 2 ^ 1074 / b / 2 ^ (log2 (a * 2 ^ 1074 / b) - 52) := by
    rw [Nat.div_div_eq_div_mul]
  obtain ⟨r1, r2⟩ := roundHalfEven_bounds (a * 2 ^ 1074)
    (b * 2 ^ (log2 (a * 2 ^ 1074 / b) - 52))
  rw [hquot] at r1 r2
  have hcase := quotient_cases (a * 2 ^ 1074 / b)
  generalize roundHalfEven (a * 2 ^ 1074) (b * 2 ^ (log2 (a * 2 ^ 1074 / b) - 52)) = R
    at h r1 r2
  generalize a * 2 ^ 1074 / b / 2 ^ (log2 (a * 2 ^ 1074 / b) - 52) = Q at r1 r2 hcase
  generalize log2 (a * 2 ^ 1074 / b) - 52 = T at h hcase
  have k52 : (2 : Nat) ^ 53 = 2 * 2 ^ 52 := by rw [pow_succ]; omega
  have kpos : 0 < (2 : Nat) ^ 52 := pow_pos (by decide) _
  unfold ValidDouble
  generalize (2 : Nat) ^ 53 = P53 at k52 hcase h ⊢
  generalize (2 : Nat) ^ 52 = P at k52 kpos hcase h ⊢
  split at h
  · split at h
    · exact absurd h (fun e => Number.noConfusion e)
    · injection h with h1 h2 h3
      omega
  · split at h
    · exact absurd h (fun e => Number.noConfusion e)
    · injection h with h1 h2 h3
      omega

theorem roundToNumber_exact (neg : Bool) (m t : Nat) (h : ValidDouble m t) :
    roundToNumber neg (m * 2 ^ t) (2 ^ 1074) = Number.finite neg m t := by
  obtain ⟨h1, h2, h3⟩ := h
  have hpos : 0 < (2 : Nat) ^ 1074 := pow_pos (by decide) _
  have hq : m * 2 ^ t * 2 ^ 1074 / 2 ^ 1074 = m * 2 ^ t := Nat.mul_div_cancel _ hpos
  have hlog : log2 (m * 2 ^ t) - 52 = t := by
    rcases h3 with h3 | h3
    · subst h3
      simp only [pow_zero, Nat.mul_one]
      by_cases hm : m = 0
      · subst hm
        rfl
      · obtain ⟨b1, b2⟩ := log2_bounds m hm
        have : log2 m < 53 := (Nat.pow_lt_pow_iff_right (by decide : 1 < 2)).1
          (Nat.lt_of_le_of_lt b1 h1)
        omega
    · have : log2 (m * 2 ^ t) = 52 + t := by
        apply log2_eq_of_bounds
        · rw [pow_add]
          exact Nat.mul_le_mul_right _ h3
        · have : 52 + t + 1 = 53 + t := by omega
          rw [this, pow_add]
          exact Nat.mul_lt_mul_of_pos_right h1 (pow_pos (by decide) _)
      omega
  rw [roundToNumber_unfold, hq, hlog]
  have hround : roundHalfEven (m * 2 ^ t * 2 ^ 1074) (2 ^ 1074 * 2 ^ t) = m := by
    have e : m * 2 ^ t * 2 ^ 1074 = m * (2 ^ 1074 * 2 ^ t) := by ring
    have hD : 0 < 2 ^ 1074 * 2 ^ t := Nat.mul_pos hpos (pow_pos (by decide) _)
    simp only [roundHalfEven, e, Nat.mul_mod_left, Nat.mul_zero, hD, if_true,
      Nat.mul_div_cancel _ hD]
  rw [hround, if_neg (Nat.ne_of_lt h1), if_neg (by omega)]

theorem decimalToNumber_sign (neg : Bool) (M : Nat) (E : Int) (m t : Nat)
    (h : decimalToNumber false M E = Number.finite false m t) :
    decimalToNumber neg M E = Number.finite neg m t := by
  unfold decimalToNumber at h ⊢
  split
  · rename_i hE
    rw [if_pos hE] at h
    exact roundToNumber_sign neg _ _ m t h
  · rename_i hE
    rw [if_neg hE] at h
    exact roundToNumber_sign neg _ _ m t h

theorem decimalToNumber_valid (neg neg1 : Bool) (M : Nat) (E : Int) (m t : Nat)
    (h : decimalToNumber neg M E = Number.finite neg1 m t) : ValidDouble m t := by
  unfold decimalToNumber at h
  split at h <;> exact roundToNumber_valid _ _ _ _ _ _ h

theorem decimalToNumber_number_valid (neg : Bool) (M : Nat) (E : Int) :
    (decimalToNumber neg M E).Valid := by
  cases h : decimalToNumber neg M E with
  | finite neg1 m t => exact decimalToNumber_valid neg neg1 M E m t h
  | infinite neg1 => trivial

theorem decimalToNumber_eq_round (neg : Bool) (M : Nat) (E : Int) (a b : Nat) (hb : 0 < b)
    (h : SameValue M E a b) : decimalToNumber neg M E = roundToNumber neg a b := by
  unfold decimalToNumber
  rcases h with ⟨hE, h⟩ | ⟨hE, h⟩
  · rw [if_pos hE]
    exact roundToNumber_congr neg _ _ _ _ (by decide) hb (by rw [h, Nat.mul_one])
  · rw [if_neg (by omega)]
    exact roundToNumber_congr neg _ _ _ _ (pow_pos (by decide) _) hb h

theorem roundToNumber_zero (neg : Bool) (b : Nat) (hb : 0 < b) :
    roundToNumber neg 0 b = Number.finite neg 0 0 := by
  have h1 := roundToNumber_congr neg 0 b (0 * 2 ^ 0) (2 ^ 1074) hb (pow_pos (by decide) _)
    (by rw [Nat.zero_mul, Nat.zero_mul, Nat.zero_mul])
  rw [h1]
  exact roundToNumber_exact neg 0 0 ⟨pow_pos (by decide) _, by omega, Or.inl rfl⟩

/-! ## The digits of `Number::toString` denote the double -/

theorem sameValue_shift (s j : Nat) (e : Int) (he : e = (j : Int) - 1074) :
    SameValue s e (s * 10 ^ j) (10 ^ 1074) := by
  by_cases h0 : 0 ≤ e
  · left
    refine ⟨h0, ?_⟩
    have hj : j = e.toNat + 1074 := by omega
    rw [hj, pow_add, Nat.mul_assoc]
  · right
    refine ⟨by omega, ?_⟩
    have hj : 1074 = j + (-e).toNat := by omega
    conv_lhs => rw [hj]
    rw [pow_add, Nat.mul_assoc]

theorem ten_pow_1074 : (10 : Nat) ^ 1074 = 2 ^ 1074 * 5 ^ 1074 := by
  rw [← Nat.mul_pow]

theorem exact_digits_round (m t : Nat) (hv : ValidDouble m t) :
    decimalToNumber false (m * 2 ^ t * 5 ^ 1074) (-1074) = Number.finite false m t := by
  rw [decimalToNumber_eq_round false _ _ (m * 2 ^ t * 5 ^ 1074 * 10 ^ 0) (10 ^ 1074)
    (pow_pos (by decide) _) (sameValue_shift _ 0 _ (by norm_num))]
  rw [pow_zero, Nat.mul_one,
    roundToNumber_congr false _ (10 ^ 1074) (m * 2 ^ t) (2 ^ 1074) (pow_pos (by decide) _)
      (pow_pos (by decide) _) (by rw [ten_pow_1074]; ring)]
  exact roundToNumber_exact false m t hv

theorem candidate_valid (m t s j : Nat) (e : Int) (hm : 0 < m) (he : e = (j : Int) - 1074)
    (h : roundToNumber false (s * 10 ^ j) (10 ^ 1074) = Number.finite false m t) :
    decimalToNumber false s e = Number.finite false m t ∧ 0 < s := by
  constructor
  · rw [decimalToNumber_eq_round false s e _ _ (pow_pos (by decide) _) (sameValue_shift s j e he)]
    exact h
  · rcases Nat.eq_zero_or_pos s with hs | hs
    · subst hs
      rw [Nat.zero_mul, roundToNumber_zero false _ (pow_pos (by decide) _)] at h
      injection h with h1 h2 h3
      omega
    · exact hs

theorem shortestSearch_valid (m t L : Nat) (hv : ValidDouble m t) (hm : 0 < m) :
    ∀ fuel k, fuel + k = L + 1 → 1 ≤ k →
      decimalToNumber false (shortestSearch m t (m * 2 ^ t * 5 ^ 1074) L fuel k).1
        (shortestSearch m t (m * 2 ^ t * 5 ^ 1074) L fuel k).2 = Number.finite false m t ∧
      0 < (shortestSearch m t (m * 2 ^ t * 5 ^ 1074) L fuel k).1 := by
  intro fuel
  induction fuel with
  | zero =>
    intro k _ _
    refine ⟨exact_digits_round m t hv, ?_⟩
    exact Nat.mul_pos (Nat.mul_pos hm (pow_pos (by decide) _)) (pow_pos (by decide) _)
  | succ f ih =>
    intro k hk hk1
    generalize m * 2 ^ t * 5 ^ 1074 = Z at ih ⊢
    have he : ((L : Int) - (k : Int) - 1074) = ((L - k : Nat) : Int) - 1074 := by omega
    have hlo : roundToNumber false (Z / 10 ^ (L - k) * 10 ^ (L - k)) (10 ^ 1074)
          = Number.finite false m t →
        decimalToNumber false (Z / 10 ^ (L - k)) ((L : Int) - (k : Int) - 1074)
          = Number.finite false m t ∧ 0 < Z / 10 ^ (L - k) :=
      fun h => candidate_valid m t _ (L - k) _ hm he h
    have hhi : roundToNumber false ((Z / 10 ^ (L - k) + 1) * 10 ^ (L - k)) (10 ^ 1074)
          = Number.finite false m t →
        decimalToNumber false
          (if Z / 10 ^ (L - k) + 1 = 10 ^ k then
            ((10 ^ (k - 1), (L : Int) - (k : Int) - 1074 + 1) : Nat × Int)
           else (Z / 10 ^ (L - k) + 1, (L : Int) - (k : Int) - 1074)).1
          (if Z / 10 ^ (L - k) + 1 = 10 ^ k then
            ((10 ^ (k - 1), (L : Int) - (k : Int) - 1074 + 1) : Nat × Int)
           else (Z / 10 ^ (L - k) + 1, (L : Int) - (k : Int) - 1074)).2
          = Number.finite false m t ∧
        0 < (if Z / 10 ^ (L - k) + 1 = 10 ^ k then
            ((10 ^ (k - 1), (L : Int) - (k : Int) - 1074 + 1) : Nat × Int)
           else (Z / 10 ^ (L - k) + 1, (L : Int) - (k : Int) - 1074)).1 := by
      intro h
      split
      · rename_i hc
        apply candidate_valid m t _ (L - k + 1) _ hm (by omega)
        rw [hc] at h
        have hsum : k - 1 + (L - k + 1) = k + (L - k) := by omega
        have : 10 ^ (k - 1) * 10 ^ (L - k + 1) = 10 ^ k * 10 ^ (L - k) := by
          rw [← pow_add, ← pow_add, hsum]
        rw [this]
        exact h
      · exact candidate_valid m t _ (L - k) _ hm he h
    simp only [shortestSearch]
    by_cases c1 : roundToNumber false (Z / 10 ^ (L - k) * 10 ^ (L - k)) (10 ^ 1074)
        = Number.finite false m t
    · rw [if_pos c1]
      by_cases c2 : Z % 10 ^ (L - k) ≠ 0 ∧
          roundToNumber false ((Z / 10 ^ (L - k) + 1) * 10 ^ (L - k)) (10 ^ 1074)
            = Number.finite false m t
      · rw [if_pos c2]
        by_cases c3 : 2 * (Z % 10 ^ (L - k)) < 10 ^ (L - k)
        · rw [if_pos c3]
          exact hlo c1
        · rw [if_neg c3]
          by_cases c4 : 10 ^ (L - k) < 2 * (Z % 10 ^ (L - k))
          · rw [if_pos c4]
            exact hhi c2.2
          · rw [if_neg c4]
            by_cases c5 : Z / 10 ^ (L - k) % 2 = 0
            · rw [if_pos c5]
              exact hlo c1
            · rw [if_neg c5]
              exact hhi c2.2
      · rw [if_neg c2]
        exact hlo c1
    · rw [if_neg c1]
      by_cases c2 : Z % 10 ^ (L - k) ≠ 0 ∧
          roundToNumber false ((Z / 10 ^ (L - k) + 1) * 10 ^ (L - k)) (10 ^ 1074)
            = Number.finite false m t
      · rw [if_pos c2]
        exact hhi c2.2
      · rw [if_neg c2]
        exact ih (k + 1) (by omega) (by omega)

theorem shortestDigits_valid (m t : Nat) (hv : ValidDouble m t) (hm : 0 < m) :
    decimalToNumber false (shortestDigits m t).1 (shortestDigits m t).2
      = Number.finite false m t ∧ 0 < (shortestDigits m t).1 :=
  shortestSearch_valid m t _ hv hm _ 1 rfl (Nat.le_refl 1)

/-! ## Decimal digits -/

theorem digitsFuel_acc (fuel n : Nat) (acc : JSString) :
    digitsFuel fuel n acc = digitsFuel fuel n [] ++ acc := by
  induction fuel generalizing n acc with
  | zero => rfl
  | succ f ih =>
    simp only [digitsFuel]
    split
    · rfl
    · rw [ih (n / 10) ((48 + n % 10) :: acc), ih (n / 10) [48 + n % 10]]
      simp

theorem digitsFuel_fuel (f g n : Nat) (hf : n < f) (hg : n < g) :
    digitsFuel f n [] = digitsFuel g n [] := by
  induction f generalizing g n with
  | zero => omega
  | succ f ih =>
    cases g with
    | zero => omega
    | succ g =>
      simp only [digitsFuel]
      split
      · rfl
      · rw [digitsFuel_acc f, digitsFuel_acc g, ih g (n / 10) (by omega) (by omega)]

theorem decimalDigits_small (n : Nat) (h : n < 10) : decimalDigits n = [48 + n] := by
  simp [decimalDigits, digitsFuel, h]

theorem decimalDigits_large (n : Nat) (h : ¬ n < 10) :
    decimalDigits n = decimalDigits (n / 10) ++ [48 + n % 10] := by
  have e : digitsFuel (n + 1) n [] = digitsFuel n (n / 10) [48 + n % 10] := by
    simp only [digitsFuel, h, if_false]
  unfold decimalDigits
  rw [e, digitsFuel_acc, digitsFuel_fuel n (n / 10 + 1) (n / 10) (by omega) (by omega)]

theorem natOfDigits_append_single (ds : JSString) (d : Nat) :
    natOfDigits (ds ++ [d]) = 10 * natOfDigits ds + (d - 48) := by
  simp [natOfDigits, List.foldl_append]

theorem natOfDigits_foldl (ds : JSString) (a : Nat) :
    ds.foldl (fun a c => 10 * a + (c - 48)) a = a * 10 ^ ds.length + natOfDigits ds := by
  induction ds generalizing a with
  | nil => simp [natOfDigits]
  | cons c rest ih =>
    simp only [List.foldl_cons, List.length_cons, natOfDigits]
    rw [ih (10 * a + (c - 48)), ih (10 * 0 + (c - 48))]
    rw [pow_succ]
    ring

theorem natOfDigits_append (a b : JSString) :
    natOfDigits (a ++ b) = natOfDigits a * 10 ^ b.length + natOfDigits b := by
  simp only [natOfDigits, List.foldl_append]
  exact natOfDigits_foldl b _

theorem natOfDigits_zeros (j : Nat) : natOfDigits (List.replicate j 48) = 0 := by
  induction j with
  | zero => rfl
  | succ j ih =>
    rw [List.replicate_succ]
    have := natOfDigits_append [48] (List.replicate j 48)
    simp only [List.singleton_append] at this
    rw [this, ih]
    simp [natOfDigits]

theorem natOfDigits_decimalDigits (n : Nat) : natOfDigits (decimalDigits n) = n := by
  induction n using Nat.strong_induction_on with
  | _ n ih =>
    by_cases h : n < 10
    · rw [decimalDigits_small n h]
      simp [natOfDigits]
    · rw [decimalDigits_large n h, natOfDigits_append_single, ih (n / 10) (by omega)]
      omega

theorem allDigits_iff (s : JSString) : allDigits s = true ↔ ∀ c ∈ s, 48 ≤ c ∧ c ≤ 57 := by
  simp [allDigits, List.all_eq_true]

theorem allDigits_decimalDigits (n : Nat) : allDigits (decimalDigits n) = true := by
  induction n using Nat.strong_induction_on with
  | _ n ih =>
    rw [allDigits_iff]
    by_cases h : n < 10
    · rw [decimalDigits_small n h]
      intro c hc
      rw [List.mem_singleton] at hc
      omega
    · rw [decimalDigits_large n h]
      have h1 := (allDigits_iff _).1 (ih (n / 10) (by omega))
      intro c hc
      rcases List.mem_append.1 hc with hc | hc
      · exact h1 c hc
      · rw [List.mem_singleton] at hc
        omega

theorem decimalDigits_ne_nil (n : Nat) : decimalDigits n ≠ [] := by
  by_cases h : n < 10
  · rw [decimalDigits_small n h]
    simp
  · rw [decimalDigits_large n h]
    simp

theorem decimalDigits_head (n : Nat) (hn : 0 < n) : (decimalDigits n).head? ≠ some 48 := by
  induction n using Nat.strong_induction_on with
  | _ n ih =>
    by_cases h : n < 10
    · rw [decimalDigits_small n h]
      simp
      omega
    · rw [decimalDigits_large n h]
      have h1 := ih (n / 10) (by omega) (by omega)
      have h2 := decimalDigits_ne_nil (n / 10)
      cases hd : decimalDigits (n / 10) with
      | nil => exact absurd hd h2
      | cons c rest =>
        rw [hd] at h1
        simpa using h1

theorem takeDigits_append (ds rest : JSString) (hd : allDigits ds = true)
    (hr : ∀ c, rest.head? = some c → ¬ (48 ≤ c ∧ c ≤ 57)) :
    takeDigits (ds ++ rest) = (ds, rest) := by
  induction ds with
  | nil =>
    cases rest with
    | nil => rfl
    | cons c rest1 =>
      have := hr c rfl
      simp [takeDigits, this]
  | cons d ds ih =>
    have hd' : (48 ≤ d ∧ d ≤ 57) ∧ allDigits ds = true := by
      simpa [allDigits] using hd
    have e := ih hd'.2
    show takeDigits (d :: (ds ++ rest)) = (d :: ds, rest)
    simp only [takeDigits, hd'.1, and_self, if_true]
    rw [e]

/-! ## Reading a number literal back -/

theorem lexFraction_absent (rest : JSString) (h : NumberEnd rest) :
    lexFraction rest = some ([], rest) := by
  cases rest with
  | nil => rfl
  | cons c tl =>
    have := (h c rfl).2.1
    simp [lexFraction, this]

theorem lexExponent_absent (rest : JSString) (h : NumberEnd rest) :
    lexExponent rest = some (0, rest) := by
  cases rest with
  | nil => rfl
  | cons c tl =>
    have h1 := (h c rfl).2.2.1
    have h2 := (h c rfl).2.2.2
    simp [lexExponent, h1, h2]

theorem numberEnd_not_digit (rest : JSString) (h : NumberEnd rest) :
    ∀ c, rest.head? = some c → ¬ (48 ≤ c ∧ c ≤ 57) := fun c hc => (h c hc).1

theorem lexFraction_present (fs rest : JSString) (hd : allDigits fs = true) (hne : fs ≠ [])
    (hr : ∀ c, rest.head? = some c → ¬ (48 ≤ c ∧ c ≤ 57)) :
    lexFraction (46 :: (fs ++ rest)) = some (fs, rest) := by
  simp [lexFraction, takeDigits_append fs rest hd hr, hne]

theorem lexExponent_plus (ed rest : JSString) (hd : allDigits ed = true) (hne : ed ≠ [])
    (hr : ∀ c, rest.head? = some c → ¬ (48 ≤ c ∧ c ≤ 57)) :
    lexExponent (101 :: 43 :: (ed ++ rest)) = some ((natOfDigits ed : Int), rest) := by
  simp [lexExponent, takeDigits_append ed rest hd hr, hne]

theorem lexExponent_minus (ed rest : JSString) (hd : allDigits ed = true) (hne : ed ≠ [])
    (hr : ∀ c, rest.head? = some c → ¬ (48 ≤ c ∧ c ≤ 57)) :
    lexExponent (101 :: 45 :: (ed ++ rest)) = some (-(natOfDigits ed : Int), rest) := by
  simp [lexExponent, takeDigits_append ed rest hd hr, hne]

theorem lexUnsigned_of_int (neg : Bool) (ip after : JSString) (hd : allDigits ip = true)
    (hne : ip ≠ []) (hz : ip.head? ≠ some 48 ∨ ip.length = 1)
    (ha : ∀ c, after.head? = some c → ¬ (48 ≤ c ∧ c ≤ 57)) :
    lexUnsigned neg (ip ++ after) =
      match lexFraction after with
      | none => none
      | some (fs, rest1) =>
        match lexExponent rest1 with
        | none => none
        | some (e, rest2) =>
          some (decimalToNumber neg (natOfDigits (ip ++ fs)) (e - (fs.length : Int)), rest2) := by
  have hcond : ¬ (ip = [] ∨ (ip.head? = some 48 ∧ ip.length ≠ 1)) := by
    rintro (h | ⟨h1, h2⟩)
    · exact hne h
    · rcases hz with hz | hz
      · exact hz h1
      · exact h2 hz
  simp only [lexUnsigned, takeDigits_append ip after hd ha, hcond, if_false]

theorem lexNumber_of_unsigned (cs : JSString) (r : Number × JSString)
    (h : lexUnsigned false cs = some r) : lexNumber cs = some r := by
  cases cs with
  | nil => simp [lexUnsigned, takeDigits] at h
  | cons c tl =>
    by_cases hc : c = 45
    · subst hc
      simp [lexUnsigned, takeDigits] at h
    · simp only [lexNumber, hc, if_false]
      exact h

theorem lexNumber_negative (cs : JSString) : lexNumber (45 :: cs) = lexUnsigned true cs := by
  simp [lexNumber]

/-! ## The layout of `Number::toString` is read back as the same decimal -/

theorem allDigits_append (a b : JSString) (ha : allDigits a = true) (hb : allDigits b = true) :
    allDigits (a ++ b) = true := by
  simp only [allDigits, List.all_append, Bool.and_eq_true] at *
  exact ⟨ha, hb⟩

theorem allDigits_zeros (j : Nat) : allDigits (List.replicate j 48) = true := by
  rw [allDigits_iff]
  intro c hc
  rw [List.mem_replicate] at hc
  omega

theorem allDigits_take (j : Nat) (ds : JSString) (h : allDigits ds = true) :
    allDigits (ds.take j) = true := by
  rw [allDigits_iff] at *
  exact fun c hc => h c (List.mem_of_mem_take hc)

theorem allDigits_drop (j : Nat) (ds : JSString) (h : allDigits ds = true) :
    allDigits (ds.drop j) = true := by
  rw [allDigits_iff] at *
  exact fun c hc => h c (List.mem_of_mem_drop hc)

theorem decimalToNumber_shift (neg : Bool) (s j : Nat) :
    decimalToNumber neg (s * 10 ^ j) 0 = decimalToNumber neg s (j : Int) := by
  simp [decimalToNumber]

theorem lex_layout_integer (neg : Bool) (ds rest : JSString) (j : Nat)
    (hd : allDigits ds = true) (hne : ds ≠ []) (hh : ds.head? ≠ some 48)
    (hr : NumberEnd rest) :
    lexUnsigned neg ((ds ++ List.replicate j 48) ++ rest) =
      some (decimalToNumber neg (natOfDigits ds) (j : Int), rest) := by
  rw [lexUnsigned_of_int neg _ rest (allDigits_append _ _ hd (allDigits_zeros j))
    (by simp [hne])
    (by
      left
      cases ds with
      | nil => exact absurd rfl hne
      | cons c tl => simpa using hh)
    (numberEnd_not_digit rest hr)]
  rw [lexFraction_absent rest hr]
  simp only [lexExponent_absent rest hr, List.append_nil, List.length_nil]
  rw [natOfDigits_append, natOfDigits_zeros, List.length_replicate, Nat.add_zero]
  simp only [Nat.cast_zero, sub_zero]
  rw [decimalToNumber_shift]

theorem lex_layout_fraction (neg : Bool) (ip fs rest : JSString)
    (hd1 : allDigits ip = true) (hne1 : ip ≠ [])
    (hz : ip.head? ≠ some 48 ∨ ip.length = 1)
    (hd2 : allDigits fs = true) (hne2 : fs ≠ []) (hr : NumberEnd rest) :
    lexUnsigned neg (ip ++ 46 :: (fs ++ rest)) =
      some (decimalToNumber neg (natOfDigits (ip ++ fs)) (-(fs.length : Int)), rest) := by
  rw [lexUnsigned_of_int neg ip _ hd1 hne1 hz (by simp)]
  rw [lexFraction_present fs rest hd2 hne2 (numberEnd_not_digit rest hr)]
  simp only [lexExponent_absent rest hr, zero_sub]

theorem lex_layout_exponent (neg : Bool) (ip fs ed rest : JSString) (sign : Nat) (e : Int)
    (hd1 : allDigits ip = true) (hne1 : ip ≠ [])
    (hz : ip.head? ≠ some 48 ∨ ip.length = 1)
    (hd2 : allDigits fs = true) (hne2 : fs ≠ [])
    (hd3 : allDigits ed = true) (hne3 : ed ≠ [])
    (hsign : (sign = 43 ∧ e = (natOfDigits ed : Int)) ∨ (sign = 45 ∧ e = -(natOfDigits ed : Int)))
    (hr : NumberEnd rest) :
    lexUnsigned neg (ip ++ 46 :: (fs ++ 101 :: sign :: (ed ++ rest))) =
      some (decimalToNumber neg (natOfDigits (ip ++ fs)) (e - (fs.length : Int)), rest) := by
  rw [lexUnsigned_of_int neg ip _ hd1 hne1 hz (by simp)]
  rw [lexFraction_present fs _ hd2 hne2 (by simp)]
  rcases hsign with ⟨rfl, rfl⟩ | ⟨rfl, rfl⟩
  · simp only [lexExponent_plus ed rest hd3 hne3 (numberEnd_not_digit rest hr)]
  · simp only [lexExponent_minus ed rest hd3 hne3 (numberEnd_not_digit rest hr)]

theorem lex_layout_exponent_only (neg : Bool) (ip ed rest : JSString) (sign : Nat) (e : Int)
    (hd1 : allDigits ip = true) (hne1 : ip ≠ [])
    (hz : ip.head? ≠ some 48 ∨ ip.length = 1)
    (hd3 : allDigits ed = true) (hne3 : ed ≠ [])
    (hsign : (sign = 43 ∧ e = (natOfDigits ed : Int)) ∨ (sign = 45 ∧ e = -(natOfDigits ed : Int)))
    (hr : NumberEnd rest) :
    lexUnsigned neg (ip ++ 101 :: sign :: (ed ++ rest)) =
      some (decimalToNumber neg (natOfDigits ip) e, rest) := by
  rw [lexUnsigned_of_int neg ip _ hd1 hne1 hz (by simp)]
  have hf : lexFraction (101 :: sign :: (ed ++ rest)) = some ([], 101 :: sign :: (ed ++ rest)) := by
    simp [lexFraction]
  rw [hf]
  rcases hsign with ⟨rfl, rfl⟩ | ⟨rfl, rfl⟩
  · simp only [lexExponent_plus ed rest hd3 hne3 (numberEnd_not_digit rest hr),
      List.append_nil, List.length_nil, Nat.cast_zero, sub_zero]
  · simp only [lexExponent_minus ed rest hd3 hne3 (numberEnd_not_digit rest hr),
      List.append_nil, List.length_nil, Nat.cast_zero, sub_zero]

theorem exponent_sign (e : Int) :
    ((if 0 ≤ e then 43 else 45 : Nat) = 43 ∧ e = (natOfDigits (decimalDigits e.natAbs) : Int)) ∨
    ((if 0 ≤ e then 43 else 45 : Nat) = 45 ∧ e = -(natOfDigits (decimalDigits e.natAbs) : Int)) := by
  rw [natOfDigits_decimalDigits]
  by_cases h : 0 ≤ e
  · left
    rw [if_pos h]
    exact ⟨rfl, by omega⟩
  · right
    rw [if_neg h]
    exact ⟨rfl, by omega⟩

theorem lexUnsigned_formatDigits (neg : Bool) (ds rest : JSString) (n : Int)
    (hd : allDigits ds = true) (hne : ds ≠ []) (hh : ds.head? ≠ some 48)
    (hr : NumberEnd rest) :
    lexUnsigned neg (formatDigits ds n ++ rest) =
      some (decimalToNumber neg (natOfDigits ds) (n - (ds.length : Int)), rest) := by
  unfold formatDigits
  split
  · rename_i hrange
    split
    · -- the digits followed by zeros
      rename_i hk
      rw [lex_layout_integer neg ds rest _ hd hne hh hr]
      have hE : ((n.toNat - ds.length : Nat) : Int) = n - (ds.length : Int) := by omega
      rw [hE]
    · rename_i hk
      split
      · -- a decimal point inside the digits
        rename_i hpos
        have hlt : n.toNat < ds.length := by omega
        have h1 : 0 < n.toNat := by omega
        rw [List.append_assoc, List.cons_append,
          lex_layout_fraction neg (ds.take n.toNat) (ds.drop n.toNat) rest
            (allDigits_take _ _ hd)
            (by
              intro h
              have hlen : (ds.take n.toNat).length = min n.toNat ds.length :=
                List.length_take _ _
              rw [h, List.length_nil] at hlen
              omega)
            (by
              left
              cases ds with
              | nil => exact absurd rfl hne
              | cons c tl =>
                cases hn : n.toNat with
                | zero => omega
                | succ j => simpa using hh)
            (allDigits_drop _ _ hd)
            (by
              intro h
              have hlen : (ds.drop n.toNat).length = ds.length - n.toNat :=
                List.length_drop _ _
              rw [h, List.length_nil] at hlen
              omega)
            hr]
        rw [List.take_append_drop, List.length_drop]
        have hE : -((ds.length - n.toNat : Nat) : Int) = n - (ds.length : Int) := by omega
        rw [hE]
      · -- zeros between the decimal point and the digits
        rename_i hpos
        have e1 : 48 :: 46 :: (List.replicate (-n).toNat 48 ++ ds) ++ rest
            = [48] ++ 46 :: ((List.replicate (-n).toNat 48 ++ ds) ++ rest) := by simp
        rw [e1, lex_layout_fraction neg [48] (List.replicate (-n).toNat 48 ++ ds) rest
          (by decide) (by simp) (Or.inr rfl)
          (allDigits_append _ _ (allDigits_zeros _) hd) (by simp [hne]) hr]
        have e2 : natOfDigits ([48] ++ (List.replicate (-n).toNat 48 ++ ds)) = natOfDigits ds := by
          rw [natOfDigits_append, natOfDigits_append, natOfDigits_zeros]
          simp [natOfDigits]
        rw [e2, List.length_append, List.length_replicate]
        have hE : -(((-n).toNat + ds.length : Nat) : Int) = n - (ds.length : Int) := by omega
        rw [hE]
  · rename_i hrange
    cases ds with
    | nil => exact absurd rfl hne
    | cons d tl =>
      cases tl with
      | nil =>
        have e1 : d :: 101 :: (if 0 ≤ n - 1 then 43 else 45 : Nat)
              :: decimalDigits (n - 1).natAbs ++ rest
            = [d] ++ 101 :: (if 0 ≤ n - 1 then 43 else 45 : Nat)
              :: (decimalDigits (n - 1).natAbs ++ rest) := by simp
        simp only []
        rw [e1, lex_layout_exponent_only neg [d] _ rest _ (n - 1) hd (by simp) (Or.inr rfl)
          (allDigits_decimalDigits _) (decimalDigits_ne_nil _) (exponent_sign (n - 1)) hr]
        rfl
      | cons d2 tl2 =>
        have e1 : d :: 46 :: ((d2 :: tl2) ++ 101 :: (if 0 ≤ n - 1 then 43 else 45 : Nat)
              :: decimalDigits (n - 1).natAbs) ++ rest
            = [d] ++ 46 :: ((d2 :: tl2) ++ 101 :: (if 0 ≤ n - 1 then 43 else 45 : Nat)
              :: (decimalDigits (n - 1).natAbs ++ rest)) := by simp
        have hd1 : allDigits [d] = true := by
          rw [allDigits_iff] at hd ⊢
          intro c hc
          exact hd c (by simp at hc; simp [hc])
        have hd2 : allDigits (d2 :: tl2) = true := by
          rw [allDigits_iff] at hd ⊢
          intro c hc
          exact hd c (List.mem_cons_of_mem _ hc)
        simp only []
        rw [e1, lex_layout_exponent neg [d] (d2 :: tl2) _ rest _ (n - 1) hd1 (by simp)
          (Or.inr rfl) hd2 (by simp) (allDigits_decimalDigits _) (decimalDigits_ne_nil _)
          (exponent_sign (n - 1)) hr]
        have hE : n - 1 - (((d2 :: tl2).length : Nat) : Int)
            = n - (((d :: d2 :: tl2).length : Nat) : Int) := by
          simp only [List.length_cons]
          omega
        rw [hE]
        rfl

theorem lexNumber_zero (rest : JSString) (hr : NumberEnd rest) :
    lexNumber (48 :: rest) = some (Number.finite false 0 0, rest) := by
  apply lexNumber_of_unsigned
  have h := lexUnsigned_of_int false [48] rest (by decide) (by simp) (Or.inr rfl)
    (numberEnd_not_digit rest hr)
  rw [List.singleton_append] at h
  rw [h, lexFraction_absent rest hr]
  simp only [lexExponent_absent rest hr]
  have hz : natOfDigits ([48] ++ []) = 0 := by decide
  rw [hz]
  have hd : decimalToNumber false 0 (0 - ((([] : JSString).length : Nat) : Int))
      = roundToNumber false 0 1 := by
    simp [decimalToNumber]
  rw [hd, roundToNumber_zero false 1 (by decide)]

theorem lexNumber_numberToString (neg : Bool) (m t : Nat) (hv : ValidDouble m t)
    (rest : JSString) (hr : NumberEnd rest) :
    lexNumber (numberToString (Number.finite neg m t) ++ rest) =
      some (if m = 0 then Number.finite false 0 0 else Number.finite neg m t, rest) := by
  unfold numberToString
  by_cases hm : m = 0
  · simp only [hm, if_true]
    exact lexNumber_zero rest hr
  · simp only [hm, if_false]
    obtain ⟨hval, hpos⟩ := shortestDigits_valid m t hv (by omega)
    have hlex := fun neg1 => lexUnsigned_formatDigits neg1
      (decimalDigits (shortestDigits m t).1) rest
      ((shortestDigits m t).2 + ((decimalDigits (shortestDigits m t).1).length : Int))
      (allDigits_decimalDigits _) (decimalDigits_ne_nil _) (decimalDigits_head _ hpos) hr
    simp only [natOfDigits_decimalDigits, add_sub_cancel_right] at hlex
    cases neg with
    | true =>
      simp only [if_true, List.cons_append, List.nil_append, List.singleton_append]
      rw [lexNumber_negative, hlex true, decimalToNumber_sign true _ _ m t hval]
    | false =>
      simp only [Bool.false_eq_true, if_false, List.nil_append]
      apply lexNumber_of_unsigned
      rw [hlex false, hval]

/-! ## A quoted string is read back as the string -/

theorem hexValue_hexDigit (d : Nat) (h : d < 16) : hexValue (hexDigit d) = some d := by
  unfold hexDigit hexValue
  by_cases h10 : d < 10
  · rw [if_pos h10, if_pos (by omega)]
    congr 1
    omega
  · rw [if_neg h10, if_neg (by omega), if_pos (by omega)]
    congr 1
    omega

theorem lexString_cons (c : Nat) (rest : JSString) :
    lexString (c :: rest) =
      if c = 34 then some ([], rest)
      else if c = 92 then
        match rest with
        | [] => none
        | e :: rest1 =>
          if e = 117 then
            match rest1 with
            | h1 :: h2 :: h3 :: h4 :: rest2 =>
              match hexValue h1, hexValue h2, hexValue h3, hexValue h4 with
              | some a, some b, some c, some d =>
                (lexString rest2).map fun r => ((a * 4096 + b * 256 + c * 16 + d) :: r.1, r.2)
              | _, _, _, _ => none
            | _ => none
          else
            match escapeValue e with
            | some v => (lexString rest1).map fun r => (v :: r.1, r.2)
            | none => none
      else if c < 32 then none
      else (lexString rest).map fun r => (c :: r.1, r.2) := by
  rw [lexString.eq_def]
  rfl

theorem lexString_unicodeEscape (c : Nat) (hc : c < 65536) (more : JSString) :
    lexString (unicodeEscape c ++ more) = (lexString more).map fun r => (c :: r.1, r.2) := by
  have hv : c / 4096 % 16 * 4096 + c / 256 % 16 * 256 + c / 16 % 16 * 16 + c % 16 = c := by
    omega
  simp only [unicodeEscape, List.cons_append, List.nil_append]
  rw [lexString_cons]
  simp only [hexValue_hexDigit _ (Nat.mod_lt _ (by decide : 0 < 16)), hv]
  simp

theorem lexString_escape (x v : Nat) (more : JSString) (hx : x ≠ 117)
    (hv : escapeValue x = some v) :
    lexString (92 :: x :: more) = (lexString more).map fun r => (v :: r.1, r.2) := by
  rw [lexString_cons]
  simp [hx, hv]

theorem lexString_plain (c : Nat) (more : JSString) (h1 : c ≠ 34) (h2 : c ≠ 92)
    (h3 : ¬ c < 32) :
    lexString (c :: more) = (lexString more).map fun r => (c :: r.1, r.2) := by
  rw [lexString_cons]
  simp [h1, h2, h3]

theorem lexString_quoteUnits (s : JSString) :
    ∀ (b : Bool) (rest : JSString),
      lexString (quoteUnits b s ++ 34 :: rest) = some (s, rest) := by
  induction s with
  | nil =>
    intro b rest
    show lexString (34 :: rest) = some ([], rest)
    rw [lexString_cons, if_pos rfl]
  | cons c tl ih =>
    intro b rest
    rw [quoteUnits]
    by_cases h8 : c = 8
    · rw [if_pos h8, h8, List.cons_append, List.cons_append,
        lexString_escape 98 8 _ (by decide) (by decide), ih]
      rfl
    rw [if_neg h8]
    by_cases h9 : c = 9
    · rw [if_pos h9, h9, List.cons_append, List.cons_append,
        lexString_escape 116 9 _ (by decide) (by decide), ih]
      rfl
    rw [if_neg h9]
    by_cases h10 : c = 10
    · rw [if_pos h10, h10, List.cons_append, List.cons_append,
        lexString_escape 110 10 _ (by decide) (by decide), ih]
      rfl
    rw [if_neg h10]
    by_cases h12 : c = 12
    · rw [if_pos h12, h12, List.cons_append, List.cons_append,
        lexString_escape 102 12 _ (by decide) (by decide), ih]
      rfl
    rw [if_neg h12]
    by_cases h13 : c = 13
    · rw [if_pos h13, h13, List.cons_append, List.cons_append,
        lexString_escape 114 13 _ (by decide) (by decide), ih]
      rfl
    rw [if_neg h13]
    by_cases h34 : c = 34
    · rw [if_pos h34, h34, List.cons_append, List.cons_append,
        lexString_escape 34 34 _ (by decide) (by decide), ih]
      rfl
    rw [if_neg h34]
    by_cases h92 : c = 92
    · rw [if_pos h92, h92, List.cons_append, List.cons_append,
        lexString_escape 92 92 _ (by decide) (by decide), ih]
      rfl
    rw [if_neg h92]
    by_cases h32 : c < 32
    · rw [if_pos h32, List.append_assoc, lexString_unicodeEscape c (by omega), ih]
      rfl
    rw [if_neg h32]
    by_cases hlead : isLeadingSurrogate c = true
    · rw [if_pos hlead]
      have hlead' : 55296 ≤ c ∧ c ≤ 56319 := by
        simpa [isLeadingSurrogate] using hlead
      by_cases hnext : startsWithTrailing tl = true
      · rw [if_pos hnext, List.cons_append, lexString_plain c _ h34 h92 h32, ih]
        rfl
      · rw [if_neg hnext, List.append_assoc, lexString_unicodeEscape c (by omega), ih]
        rfl
    rw [if_neg hlead]
    by_cases htrail : isTrailingSurrogate c = true
    · rw [if_pos htrail]
      have htrail' : 56320 ≤ c ∧ c ≤ 57343 := by
        simpa [isTrailingSurrogate] using htrail
      by_cases hb : b = true
      · rw [if_pos hb, List.cons_append, lexString_plain c _ h34 h92 h32, ih]
        rfl
      · rw [if_neg hb, List.append_assoc, lexString_unicodeEscape c (by omega), ih]
        rfl
    rw [if_neg htrail, List.cons_append, lexString_plain c _ h34 h92 h32, ih]
    rfl

theorem lexString_quoteJSONString (s rest : JSString) :
    ∃ body, quoteJSONString s ++ rest = 34 :: body ∧ lexString body = some (s, rest) := by
  refine ⟨quoteUnits false s ++ 34 :: rest, ?_, lexString_quoteUnits s false rest⟩
  simp [quoteJSONString]

/-! ## The tokens of a serialisation -/

theorem lexes_nil : Lexes [] [] := by
  intro fuel h
  cases fuel with
  | zero => exact absurd h (Nat.lt_irrefl 0)
  | succ f => rfl

theorem lex_of_lexes {cs : JSString} {toks : List Token} (h : Lexes cs toks) :
    lex cs = some toks := h _ (Nat.lt_succ_self _)

theorem lexes_step (toks : List Token) {cs rest : JSString} {r : List Token}
    (hlen : rest.length < cs.length)
    (hstep : ∀ f, lexAux (f + 1) cs = (lexAux f rest).map (toks ++ ·))
    (h : Lexes rest r) : Lexes cs (toks ++ r) := by
  intro fuel hf
  cases fuel with
  | zero => omega
  | succ f =>
    rw [hstep f, h f (by omega)]
    rfl

theorem lexes_space {rest : JSString} {r : List Token} (h : Lexes rest r) :
    Lexes (32 :: rest) r :=
  lexes_step [] (by simp)
    (fun f => by
      show lexAux f rest = _
      cases lexAux f rest <;> rfl) h

theorem lexes_newline {rest : JSString} {r : List Token} (h : Lexes rest r) :
    Lexes (10 :: rest) r :=
  lexes_step [] (by simp)
    (fun f => by
      show lexAux f rest = _
      cases lexAux f rest <;> rfl) h

theorem lexes_lbrace {rest : JSString} {r : List Token} (h : Lexes rest r) :
    Lexes (123 :: rest) (Token.lbrace :: r) :=
  lexes_step [Token.lbrace] (by simp) (fun _ => rfl) h

theorem lexes_rbrace {rest : JSString} {r : List Token} (h : Lexes rest r) :
    Lexes (125 :: rest) (Token.rbrace :: r) :=
  lexes_step [Token.rbrace] (by simp) (fun _ => rfl) h

theorem lexes_lbracket {rest : JSString} {r : List Token} (h : Lexes rest r) :
    Lexes (91 :: rest) (Token.lbracket :: r) :=
  lexes_step [Token.lbracket] (by simp) (fun _ => rfl) h

theorem lexes_rbracket {rest : JSString} {r : List Token} (h : Lexes rest r) :
    Lexes (93 :: rest) (Token.rbracket :: r) :=
  lexes_step [Token.rbracket] (by simp) (fun _ => rfl) h

theorem lexes_colon {rest : JSString} {r : List Token} (h : Lexes rest r) :
    Lexes (58 :: rest) (Token.colon :: r) :=
  lexes_step [Token.colon] (by simp) (fun _ => rfl) h

theorem lexes_comma {rest : JSString} {r : List Token} (h : Lexes rest r) :
    Lexes (44 :: rest) (Token.comma :: r) :=
  lexes_step [Token.comma] (by simp) (fun _ => rfl) h

theorem lexes_null {rest : JSString} {r : List Token} (h : Lexes rest r) :
    Lexes (utf16 "null" ++ rest) (Token.null :: r) := by
  have e : utf16 "null" = [110, 117, 108, 108] := by decide
  rw [e]
  exact lexes_step [Token.null] (by simp; omega) (fun _ => rfl) h

theorem lexes_true {rest : JSString} {r : List Token} (h : Lexes rest r) :
    Lexes (utf16 "true" ++ rest) (Token.true :: r) := by
  have e : utf16 "true" = [116, 114, 117, 101] := by decide
  rw [e]
  exact lexes_step [Token.true] (by simp; omega) (fun _ => rfl) h

theorem lexes_false {rest : JSString} {r : List Token} (h : Lexes rest r) :
    Lexes (utf16 "false" ++ rest) (Token.false :: r) := by
  have e : utf16 "false" = [102, 97, 108, 115, 101] := by decide
  rw [e]
  exact lexes_step [Token.false] (by simp; omega) (fun _ => rfl) h

theorem lexes_spaces {ind rest : JSString} {r : List Token} (hind : ∀ c ∈ ind, c = 32)
    (h : Lexes rest r) : Lexes (ind ++ rest) r := by
  induction ind with
  | nil => exact h
  | cons c tl ih =>
    have hc : c = 32 := hind c (List.mem_cons_self _ _)
    subst hc
    exact lexes_space (ih (fun c hc => hind c (List.mem_cons_of_mem _ hc)))

theorem lexAux_string (f : Nat) (body : JSString) :
    lexAux (f + 1) (34 :: body) =
      match lexString body with
      | some (str, rest1) => (lexAux f rest1).map (Token.string str :: ·)
      | none => none := rfl

theorem lexes_string (s : JSString) {rest : JSString} {r : List Token} (h : Lexes rest r) :
    Lexes (quoteJSONString s ++ rest) (Token.string s :: r) := by
  obtain ⟨body, hbody, hlex⟩ := lexString_quoteJSONString s rest
  have hlen : rest.length < body.length := by
    have e : body = quoteUnits false s ++ 34 :: rest := by
      have h1 : quoteJSONString s ++ rest = 34 :: (quoteUnits false s ++ 34 :: rest) := by
        simp [quoteJSONString]
      rw [h1] at hbody
      injection hbody with _ h2
      exact h2.symm
    rw [e, List.length_append, List.length_cons]
    omega
  rw [hbody]
  intro fuel hf
  cases fuel with
  | zero => omega
  | succ f =>
    rw [lexAux_string, hlex]
    simp only []
    rw [h f (by simp only [List.length_cons] at hf; omega)]
    rfl

theorem lexNumber_head {cs : JSString} {r : Number × JSString} (h : lexNumber cs = some r) :
    ∃ c tl, cs = c :: tl ∧ (c = 45 ∨ (48 ≤ c ∧ c ≤ 57)) := by
  cases cs with
  | nil => simp [lexNumber] at h
  | cons c tl =>
    refine ⟨c, tl, rfl, ?_⟩
    by_cases hc : c = 45
    · exact Or.inl hc
    · right
      simp only [lexNumber, hc, if_false] at h
      by_contra hnd
      simp [lexUnsigned, takeDigits, hnd] at h

theorem lexAux_number (f : Nat) (c : Nat) (tl : JSString)
    (hc : c = 45 ∨ (48 ≤ c ∧ c ≤ 57)) :
    lexAux (f + 1) (c :: tl) =
      match lexNumber (c :: tl) with
      | some (x, rest1) => (lexAux f rest1).map (Token.number x :: ·)
      | none => none := by
  rw [lexAux]
  have h1 : ¬ (c = 32 ∨ c = 9 ∨ c = 10 ∨ c = 13) := by omega
  have h2 : c ≠ 123 := by omega
  have h3 : c ≠ 125 := by omega
  have h4 : c ≠ 91 := by omega
  have h5 : c ≠ 93 := by omega
  have h6 : c ≠ 58 := by omega
  have h7 : c ≠ 44 := by omega
  have h8 : c ≠ 34 := by omega
  rw [if_neg h1, if_neg h2, if_neg h3, if_neg h4, if_neg h5, if_neg h6, if_neg h7, if_neg h8,
    if_pos hc]

theorem formatDigits_length_pos (ds : JSString) (n : Int) (hne : ds ≠ []) :
    0 < (formatDigits ds n).length := by
  cases ds with
  | nil => exact absurd rfl hne
  | cons d tl =>
    unfold formatDigits
    split
    · split
      · simp
      · split <;> simp
    · cases tl <;> simp

theorem numberToString_length_pos (neg : Bool) (m t : Nat) :
    0 < (numberToString (Number.finite neg m t)).length := by
  simp only [numberToString]
  split
  · simp
  · rw [List.length_append]
    have := formatDigits_length_pos (decimalDigits (shortestDigits m t).1)
      ((shortestDigits m t).2 + ((decimalDigits (shortestDigits m t).1).length : Int))
      (decimalDigits_ne_nil _)
    omega

theorem lexes_number (neg : Bool) (m t : Nat) (hv : ValidDouble m t) {rest : JSString}
    {r : List Token} (hr : NumberEnd rest) (h : Lexes rest r) :
    Lexes (numberToString (Number.finite neg m t) ++ rest)
      (Token.number (if m = 0 then Number.finite false 0 0 else Number.finite neg m t) :: r) := by
  have hlex := lexNumber_numberToString neg m t hv rest hr
  obtain ⟨c, tl, hcs, hc⟩ := lexNumber_head hlex
  intro fuel hf
  cases fuel with
  | zero => omega
  | succ f =>
    rw [hcs] at hlex hf ⊢
    rw [lexAux_number f c tl hc, hlex]
    simp only []
    have hlen : rest.length ≤ tl.length := by
      have e := congrArg List.length hcs
      rw [List.length_append, List.length_cons] at e
      have hpos := numberToString_length_pos neg m t
      omega
    rw [h f (by simp only [List.length_cons] at hf; omega)]
    rfl

/-! ## The tokens of `JSON.stringify` -/

theorem numberEnd_of_delimited {rest : JSString} (h : Delimited rest) : NumberEnd rest := by
  intro c hc
  rcases h c hc with rfl | rfl <;> decide

theorem delimited_comma (rest : JSString) : Delimited (44 :: rest) := by
  intro c hc
  simp at hc
  exact Or.inl hc.symm

theorem delimited_newline (rest : JSString) : Delimited (10 :: rest) := by
  intro c hc
  simp at hc
  exact Or.inr hc.symm

theorem spaces_gap {ind : JSString} (h : ∀ c ∈ ind, c = 32) : ∀ c ∈ ind ++ gap, c = 32 := by
  intro c hc
  rcases List.mem_append.1 hc with hc | hc
  · exact h c hc
  · simp [gap] at hc
    exact hc

theorem lexes_readBackNumber (x : Number) (hx : x.Valid) {rest : JSString} {r : List Token}
    (hd : Delimited rest) (h : Lexes rest r) :
    Lexes (serializeJSONProperty [] (Json.num x) ++ rest) (tokensOf (Json.num x) ++ r) := by
  cases x with
  | finite neg m t =>
    have := lexes_number neg m t hx (numberEnd_of_delimited hd) h
    by_cases hm : m = 0
    · simpa [serializeJSONProperty, tokensOf, readBackNumber, hm] using this
    · simpa [serializeJSONProperty, tokensOf, readBackNumber, hm] using this
  | infinite neg =>
    simpa [serializeJSONProperty, tokensOf, readBackNumber] using lexes_null h

theorem serialize_num_indent (ind : JSString) (x : Number) :
    serializeJSONProperty ind (Json.num x) = serializeJSONProperty [] (Json.num x) := by
  cases x <;> simp [serializeJSONProperty]

mutual
theorem lexes_value : ∀ (v : Json) (ind rest : JSString) (r : List Token),
    (∀ c ∈ ind, c = 32) → Delimited rest → v.WellFormed → Lexes rest r →
    Lexes (serializeJSONProperty ind v ++ rest) (tokensOf v ++ r)
  | Json.null, ind, rest, r, _, _, _, h => by
    simpa [serializeJSONProperty, tokensOf] using lexes_null h
  | Json.bool b, ind, rest, r, _, _, _, h => by
    cases b
    · simpa [serializeJSONProperty, tokensOf] using lexes_false h
    · simpa [serializeJSONProperty, tokensOf] using lexes_true h
  | Json.num x, ind, rest, r, _, hd, hw, h => by
    rw [serialize_num_indent]
    exact lexes_readBackNumber x (by simpa [Json.WellFormed] using hw) hd h
  | Json.str s, ind, rest, r, _, _, _, h => by
    simpa [serializeJSONProperty, tokensOf] using lexes_string s h
  | Json.arr [], ind, rest, r, _, _, _, h => by
    have e : utf16 "[]" = [91, 93] := by decide
    simpa [serializeJSONProperty, tokensOf, tokensOfElements, e] using
      lexes_lbracket (lexes_rbracket h)
  | Json.arr (x :: xs), ind, rest, r, hi, _, hw, h => by
    have hw' : wellFormedList (x :: xs) := by simpa [Json.WellFormed] using hw
    have h1 : Lexes (10 :: (ind ++ 93 :: rest)) (Token.rbracket :: r) :=
      lexes_newline (lexes_spaces hi (lexes_rbracket h))
    have h2 := lexes_elements (x :: xs) (ind ++ gap) _ _ (spaces_gap hi)
      (delimited_newline _) hw' h1
    have h3 := lexes_lbracket (lexes_newline (lexes_spaces (spaces_gap hi) h2))
    simpa [serializeJSONProperty, tokensOf] using h3
  | Json.obj [], ind, rest, r, _, _, _, h => by
    have e : utf16 "\x7b\x7d" = [123, 125] := by decide
    simpa [serializeJSONProperty, tokensOf, tokensOfMembers, e] using
      lexes_lbrace (lexes_rbrace h)
  | Json.obj (p :: ps), ind, rest, r, hi, _, hw, h => by
    have hw' : wellFormedProps (p :: ps) := by
      have := hw
      simp only [Json.WellFormed] at this
      exact this.2
    have h1 : Lexes (10 :: (ind ++ 125 :: rest)) (Token.rbrace :: r) :=
      lexes_newline (lexes_spaces hi (lexes_rbrace h))
    have h2 := lexes_members (p :: ps) (ind ++ gap) _ _ (spaces_gap hi)
      (delimited_newline _) hw' h1
    have h3 := lexes_lbrace (lexes_newline (lexes_spaces (spaces_gap hi) h2))
    simpa [serializeJSONProperty, tokensOf] using h3
theorem lexes_elements : ∀ (xs : List Json) (ind rest : JSString) (r : List Token),
    (∀ c ∈ ind, c = 32) → Delimited rest → wellFormedList xs → Lexes rest r →
    Lexes (serializeElements ind xs ++ rest) (tokensOfElements xs ++ r)
  | [], ind, rest, r, _, _, _, h => by
    simpa [serializeElements, tokensOfElements] using h
  | [x], ind, rest, r, hi, hd, hw, h => by
    have hw' : x.WellFormed := by
      have := hw
      simp only [wellFormedList] at this
      exact this.1
    simpa [serializeElements, tokensOfElements] using lexes_value x ind rest r hi hd hw' h
  | x :: y :: ys, ind, rest, r, hi, hd, hw, h => by
    have hw1 : x.WellFormed ∧ wellFormedList (y :: ys) := by
      have := hw
      simp only [wellFormedList] at this ⊢
      exact this
    have h1 := lexes_elements (y :: ys) ind rest r hi hd hw1.2 h
    have h2 := lexes_comma (lexes_newline (lexes_spaces hi h1))
    have h3 := lexes_value x ind _ _ hi (delimited_comma _) hw1.1 h2
    simpa [serializeElements, tokensOfElements] using h3
theorem lexes_members : ∀ (ps : List (JSString × Json)) (ind rest : JSString) (r : List Token),
    (∀ c ∈ ind, c = 32) → Delimited rest → wellFormedProps ps → Lexes rest r →
    Lexes (serializeMembers ind ps ++ rest) (tokensOfMembers ps ++ r)
  | [], ind, rest, r, _, _, _, h => by
    simpa [serializeMembers, tokensOfMembers] using h
  | [p], ind, rest, r, hi, hd, hw, h => by
    have hw' : p.2.WellFormed := by
      have := hw
      simp only [wellFormedProps] at this
      exact this.1
    have h1 := lexes_value p.2 ind rest r hi hd hw' h
    have h2 := lexes_string p.1 (lexes_colon (lexes_space h1))
    simpa [serializeMembers, tokensOfMembers] using h2
  | p :: q :: qs, ind, rest, r, hi, hd, hw, h => by
    have hw1 : p.2.WellFormed ∧ wellFormedProps (q :: qs) := by
      have := hw
      simp only [wellFormedProps] at this ⊢
      exact this
    have h1 := lexes_members (q :: qs) ind rest r hi hd hw1.2 h
    have h2 := lexes_comma (lexes_newline (lexes_spaces hi h1))
    have h3 := lexes_value p.2 ind _ _ hi (delimited_comma _) hw1.1 h2
    have h4 := lexes_string p.1 (lexes_colon (lexes_space h3))
    simpa [serializeMembers, tokensOfMembers] using h4
end

/-! ## Defining properties in own-property order -/

theorem getProp_none_of_ne (acc : List (JSString × Json)) (k : JSString)
    (h : ∀ p ∈ acc, p.1 ≠ k) : getProp acc k = none := by
  induction acc with
  | nil => rfl
  | cons p tl ih =>
    have hp : p.1 ≠ k := h p (List.mem_cons_self _ _)
    have htl := ih (fun q hq => h q (List.mem_cons_of_mem _ hq))
    simp only [getProp, List.find?_cons, hp, decide_False] at htl ⊢
    exact htl

theorem insertIndexProp_append (i : Nat) (k : JSString) (v : Json)
    (acc : List (JSString × Json)) (h : ∀ p ∈ acc, keyBeforeIndex i p.1 = true) :
    insertIndexProp i k v acc = acc ++ [(k, v)] := by
  induction acc with
  | nil => rfl
  | cons p tl ih =>
    have hp := h p (List.mem_cons_self _ _)
    simp only [insertIndexProp, hp, if_true, List.cons_append]
    rw [ih (fun q hq => h q (List.mem_cons_of_mem _ hq))]

theorem setProp_append (acc : List (JSString × Json)) (k : JSString) (v : Json)
    (h : ∀ p ∈ acc, keyOrder p.1 k) : setProp acc k v = acc ++ [(k, v)] := by
  have hnone : getProp acc k = none := getProp_none_of_ne acc k (fun p hp => (h p hp).1)
  unfold setProp
  rw [hnone]
  simp only [Option.isSome_none, Bool.false_eq_true, if_false]
  cases hi : arrayIndex k with
  | none => rfl
  | some i =>
    simp only []
    apply insertIndexProp_append
    intro p hp
    have := (h p hp).2
    rw [hi] at this
    unfold keyBeforeIndex
    cases hj : arrayIndex p.1 with
    | none =>
      rw [hj] at this
      exact absurd this (by simp)
    | some j =>
      rw [hj] at this
      simpa using this

theorem foldl_setProp_append (ps acc : List (JSString × Json))
    (h : ((acc ++ ps).map Prod.fst).Pairwise keyOrder) :
    ps.foldl (fun a p => setProp a p.1 p.2) acc = acc ++ ps := by
  induction ps generalizing acc with
  | nil => simp
  | cons p tl ih =>
    have hp : ∀ q ∈ acc, keyOrder q.1 p.1 := by
      intro q hq
      rw [List.map_append, List.pairwise_append] at h
      exact h.2.2 q.1 (List.mem_map_of_mem _ hq) p.1 (by simp)
    rw [List.foldl_cons, setProp_append acc p.1 p.2 hp]
    have h' : (((acc ++ [(p.1, p.2)]) ++ tl).map Prod.fst).Pairwise keyOrder := by
      simpa using h
    rw [ih (acc ++ [(p.1, p.2)]) h']
    simp

theorem readBackProps_keys (ps : List (JSString × Json)) :
    (readBackProps ps).map Prod.fst = ps.map Prod.fst := by
  induction ps with
  | nil => rfl
  | cons p tl ih => simp [readBackProps, ih]

theorem foldl_setProp_readBack (ps : List (JSString × Json))
    (h : (ps.map Prod.fst).Pairwise keyOrder) :
    (readBackProps ps).foldl (fun a p => setProp a p.1 p.2) [] = readBackProps ps := by
  have := foldl_setProp_append (readBackProps ps) [] (by simpa [readBackProps_keys] using h)
  simpa using this

/-! ## Parsing the tokens of a serialisation -/

theorem parseValue_lbracket (f : Nat) (t : Token) (ts : List Token) (ht : t ≠ Token.rbracket) :
    parseValue (f + 1) (Token.lbracket :: t :: ts) =
      match parseElements f (t :: ts) with
      | some (xs, rest1) => some (Json.arr xs, rest1)
      | none => none := by
  cases t <;> first | exact absurd rfl ht | rfl

theorem parseValue_lbrace (f : Nat) (t : Token) (ts : List Token) (ht : t ≠ Token.rbrace) :
    parseValue (f + 1) (Token.lbrace :: t :: ts) =
      match parseMembers f [] (t :: ts) with
      | some (ps, rest1) => some (Json.obj ps, rest1)
      | none => none := by
  cases t <;> first | exact absurd rfl ht | rfl

theorem parseElements_succ (f : Nat) (toks : List Token) :
    parseElements (f + 1) toks =
      match parseValue f toks with
      | some (v, Token.comma :: rest) =>
        match parseElements f rest with
        | some (vs, rest1) => some (v :: vs, rest1)
        | none => none
      | some (v, Token.rbracket :: rest) => some ([v], rest)
      | _ => none := by
  rw [parseElements]

theorem parseMembers_succ (f : Nat) (acc : List (JSString × Json)) (key : JSString)
    (rest : List Token) :
    parseMembers (f + 1) acc (Token.string key :: Token.colon :: rest) =
      match parseValue f rest with
      | some (v, Token.comma :: rest1) => parseMembers f (setProp acc key v) rest1
      | some (v, Token.rbrace :: rest1) => some (setProp acc key v, rest1)
      | _ => none := by
  rw [parseMembers]

theorem tokensOf_head (v : Json) :
    ∃ t ts, tokensOf v = t :: ts ∧ t ≠ Token.rbracket ∧ t ≠ Token.rbrace := by
  cases v with
  | null => exact ⟨_, _, rfl, by simp, by simp⟩
  | bool b => cases b <;> exact ⟨_, _, rfl, by simp, by simp⟩
  | num x =>
    simp only [tokensOf]
    split <;> exact ⟨_, _, rfl, by simp, by simp⟩
  | str s => exact ⟨_, _, rfl, by simp, by simp⟩
  | arr xs =>
    exact ⟨Token.lbracket, tokensOfElements xs ++ [Token.rbracket], by simp [tokensOf],
      by simp, by simp⟩
  | obj ps =>
    exact ⟨Token.lbrace, tokensOfMembers ps ++ [Token.rbrace], by simp [tokensOf],
      by simp, by simp⟩

theorem tokensOfElements_head (x : Json) (xs : List Json) :
    ∃ t ts, tokensOfElements (x :: xs) = t :: ts ∧ t ≠ Token.rbracket := by
  obtain ⟨t, ts, ht, h1, _⟩ := tokensOf_head x
  cases xs with
  | nil => exact ⟨t, ts, by simp [tokensOfElements, ht], h1⟩
  | cons y ys =>
    exact ⟨t, ts ++ Token.comma :: tokensOfElements (y :: ys),
      by rw [tokensOfElements, ht, List.cons_append], h1⟩

theorem parseValue_atom (f : Nat) (v : Json) (rest : List Token)
    (h : match v with
      | Json.arr _ => False
      | Json.obj _ => False
      | _ => True) :
    parseValue (f + 1) (tokensOf v ++ rest) = some (readBack v, rest) := by
  cases v with
  | null => rfl
  | bool b => cases b <;> rfl
  | num x =>
    cases x with
    | finite neg m t =>
      by_cases hm : m = 0
      · simp only [tokensOf, readBack, readBackNumber, hm, if_true]
        rfl
      · simp only [tokensOf, readBack, readBackNumber, hm, if_false]
        rfl
    | infinite neg => rfl
  | str s => rfl
  | arr xs => exact absurd h id
  | obj ps => exact absurd h id

mutual
theorem parse_value : ∀ (v : Json) (f : Nat) (rest : List Token),
    v.WellFormed → (tokensOf v).length ≤ f →
    parseValue f (tokensOf v ++ rest) = some (readBack v, rest)
  | Json.null, f, rest, _, hf => by
    cases f with
    | zero => simp [tokensOf] at hf
    | succ f => exact parseValue_atom f Json.null rest trivial
  | Json.bool b, f, rest, _, hf => by
    cases f with
    | zero => cases b <;> simp [tokensOf] at hf
    | succ f => exact parseValue_atom f (Json.bool b) rest trivial
  | Json.num x, f, rest, _, hf => by
    cases f with
    | zero =>
      obtain ⟨t, ts, ht, _⟩ := tokensOf_head (Json.num x)
      rw [ht] at hf
      simp at hf
    | succ f => exact parseValue_atom f (Json.num x) rest trivial
  | Json.str s, f, rest, _, hf => by
    cases f with
    | zero => simp [tokensOf] at hf
    | succ f => exact parseValue_atom f (Json.str s) rest trivial
  | Json.arr [], f, rest, _, hf => by
    cases f with
    | zero => simp [tokensOf] at hf
    | succ f => rfl
  | Json.arr (x :: xs), f, rest, hw, hf => by
    cases f with
    | zero => simp [tokensOf] at hf
    | succ f =>
      have hw' : wellFormedList (x :: xs) := by simpa [Json.WellFormed] using hw
      obtain ⟨t, ts, ht, hne⟩ := tokensOfElements_head x xs
      have hlen : (tokensOfElements (x :: xs)).length + 1 ≤ f := by
        simp only [tokensOf, List.length_cons, List.length_append, List.length_nil] at hf
        omega
      have ih := parse_elements (x :: xs) f rest (by simp) hw' hlen
      have e : tokensOf (Json.arr (x :: xs)) ++ rest
          = Token.lbracket :: (tokensOfElements (x :: xs) ++ Token.rbracket :: rest) := by
        simp [tokensOf]
      rw [e]
      rw [ht] at ih ⊢
      rw [List.cons_append] at ih ⊢
      rw [parseValue_lbracket f t _ hne, ih]
      simp [readBack]
  | Json.obj [], f, rest, _, hf => by
    cases f with
    | zero => simp [tokensOf] at hf
    | succ f => rfl
  | Json.obj (p :: ps), f, rest, hw, hf => by
    cases f with
    | zero => simp [tokensOf] at hf
    | succ f =>
      have hw1 : ((p :: ps).map Prod.fst).Pairwise keyOrder ∧ wellFormedProps (p :: ps) := by
        have := hw
        simp only [Json.WellFormed] at this
        exact this
      have hlen : (tokensOfMembers (p :: ps)).length + 1 ≤ f := by
        simp only [tokensOf, List.length_cons, List.length_append, List.length_nil] at hf
        omega
      have ih := parse_members (p :: ps) f [] rest (by simp) hw1.2 hlen
      have e : tokensOf (Json.obj (p :: ps)) ++ rest
          = Token.lbrace :: (tokensOfMembers (p :: ps) ++ Token.rbrace :: rest) := by
        simp [tokensOf]
      have hhead : ∃ ts, tokensOfMembers (p :: ps) = Token.string p.1 :: ts := by
        cases ps with
        | nil => exact ⟨Token.colon :: tokensOf p.2, by rw [tokensOfMembers]⟩
        | cons q qs =>
          exact ⟨Token.colon :: (tokensOf p.2 ++ Token.comma :: tokensOfMembers (q :: qs)),
            by rw [tokensOfMembers]⟩
      obtain ⟨ts, hts⟩ := hhead
      rw [e]
      rw [hts] at ih ⊢
      rw [List.cons_append] at ih ⊢
      rw [parseValue_lbrace f _ _ (by simp), ih, foldl_setProp_readBack (p :: ps) hw1.1]
      simp [readBack]
theorem parse_elements : ∀ (xs : List Json) (f : Nat) (rest : List Token),
    xs ≠ [] → wellFormedList xs → (tokensOfElements xs).length + 1 ≤ f →
    parseElements f (tokensOfElements xs ++ Token.rbracket :: rest)
      = some (readBackList xs, rest)
  | [], _, _, hne, _, _ => absurd rfl hne
  | [x], f, rest, _, hw, hf => by
    cases f with
    | zero => omega
    | succ f =>
      have hw' : x.WellFormed := by
        have := hw
        simp only [wellFormedList] at this
        exact this.1
      have ih := parse_value x f (Token.rbracket :: rest) hw'
        (by simp only [tokensOfElements] at hf; omega)
      rw [parseElements_succ]
      simp only [tokensOfElements]
      rw [ih]
      simp [readBackList]
  | x :: y :: ys, f, rest, _, hw, hf => by
    cases f with
    | zero => omega
    | succ f =>
      have hw1 : x.WellFormed ∧ wellFormedList (y :: ys) := by
        have := hw
        simp only [wellFormedList] at this ⊢
        exact this
      have hpos : 0 < (tokensOf x).length := by
        obtain ⟨t, ts, ht, _⟩ := tokensOf_head x
        rw [ht]
        simp
      have hlen : (tokensOf x).length + 1 + (tokensOfElements (y :: ys)).length + 1 ≤ f + 1 := by
        simp only [tokensOfElements, List.length_append, List.length_cons] at hf ⊢
        omega
      have ih1 := parse_value x f
        (Token.comma :: (tokensOfElements (y :: ys) ++ Token.rbracket :: rest)) hw1.1
        (by omega)
      have ih2 := parse_elements (y :: ys) f rest (by simp) hw1.2 (by omega)
      have e : tokensOfElements (x :: y :: ys) ++ Token.rbracket :: rest
          = tokensOf x ++ Token.comma :: (tokensOfElements (y :: ys) ++ Token.rbracket :: rest) := by
        simp [tokensOfElements]
      rw [parseElements_succ, e, ih1]
      simp only []
      rw [ih2]
      simp [readBackList]
theorem parse_members : ∀ (ps : List (JSString × Json)) (f : Nat)
    (acc : List (JSString × Json)) (rest : List Token),
    ps ≠ [] → wellFormedProps ps → (tokensOfMembers ps).length + 1 ≤ f →
    parseMembers f acc (tokensOfMembers ps ++ Token.rbrace :: rest)
      = some ((readBackProps ps).foldl (fun a p => setProp a p.1 p.2) acc, rest)
  | [], _, _, _, hne, _, _ => absurd rfl hne
  | [p], f, acc, rest, _, hw, hf => by
    cases f with
    | zero => omega
    | succ f =>
      have hw' : p.2.WellFormed := by
        have := hw
        simp only [wellFormedProps] at this
        exact this.1
      have ih := parse_value p.2 f (Token.rbrace :: rest) hw'
        (by simp only [tokensOfMembers, List.length_cons] at hf; omega)
      have e : tokensOfMembers [p] ++ Token.rbrace :: rest
          = Token.string p.1 :: Token.colon :: (tokensOf p.2 ++ Token.rbrace :: rest) := by
        simp [tokensOfMembers]
      rw [e, parseMembers_succ, ih]
      simp [readBackProps]
  | p :: q :: qs, f, acc, rest, _, hw, hf => by
    cases f with
    | zero => omega
    | succ f =>
      have hw1 : p.2.WellFormed ∧ wellFormedProps (q :: qs) := by
        have := hw
        simp only [wellFormedProps] at this ⊢
        exact this
      have hlen : (tokensOf p.2).length + 3 + (tokensOfMembers (q :: qs)).length + 1 ≤ f + 1 := by
        simp only [tokensOfMembers, List.length_append, List.length_cons] at hf ⊢
        omega
      have ih1 := parse_value p.2 f
        (Token.comma :: (tokensOfMembers (q :: qs) ++ Token.rbrace :: rest)) hw1.1 (by omega)
      have ih2 := parse_members (q :: qs) f (setProp acc p.1 (readBack p.2)) rest (by simp)
        hw1.2 (by omega)
      have e : tokensOfMembers (p :: q :: qs) ++ Token.rbrace :: rest
          = Token.string p.1 :: Token.colon ::
            (tokensOf p.2 ++ Token.comma ::
              (tokensOfMembers (q :: qs) ++ Token.rbrace :: rest)) := by
        simp [tokensOfMembers]
      rw [e, parseMembers_succ, ih1]
      simp only []
      rw [ih2]
      simp [readBackProps]
end

/-! ## `JSON.parse` after `JSON.stringify` -/

theorem delimited_nil : Delimited [] := by
  intro c hc
  simp at hc

theorem lex_stringify (v : Json) (hw : v.WellFormed) :
    lex (JSON.stringify v) = some (tokensOf v) := by
  have h := lexes_value v [] [] [] (by simp) delimited_nil hw lexes_nil
  simp only [List.append_nil] at h
  exact lex_of_lexes h

theorem parse_stringify (v : Json) (hw : v.WellFormed) :
    JSON.parse (JSON.stringify v) = some (readBack v) := by
  unfold JSON.parse
  rw [lex_stringify v hw]
  have h := parse_value v ((tokensOf v).length + 1) [] hw (Nat.le_succ _)
  simp only [List.append_nil] at h
  simp only [h]

/-! ## The numbers `JSON.parse` produces are doubles -/

theorem lexUnsigned_valid {neg : Bool} {cs : JSString} {x : Number} {rest : JSString}
    (h : lexUnsigned neg cs = some (x, rest)) : x.Valid := by
  unfold lexUnsigned at h
  simp only [] at h
  split at h
  · exact absurd h (by simp)
  · split at h
    · exact absurd h (by simp)
    · split at h
      · exact absurd h (by simp)
      · simp only [Option.some.injEq, Prod.mk.injEq] at h
        rw [← h.1]
        exact decimalToNumber_number_valid _ _ _

theorem lexNumber_valid {cs : JSString} {x : Number} {rest : JSString}
    (h : lexNumber cs = some (x, rest)) : x.Valid := by
  unfold lexNumber at h
  split at h
  · split at h <;> exact lexUnsigned_valid h
  · exact absurd h (by simp)

theorem map_cons_some {α : Type} {o : Option (List α)} {t : α} {toks : List α}
    (h : o.map (t :: ·) = some toks) : ∃ r, o = some r ∧ toks = t :: r := by
  cases o with
  | none => simp at h
  | some r =>
    simp at h
    exact ⟨r, rfl, h.symm⟩

theorem lexAux_valid : ∀ (f : Nat) (cs : JSString) (toks : List Token),
    lexAux f cs = some toks → ∀ t ∈ toks, t.Valid := by
  intro f
  induction f with
  | zero =>
    intro cs toks h
    simp [lexAux] at h
  | succ f ih =>
    intro cs toks h
    cases cs with
    | nil =>
      simp [lexAux] at h
      subst h
      simp
    | cons c rest =>
      have step : ∀ (tok : Token) (rest1 : JSString),
          (lexAux f rest1).map (tok :: ·) = some toks → tok.Valid → ∀ t ∈ toks, t.Valid := by
        intro tok rest1 hm hv t ht
        obtain ⟨r, hr, rfl⟩ := map_cons_some hm
        rcases List.mem_cons.1 ht with rfl | ht
        · exact hv
        · exact ih rest1 r hr t ht
      rw [lexAux] at h
      by_cases h1 : c = 32 ∨ c = 9 ∨ c = 10 ∨ c = 13
      · rw [if_pos h1] at h
        exact ih rest toks h
      rw [if_neg h1] at h
      by_cases h2 : c = 123
      · rw [if_pos h2] at h
        exact step _ _ h (by simp [Token.Valid])
      rw [if_neg h2] at h
      by_cases h3 : c = 125
      · rw [if_pos h3] at h
        exact step _ _ h (by simp [Token.Valid])
      rw [if_neg h3] at h
      by_cases h4 : c = 91
      · rw [if_pos h4] at h
        exact step _ _ h (by simp [Token.Valid])
      rw [if_neg h4] at h
      by_cases h5 : c = 93
      · rw [if_pos h5] at h
        exact step _ _ h (by simp [Token.Valid])
      rw [if_neg h5] at h
      by_cases h6 : c = 58
      · rw [if_pos h6] at h
        exact step _ _ h (by simp [Token.Valid])
      rw [if_neg h6] at h
      by_cases h7 : c = 44
      · rw [if_pos h7] at h
        exact step _ _ h (by simp [Token.Valid])
      rw [if_neg h7] at h
      by_cases h8 : c = 34
      · rw [if_pos h8] at h
        split at h
        · exact step _ _ h (by simp [Token.Valid])
        · exact absurd h (by simp)
      rw [if_neg h8] at h
      by_cases h9 : c = 45 ∨ (48 ≤ c ∧ c ≤ 57)
      · rw [if_pos h9] at h
        split at h
        · rename_i x rest1 hx
          exact step _ _ h (lexNumber_valid hx)
        · exact absurd h (by simp)
      rw [if_neg h9] at h
      split at h
      · exact step _ _ h (by simp [Token.Valid])
      · exact step _ _ h (by simp [Token.Valid])
      · exact step _ _ h (by simp [Token.Valid])
      · exact absurd h (by simp)

/-! ## `CreateDataProperty` keeps the own-property order -/

theorem decimalDigits_natOfDigits (k : JSString) (hd : allDigits k = true) (hne : k ≠ [])
    (hz : k = [48] ∨ k.head? ≠ some 48) : decimalDigits (natOfDigits k) = k := by
  induction k using List.reverseRecOn with
  | nil => exact absurd rfl hne
  | append_singleton ds d ih =>
    have hdig : ∀ c ∈ ds ++ [d], 48 ≤ c ∧ c ≤ 57 := (allDigits_iff _).1 hd
    have hd0 : 48 ≤ d ∧ d ≤ 57 := hdig d (by simp)
    rw [natOfDigits_append_single]
    cases ds with
    | nil =>
      have e : natOfDigits [] = 0 := rfl
      rw [e, decimalDigits_small _ (by omega)]
      simp only [List.nil_append, List.cons.injEq, and_true]
      omega
    | cons c tl =>
      have hhead : (c :: tl).head? ≠ some 48 := by
        rcases hz with hz | hz
        · have := congrArg List.length hz
          simp at this
        · simpa using hz
      have hds : allDigits (c :: tl) = true := by
        rw [allDigits_iff]
        exact fun x hx => hdig x (List.mem_append_left _ hx)
      have ih' := ih hds (by simp) (Or.inr hhead)
      have hpos : natOfDigits (c :: tl) ≠ 0 := by
        intro h0
        rw [h0] at ih'
        have e0 : decimalDigits 0 = [48] := by decide
        rw [e0] at ih'
        rw [← ih'] at hhead
        exact hhead rfl
      rw [decimalDigits_large _ (by omega)]
      have e1 : (10 * natOfDigits (c :: tl) + (d - 48)) / 10 = natOfDigits (c :: tl) := by omega
      have e2 : 48 + (10 * natOfDigits (c :: tl) + (d - 48)) % 10 = d := by omega
      rw [e1, e2, ih']

theorem arrayIndex_eq_digits {k : JSString} {i : Nat} (h : arrayIndex k = some i) :
    k = decimalDigits i := by
  unfold arrayIndex at h
  split at h
  · rename_i hc
    simp only [Option.some.injEq] at h
    rw [← h, decimalDigits_natOfDigits k hc.2.1 hc.1 hc.2.2.1]
  · exact absurd h (by simp)

theorem arrayIndex_injective {k1 k2 : JSString} {i : Nat} (h1 : arrayIndex k1 = some i)
    (h2 : arrayIndex k2 = some i) : k1 = k2 := by
  rw [arrayIndex_eq_digits h1, arrayIndex_eq_digits h2]

theorem replaceProp_keys (k : JSString) (v : Json) (acc : List (JSString × Json)) :
    (replaceProp k v acc).map Prod.fst = acc.map Prod.fst := by
  induction acc with
  | nil => rfl
  | cons p tl ih =>
    simp only [replaceProp]
    split
    · rename_i hp
      simp [hp]
    · simp [ih]

theorem mem_insertIndexProp {i : Nat} {k : JSString} {v : Json}
    {acc : List (JSString × Json)} {q : JSString × Json}
    (h : q ∈ insertIndexProp i k v acc) : q = (k, v) ∨ q ∈ acc := by
  induction acc with
  | nil =>
    simp [insertIndexProp] at h
    exact Or.inl h
  | cons p tl ih =>
    simp only [insertIndexProp] at h
    split at h
    · rcases List.mem_cons.1 h with h | h
      · exact Or.inr (by simp [h])
      · rcases ih h with h | h
        · exact Or.inl h
        · exact Or.inr (List.mem_cons_of_mem _ h)
    · rcases List.mem_cons.1 h with h | h
      · exact Or.inl h
      · exact Or.inr h

theorem insertIndexProp_order (i : Nat) (k : JSString) (v : Json)
    (acc : List (JSString × Json)) (hi : arrayIndex k = some i)
    (hnew : ∀ p ∈ acc, p.1 ≠ k) (h : (acc.map Prod.fst).Pairwise keyOrder) :
    ((insertIndexProp i k v acc).map Prod.fst).Pairwise keyOrder := by
  induction acc with
  | nil => simp [insertIndexProp]
  | cons p tl ih =>
    have hp : p.1 ≠ k := hnew p (List.mem_cons_self _ _)
    have htl : ∀ q ∈ tl, q.1 ≠ k := fun q hq => hnew q (List.mem_cons_of_mem _ hq)
    rw [List.map_cons, List.pairwise_cons] at h
    simp only [insertIndexProp]
    split
    · rename_i hb
      rw [List.map_cons, List.pairwise_cons]
      refine ⟨?_, ih htl h.2⟩
      intro key hkey
      obtain ⟨q, hq, rfl⟩ := List.mem_map.1 hkey
      rcases mem_insertIndexProp hq with rfl | hq
      · refine ⟨hp, ?_⟩
        simp only [keyBeforeIndex] at hb
        rw [hi]
        cases hj : arrayIndex p.1 with
        | none => rw [hj] at hb; simp at hb
        | some j => rw [hj] at hb; simpa using hb
      · exact h.1 q.1 (List.mem_map_of_mem _ hq)
    · rename_i hb
      -- the first key that is not a smaller index: the new key goes before it
      have hfirst : keyOrder k p.1 := by
        refine ⟨fun e => hp e.symm, ?_⟩
        rw [hi]
        cases hj : arrayIndex p.1 with
        | none => trivial
        | some j =>
          simp only [keyBeforeIndex, hj, decide_eq_true_eq] at hb
          have hne : j ≠ i := by
            intro e
            subst e
            exact hp (arrayIndex_injective hj hi)
          show i < j
          omega
      rw [List.map_cons, List.map_cons, List.pairwise_cons, List.pairwise_cons]
      refine ⟨?_, h.1, h.2⟩
      intro key hkey
      rcases List.mem_cons.1 hkey with rfl | hkey
      · exact hfirst
      · obtain ⟨q, hq, rfl⟩ := List.mem_map.1 hkey
        refine ⟨fun e => htl q hq e.symm, ?_⟩
        have hpq := (h.1 q.1 (List.mem_map_of_mem _ hq)).2
        have hkp := hfirst.2
        rw [hi] at hkp ⊢
        cases hq' : arrayIndex q.1 with
        | none => trivial
        | some j' =>
          rw [hq'] at hpq
          cases hj : arrayIndex p.1 with
          | none => rw [hj] at hpq; exact absurd hpq id
          | some j =>
            rw [hj] at hpq hkp
            show i < j'
            have a1 : j < j' := hpq
            have a2 : i < j := hkp
            omega

theorem getProp_none_iff (acc : List (JSString × Json)) (k : JSString) :
    getProp acc k = none ↔ ∀ p ∈ acc, p.1 ≠ k := by
  constructor
  · intro h p hp e
    induction acc with
    | nil => simp at hp
    | cons q tl ih =>
      simp only [getProp, List.find?_cons] at h
      by_cases hq : q.1 = k
      · simp [hq] at h
      · simp only [hq, decide_False] at h
        rcases List.mem_cons.1 hp with rfl | hp
        · exact hq e
        · exact ih (by simpa [getProp] using h) hp
  · exact getProp_none_of_ne acc k

theorem setProp_order (acc : List (JSString × Json)) (k : JSString) (v : Json)
    (h : (acc.map Prod.fst).Pairwise keyOrder) :
    ((setProp acc k v).map Prod.fst).Pairwise keyOrder := by
  unfold setProp
  cases hg : getProp acc k with
  | some w =>
    simp only [Option.isSome_some, if_true]
    rw [replaceProp_keys]
    exact h
  | none =>
    have hnew := (getProp_none_iff acc k).1 hg
    simp only [Option.isSome_none, Bool.false_eq_true, if_false]
    cases hi : arrayIndex k with
    | some i => exact insertIndexProp_order i k v acc hi hnew h
    | none =>
      simp only []
      rw [List.map_append, List.pairwise_append]
      refine ⟨h, by simp, ?_⟩
      intro a ha b hb
      obtain ⟨q, hq, rfl⟩ := List.mem_map.1 ha
      simp only [List.map_cons, List.map_nil, List.mem_singleton] at hb
      subst hb
      refine ⟨hnew q hq, ?_⟩
      rw [hi]
      cases arrayIndex q.1 <;> trivial

/-! ## The values `JSON.parse` builds are well formed -/

theorem wellFormedProps_iff (ps : List (JSString × Json)) :
    wellFormedProps ps ↔ ∀ p ∈ ps, p.2.WellFormed := by
  induction ps with
  | nil => simp [wellFormedProps]
  | cons p tl ih => simp [wellFormedProps, ih]

theorem wellFormedList_iff (xs : List Json) :
    wellFormedList xs ↔ ∀ x ∈ xs, x.WellFormed := by
  induction xs with
  | nil => simp [wellFormedList]
  | cons x tl ih => simp [wellFormedList, ih]

theorem mem_replaceProp {k : JSString} {v : Json} {acc : List (JSString × Json)}
    {q : JSString × Json} (h : q ∈ replaceProp k v acc) : q = (k, v) ∨ q ∈ acc := by
  induction acc with
  | nil => simp [replaceProp] at h
  | cons p tl ih =>
    simp only [replaceProp] at h
    split at h
    · rcases List.mem_cons.1 h with h | h
      · exact Or.inl h
      · exact Or.inr (List.mem_cons_of_mem _ h)
    · rcases List.mem_cons.1 h with h | h
      · exact Or.inr (by simp [h])
      · rcases ih h with h | h
        · exact Or.inl h
        · exact Or.inr (List.mem_cons_of_mem _ h)

theorem mem_setProp {k : JSString} {v : Json} {acc : List (JSString × Json)}
    {q : JSString × Json} (h : q ∈ setProp acc k v) : q = (k, v) ∨ q ∈ acc := by
  unfold setProp at h
  split at h
  · exact mem_replaceProp h
  · split at h
    · exact mem_insertIndexProp h
    · rcases List.mem_append.1 h with h | h
      · exact Or.inr h
      · exact Or.inl (by simpa using h)

theorem setProp_wellFormed (acc : List (JSString × Json)) (k : JSString) (v : Json)
    (h : wellFormedProps acc) (hv : v.WellFormed) : wellFormedProps (setProp acc k v) := by
  rw [wellFormedProps_iff] at h ⊢
  intro q hq
  rcases mem_setProp hq with rfl | hq
  · exact hv
  · exact h q hq

theorem valid_tail {t : Token} {toks : List Token} (h : ∀ x ∈ t :: toks, x.Valid) :
    ∀ x ∈ toks, x.Valid := fun x hx => h x (List.mem_cons_of_mem _ hx)

theorem parse_wellFormed (f : Nat) :
    (∀ toks v rest, parseValue f toks = some (v, rest) → (∀ t ∈ toks, t.Valid) →
      v.WellFormed ∧ ∀ t ∈ rest, t.Valid) ∧
    (∀ toks xs rest, parseElements f toks = some (xs, rest) → (∀ t ∈ toks, t.Valid) →
      wellFormedList xs ∧ ∀ t ∈ rest, t.Valid) ∧
    (∀ acc toks ps rest, parseMembers f acc toks = some (ps, rest) → (∀ t ∈ toks, t.Valid) →
      (acc.map Prod.fst).Pairwise keyOrder → wellFormedProps acc →
      (ps.map Prod.fst).Pairwise keyOrder ∧ wellFormedProps ps ∧ ∀ t ∈ rest, t.Valid) := by
  induction f with
  | zero =>
    refine ⟨?_, ?_, ?_⟩
    · intro toks v rest h
      simp [parseValue] at h
    · intro toks xs rest h
      simp [parseElements] at h
    · intro acc toks ps rest h
      simp [parseMembers] at h
  | succ f ih =>
    obtain ⟨ihV, ihE, ihM⟩ := ih
    refine ⟨?_, ?_, ?_⟩
    · intro toks v rest h hv
      rw [parseValue.eq_def] at h
      simp only [] at h
      split at h
      · simp only [Option.some.injEq, Prod.mk.injEq] at h
        obtain ⟨rfl, rfl⟩ := h
        exact ⟨by simp [Json.WellFormed], valid_tail hv⟩
      · simp only [Option.some.injEq, Prod.mk.injEq] at h
        obtain ⟨rfl, rfl⟩ := h
        exact ⟨by simp [Json.WellFormed], valid_tail hv⟩
      · simp only [Option.some.injEq, Prod.mk.injEq] at h
        obtain ⟨rfl, rfl⟩ := h
        exact ⟨by simp [Json.WellFormed], valid_tail hv⟩
      · simp only [Option.some.injEq, Prod.mk.injEq] at h
        obtain ⟨rfl, rfl⟩ := h
        exact ⟨by simp [Json.WellFormed], valid_tail hv⟩
      · simp only [Option.some.injEq, Prod.mk.injEq] at h
        obtain ⟨rfl, rfl⟩ := h
        refine ⟨?_, valid_tail hv⟩
        have := hv _ (List.mem_cons_self _ _)
        simpa [Json.WellFormed, Token.Valid] using this
      · simp only [Option.some.injEq, Prod.mk.injEq] at h
        obtain ⟨rfl, rfl⟩ := h
        exact ⟨by simp [Json.WellFormed, wellFormedList], valid_tail (valid_tail hv)⟩
      · split at h
        · rename_i xs rest1 hE
          simp only [Option.some.injEq, Prod.mk.injEq] at h
          obtain ⟨rfl, rfl⟩ := h
          obtain ⟨h1, h2⟩ := ihE _ _ _ hE (valid_tail hv)
          exact ⟨by simpa [Json.WellFormed] using h1, h2⟩
        · exact absurd h (by simp)
      · simp only [Option.some.injEq, Prod.mk.injEq] at h
        obtain ⟨rfl, rfl⟩ := h
        exact ⟨by simp [Json.WellFormed, wellFormedProps], valid_tail (valid_tail hv)⟩
      · split at h
        · rename_i ps rest1 hM
          simp only [Option.some.injEq, Prod.mk.injEq] at h
          obtain ⟨rfl, rfl⟩ := h
          obtain ⟨h1, h2, h3⟩ := ihM _ _ _ _ hM (valid_tail hv) (by simp)
            (by simp [wellFormedProps])
          exact ⟨by simp only [Json.WellFormed]; exact ⟨h1, h2⟩, h3⟩
        · exact absurd h (by simp)
      · exact absurd h (by simp)
    · intro toks xs rest h hv
      rw [parseElements_succ] at h
      split at h
      · rename_i v rest1 hV
        obtain ⟨h1, h2⟩ := ihV _ _ _ hV hv
        split at h
        · rename_i vs rest2 hE
          simp only [Option.some.injEq, Prod.mk.injEq] at h
          obtain ⟨rfl, rfl⟩ := h
          obtain ⟨h3, h4⟩ := ihE _ _ _ hE (valid_tail h2)
          exact ⟨by simp only [wellFormedList]; exact ⟨h1, h3⟩, h4⟩
        · exact absurd h (by simp)
      · rename_i v rest1 hV
        obtain ⟨h1, h2⟩ := ihV _ _ _ hV hv
        simp only [Option.some.injEq, Prod.mk.injEq] at h
        obtain ⟨rfl, rfl⟩ := h
        exact ⟨by simp only [wellFormedList]; exact ⟨h1, trivial⟩, valid_tail h2⟩
      · exact absurd h (by simp)
    · intro acc toks ps rest h hv hacc hwf
      rw [parseMembers.eq_def] at h
      simp only [] at h
      split at h
      · rename_i key rest0
        split at h
        · rename_i v rest1 hV
          obtain ⟨h1, h2⟩ := ihV _ _ _ hV (valid_tail (valid_tail hv))
          exact ihM _ _ _ _ h (valid_tail h2) (setProp_order acc key v hacc)
            (setProp_wellFormed acc key v hwf h1)
        · rename_i v rest1 hV
          obtain ⟨h1, h2⟩ := ihV _ _ _ hV (valid_tail (valid_tail hv))
          simp only [Option.some.injEq, Prod.mk.injEq] at h
          obtain ⟨rfl, rfl⟩ := h
          exact ⟨setProp_order acc key v hacc, setProp_wellFormed acc key v hwf h1,
            valid_tail h2⟩
        · exact absurd h (by simp)
      · exact absurd h (by simp)

/-! ## The entry `main` serialises is well formed -/

theorem parse_result_wellFormed {raw : JSString} {v : Json} (h : JSON.parse raw = some v) :
    v.WellFormed := by
  unfold JSON.parse at h
  split at h
  · exact absurd h (by simp)
  · rename_i toks hlex
    split at h
    · rename_i w hparse
      simp only [Option.some.injEq] at h
      subst h
      exact ((parse_wellFormed _).1 _ _ _ hparse (lexAux_valid _ _ _ hlex)).1
    · exact absurd h (by simp)

theorem getProp_mem {props : List (JSString × Json)} {k : JSString} {v : Json}
    (h : getProp props k = some v) : (k, v) ∈ props := by
  unfold getProp at h
  cases hf : props.find? (fun p => decide (p.1 = k)) with
  | none => simp [hf] at h
  | some p =>
    rw [hf] at h
    simp only [Option.map_some', Option.some.injEq] at h
    have hk := List.find?_some hf
    have hm := List.mem_of_find?_eq_some hf
    simp only [decide_eq_true_eq] at hk
    rw [← hk, ← h]
    exact hm

theorem packages_wellFormed {manifest : Json} {packages : List Json}
    (hw : manifest.WellFormed) (hk : packagesOf manifest = Except.ok packages) :
    ∀ e ∈ packages, e.WellFormed := by
  cases manifest with
  | obj props =>
    simp only [packagesOf] at hk
    split at hk
    · rename_i elements hg
      simp only [Except.ok.injEq] at hk
      subst hk
      have hmem := getProp_mem hg
      have hprops : wellFormedProps props := by
        have := hw
        simp only [Json.WellFormed] at this
        exact this.2
      have := (wellFormedProps_iff props).1 hprops _ hmem
      simp only [Json.WellFormed] at this
      exact (wellFormedList_iff _).1 this
    · exact absurd hk (by simp)
  | _ => simp [packagesOf] at hk

theorem found_entry_wellFormed {raw : JSString} {manifest : Json} {packages : List Json}
    {s : JSString} {entry : Json} (hp : JSON.parse raw = some manifest)
    (hk : packagesOf manifest = Except.ok packages)
    (hfind : find s packages = Except.ok (some entry)) : entry.WellFormed := by
  obtain ⟨i, hi, -, -⟩ := find_some hfind
  exact packages_wellFormed (parse_result_wellFormed hp) hk entry (List.getElem?_mem hi)

/-! ## The value read back deep-equals the value serialised -/

theorem numberEq_readBack (neg : Bool) (m t : Nat) :
    deepEqual (readBackNumber (Number.finite neg m t)) (Json.num (Number.finite neg m t))
      = true := by
  by_cases hm : m = 0
  · simp [readBackNumber, hm, deepEqual, numberEq]
  · simp [readBackNumber, hm, deepEqual, numberEq]

theorem getProp_self (qs : List (JSString × Json))
    (h : (qs.map Prod.fst).Pairwise keyOrder) : ∀ p ∈ qs, getProp qs p.1 = some p.2 := by
  induction qs with
  | nil => simp
  | cons q tl ih =>
    rw [List.map_cons, List.pairwise_cons] at h
    intro p hp
    rcases List.mem_cons.1 hp with rfl | hp
    · simp [getProp]
    · have hne : q.1 ≠ p.1 := (h.1 p.1 (List.mem_map_of_mem _ hp)).1
      have := ih h.2 p hp
      simp only [getProp, List.find?_cons, hne, decide_False] at this ⊢
      exact this

theorem deepEqualProps_of (ps qs : List (JSString × Json))
    (h : ∀ p ∈ ps, ∃ w, getProp qs p.1 = some w ∧ deepEqual p.2 w = true) :
    deepEqualProps ps qs = true := by
  induction ps with
  | nil => rfl
  | cons p tl ih =>
    obtain ⟨w, hw1, hw2⟩ := h p (List.mem_cons_self _ _)
    simp only [deepEqualProps, hw1, hw2, Bool.true_and]
    exact ih (fun q hq => h q (List.mem_cons_of_mem _ hq))

theorem mem_readBackProps {ps : List (JSString × Json)} {q : JSString × Json}
    (h : q ∈ readBackProps ps) : ∃ p ∈ ps, q = (p.1, readBack p.2) := by
  induction ps with
  | nil => simp [readBackProps] at h
  | cons p tl ih =>
    simp only [readBackProps] at h
    rcases List.mem_cons.1 h with h | h
    · exact ⟨p, List.mem_cons_self _ _, h⟩
    · obtain ⟨p', hp', hq⟩ := ih h
      exact ⟨p', List.mem_cons_of_mem _ hp', hq⟩

theorem readBackProps_length (ps : List (JSString × Json)) :
    (readBackProps ps).length = ps.length := by
  induction ps with
  | nil => rfl
  | cons p tl ih => simp [readBackProps, ih]

mutual
theorem deepEqual_readBack : ∀ (v : Json), v.WellFormed → allFinite v = true →
    deepEqual (readBack v) v = true
  | Json.null, _, _ => rfl
  | Json.bool b, _, _ => by simp [readBack, deepEqual]
  | Json.num (Number.finite neg m t), _, _ => numberEq_readBack neg m t
  | Json.num (Number.infinite neg), _, hf => by simp [allFinite] at hf
  | Json.str s, _, _ => by simp [readBack, deepEqual]
  | Json.arr xs, hw, hf => by
    have hw' : wellFormedList xs := by simpa [Json.WellFormed] using hw
    have hf' : allFiniteList xs = true := by simpa [allFinite] using hf
    simpa [readBack, deepEqual] using deepEqual_readBackList xs hw' hf'
  | Json.obj ps, hw, hf => by
    have hw' : (ps.map Prod.fst).Pairwise keyOrder ∧ wellFormedProps ps := by
      have := hw
      simp only [Json.WellFormed] at this
      exact this
    have hf' : allFiniteProps ps = true := by simpa [allFinite] using hf
    have hall := deepEqual_readBackProps ps hw'.2 hf'
    have hprops : deepEqualProps (readBackProps ps) ps = true := by
      apply deepEqualProps_of
      intro q hq
      obtain ⟨p, hp, rfl⟩ := mem_readBackProps hq
      exact ⟨p.2, getProp_self ps hw'.1 p hp, hall p hp⟩
    simp [readBack, deepEqual, readBackProps_length, hprops]
theorem deepEqual_readBackList : ∀ (xs : List Json), wellFormedList xs →
    allFiniteList xs = true → deepEqualList (readBackList xs) xs = true
  | [], _, _ => rfl
  | x :: xs, hw, hf => by
    have hw' : x.WellFormed ∧ wellFormedList xs := by
      have := hw
      simp only [wellFormedList] at this
      exact this
    have hf' : allFinite x = true ∧ allFiniteList xs = true := by
      simpa [allFiniteList] using hf
    simp [readBackList, deepEqualList, deepEqual_readBack x hw'.1 hf'.1,
      deepEqual_readBackList xs hw'.2 hf'.2]
theorem deepEqual_readBackProps : ∀ (ps : List (JSString × Json)), wellFormedProps ps →
    allFiniteProps ps = true → ∀ p ∈ ps, deepEqual (readBack p.2) p.2 = true
  | [], _, _ => by simp
  | p :: ps, hw, hf => by
    have hw' : p.2.WellFormed ∧ wellFormedProps ps := by
      have := hw
      simp only [wellFormedProps] at this
      exact this
    have hf' : allFinite p.2 = true ∧ allFiniteProps ps = true := by
      simpa [allFiniteProps] using hf
    have h1 := deepEqual_readBack p.2 hw'.1 hf'.1
    have h2 := deepEqual_readBackProps ps hw'.2 hf'.2
    intro q hq
    rcases List.mem_cons.1 hq with hq | hq
    · rw [hq]
      exact h1
    · exact h2 q hq
end

mutual
theorem readBack_eq : ∀ (v : Json), v.WellFormed → allFinite v = true →
    noNegativeZero v = true → readBack v = v
  | Json.null, _, _, _ => rfl
  | Json.bool b, _, _, _ => rfl
  | Json.num (Number.finite neg m t), hw, _, hz => by
    by_cases hm : m = 0
    · subst hm
      have hv : ValidDouble 0 t := by simpa [Json.WellFormed, Number.Valid] using hw
      have ht : t = 0 := by
        rcases hv.2.2 with h | h
        · exact h
        · exact absurd h (by simp)
      have hn : neg = false := by
        cases neg
        · rfl
        · simp [noNegativeZero] at hz
      subst ht hn
      simp [readBack, readBackNumber]
    · simp [readBack, readBackNumber, hm]
  | Json.num (Number.infinite neg), _, hf, _ => by simp [allFinite] at hf
  | Json.str s, _, _, _ => rfl
  | Json.arr xs, hw, hf, hz => by
    have hw' : wellFormedList xs := by simpa [Json.WellFormed] using hw
    have hf' : allFiniteList xs = true := by simpa [allFinite] using hf
    have hz' : noNegativeZeroList xs = true := by simpa [noNegativeZero] using hz
    simp [readBack, readBackList_eq xs hw' hf' hz']
  | Json.obj ps, hw, hf, hz => by
    have hw' : wellFormedProps ps := by
      have := hw
      simp only [Json.WellFormed] at this
      exact this.2
    have hf' : allFiniteProps ps = true := by simpa [allFinite] using hf
    have hz' : noNegativeZeroProps ps = true := by simpa [noNegativeZero] using hz
    simp [readBack, readBackProps_eq ps hw' hf' hz']
theorem readBackList_eq : ∀ (xs : List Json), wellFormedList xs → allFiniteList xs = true →
    noNegativeZeroList xs = true → readBackList xs = xs
  | [], _, _, _ => rfl
  | x :: xs, hw, hf, hz => by
    have hw' : x.WellFormed ∧ wellFormedList xs := by
      have := hw
      simp only [wellFormedList] at this
      exact this
    have hf' : allFinite x = true ∧ allFiniteList xs = true := by
      simpa [allFiniteList] using hf
    have hz' : noNegativeZero x = true ∧ noNegativeZeroList xs = true := by
      simpa [noNegativeZeroList] using hz
    simp [readBackList, readBack_eq x hw'.1 hf'.1 hz'.1, readBackList_eq xs hw'.2 hf'.2 hz'.2]
theorem readBackProps_eq : ∀ (ps : List (JSString × Json)), wellFormedProps ps →
    allFiniteProps ps = true → noNegativeZeroProps ps = true → readBackProps ps = ps
  | [], _, _, _ => rfl
  | p :: ps, hw, hf, hz => by
    have hw' : p.2.WellFormed ∧ wellFormedProps ps := by
      have := hw
      simp only [wellFormedProps] at this
      exact this
    have hf' : allFinite p.2 = true ∧ allFiniteProps ps = true := by
      simpa [allFiniteProps] using hf
    have hz' : noNegativeZero p.2 = true ∧ noNegativeZeroProps ps = true := by
      simpa [noNegativeZeroProps] using hz
    simp [readBackProps, readBack_eq p.2 hw'.1 hf'.1 hz'.1,
      readBackProps_eq ps hw'.2 hf'.2 hz'.2]
end

/-! ## The text that is written -/

theorem serializeMembers_eq (ind : JSString) (ps : List (JSString × Json)) :
    serializeMembers ind ps =
      List.intercalate (44 :: 10 :: ind)
        (ps.map fun p => quoteJSONString p.1 ++ 58 :: 32 :: serializeJSONProperty ind p.2) := by
  induction ps with
  | nil => rfl
  | cons p tl ih =>
    cases tl with
    | nil => simp [serializeMembers, List.intercalate]
    | cons q qs =>
      rw [serializeMembers, ih]
      simp [List.intercalate, List.intersperse]

theorem stringify_object (p : JSString × Json) (ps : List (JSString × Json)) :
    JSON.stringify (Json.obj (p :: ps)) =
      123 :: 10 :: 32 :: 32 ::
        (List.intercalate [44, 10, 32, 32]
          ((p :: ps).map fun q =>
            quoteJSONString q.1 ++ 58 :: 32 :: serializeJSONProperty [32, 32] q.2)
          ++ [10, 125]) := by
  simp only [JSON.stringify, serializeJSONProperty, serializeMembers_eq, gap, List.nil_append]
  simp

theorem setProp_new_key (props : List (JSString × Json)) (key : JSString) (v : Json)
    (hnew : getProp props key = none) (hidx : arrayIndex key = none) :
    setProp props key v = props ++ [(key, v)] := by
  simp [setProp, hnew, hidx]

/-- C7, as amended: on the found path the run writes exactly `JSON.stringify(entry,
null, 2)` of the matched entry and nothing else into the output file: `{`, each own
property of the parsed entry as `"key": value` after a line feed and two spaces, the
properties separated by commas, a line feed and `}`.  The properties come in the
own-property order of the parsed entry: the keys are distinct, the array indices come
first in ascending order, and `JSON.parse` puts a key that is new and no array index
last (so manifest order is kept among such keys).  The
confirmation `Wrote package metadata to <path>` goes to standard output and names
the written path.  For the manifest of the scenario and the argument `agent-install`
the file `dist/agent-install.json` holds the text the specification gives. -/
theorem written_text_exact (env : Env) (fs : FileSystem) (raw : JSString)
    (manifest : Json) (packages : List Json) (entry : Json)
    (h : isHelp env.argv[2]? = false)
    (hf : fs.files (manifestPath env.cwd) = some raw)
    (hp : JSON.parse raw = some manifest)
    (hk : packagesOf manifest = Except.ok packages)
    (hfind : find (packageIdOf env) packages = Except.ok (some entry))
    (hm : env.mkdirOk (dirname (outputPath env.cwd (packageIdOf env))) = true)
    (hw : env.writeOk (outputPath env.cwd (packageIdOf env)) = true) :
    (run env (Process.start fs)).events =
      [Event.readFile (manifestPath env.cwd),
       Event.mkdir (dirname (outputPath env.cwd (packageIdOf env))),
       Event.writeFile (outputPath env.cwd (packageIdOf env)) (JSON.stringify entry),
       Event.stdout (utf16 "Wrote package metadata to " ++
         pathString (outputPath env.cwd (packageIdOf env)) ++ [10])] ∧
    (run env (Process.start fs)).fs.files (outputPath env.cwd (packageIdOf env))
      = some (JSON.stringify entry) ∧
    pathString (outputPath env.cwd (packageIdOf env)) <:+:
      (utf16 "Wrote package metadata to " ++
         pathString (outputPath env.cwd (packageIdOf env)) ++ [10]) ∧
    (run env (Process.start fs)).exitStatus = 0 ∧
    (∃ p ps, entry = Json.obj (p :: ps) ∧
      ((p :: ps).map Prod.fst).Pairwise keyOrder ∧
      JSON.stringify entry =
        123 :: 10 :: 32 :: 32 ::
          (List.intercalate [44, 10, 32, 32]
            ((p :: ps).map fun q =>
              quoteJSONString q.1 ++ 58 :: 32 :: serializeJSONProperty [32, 32] q.2)
            ++ [10, 125])) ∧
    (∀ (props : List (JSString × Json)) (key : JSString) (v : Json),
      getProp props key = none → arrayIndex key = none →
      setProp props key v = props ++ [(key, v)]) ∧
    (run (envOf [utf16 "agent-install"]) (Process.start (manifestOnly scenarioManifest))).fs.files
        [utf16 "work", utf16 "dist", utf16 "agent-install.json"]
      = some (utf16 "\x7b\n  \"id\": \"agent-install\",\n  \"version\": \"1.0.0\"\n\x7d") ∧
    (run (envOf [utf16 "agent-install"]) (Process.start (manifestOnly scenarioManifest))).events
      = [Event.readFile [utf16 "work", utf16 "manifests", utf16 "index.json"],
         Event.mkdir [utf16 "work", utf16 "dist"],
         Event.writeFile [utf16 "work", utf16 "dist", utf16 "agent-install.json"]
           (utf16 "\x7b\n  \"id\": \"agent-install\",\n  \"version\": \"1.0.0\"\n\x7d"),
         Event.stdout (utf16 "Wrote package metadata to /work/dist/agent-install.json\n")] := by
  have hrun := run_found env (Process.start fs) raw manifest packages entry h hf hp hk hfind hm hw
  refine ⟨?_, ?_, ?_, ?_, ?_, setProp_new_key, by decide, by decide⟩
  · rw [hrun]
    rfl
  · rw [hrun]
    simp [FileSystem.writeFile, packageIdOf]
  · exact ⟨utf16 "Wrote package metadata to ", [10], by simp⟩
  · rw [hrun]
    rfl
  · obtain ⟨i, hi, ⟨props, hprops, hid⟩, -⟩ := find_some hfind
    have hwf : entry.WellFormed := found_entry_wellFormed hp hk hfind
    cases props with
    | nil => simp [getProp] at hid
    | cons p ps =>
      refine ⟨p, ps, hprops, ?_, by rw [hprops, stringify_object]⟩
      rw [hprops] at hwf
      simp only [Json.WellFormed] at hwf
      exact hwf.1

/-- Witness of C7: the scenario of the specification. -/
theorem written_text_exact_witness :
    (run (envOf [utf16 "agent-install"]) (Process.start (manifestOnly scenarioManifest))).events =
      [Event.readFile (manifestPath (envOf [utf16 "agent-install"]).cwd),
       Event.mkdir (dirname (outputPath (envOf [utf16 "agent-install"]).cwd
         (packageIdOf (envOf [utf16 "agent-install"])))),
       Event.writeFile (outputPath (envOf [utf16 "agent-install"]).cwd
         (packageIdOf (envOf [utf16 "agent-install"])))
         (JSON.stringify (Json.obj [(utf16 "id", Json.str (utf16 "agent-install")),
           (utf16 "version", Json.str (utf16 "1.0.0"))])),
       Event.stdout (utf16 "Wrote package metadata to " ++
         pathString (outputPath (envOf [utf16 "agent-install"]).cwd
           (packageIdOf (envOf [utf16 "agent-install"]))) ++ [10])] ∧
    (run (envOf [utf16 "agent-install"]) (Process.start (manifestOnly scenarioManifest))).fs.files
        (outputPath (envOf [utf16 "agent-install"]).cwd
          (packageIdOf (envOf [utf16 "agent-install"])))
      = some (JSON.stringify (Json.obj [(utf16 "id", Json.str (utf16 "agent-install")),
           (utf16 "version", Json.str (utf16 "1.0.0"))])) ∧
    pathString (outputPath (envOf [utf16 "agent-install"]).cwd
        (packageIdOf (envOf [utf16 "agent-install"]))) <:+:
      (utf16 "Wrote package metadata to " ++
         pathString (outputPath (envOf [utf16 "agent-install"]).cwd
           (packageIdOf (envOf [utf16 "agent-install"]))) ++ [10]) ∧
    (run (envOf [utf16 "agent-install"])
      (Process.start (manifestOnly scenarioManifest))).exitStatus = 0 ∧
    (∃ p ps, Json.obj [(utf16 "id", Json.str (utf16 "agent-install")),
           (utf16 "version", Json.str (utf16 "1.0.0"))] = Json.obj (p :: ps) ∧
      ((p :: ps).map Prod.fst).Pairwise keyOrder ∧
      JSON.stringify (Json.obj [(utf16 "id", Json.str (utf16 "agent-install")),
           (utf16 "version", Json.str (utf16 "1.0.0"))]) =
        123 :: 10 :: 32 :: 32 ::
          (List.intercalate [44, 10, 32, 32]
            ((p :: ps).map fun q =>
              quoteJSONString q.1 ++ 58 :: 32 :: serializeJSONProperty [32, 32] q.2)
            ++ [10, 125])) ∧
    (∀ (props : List (JSString × Json)) (key : JSString) (v : Json),
      getProp props key = none → arrayIndex key = none →
      setProp props key v = props ++ [(key, v)]) ∧
    (run (envOf [utf16 "agent-install"]) (Process.start (manifestOnly scenarioManifest))).fs.files
        [utf16 "work", utf16 "dist", utf16 "agent-install.json"]
      = some (utf16 "\x7b\n  \"id\": \"agent-install\",\n  \"version\": \"1.0.0\"\n\x7d") ∧
    (run (envOf [utf16 "agent-install"]) (Process.start (manifestOnly scenarioManifest))).events
      = [Event.readFile [utf16 "work", utf16 "manifests", utf16 "index.json"],
         Event.mkdir [utf16 "work", utf16 "dist"],
         Event.writeFile [utf16 "work", utf16 "dist", utf16 "agent-install.json"]
           (utf16 "\x7b\n  \"id\": \"agent-install\",\n  \"version\": \"1.0.0\"\n\x7d"),
         Event.stdout (utf16 "Wrote package metadata to /work/dist/agent-install.json\n")] :=
  written_text_exact (envOf [utf16 "agent-install"]) (manifestOnly scenarioManifest)
    scenarioManifest (Json.obj [(utf16 "packages", Json.arr scenarioPackages)]) scenarioPackages
    (Json.obj [(utf16 "id", Json.str (utf16 "agent-install")),
      (utf16 "version", Json.str (utf16 "1.0.0"))])
    (by decide) (by rfl) (by rfl) (by rfl) (by rfl) (by rfl) (by rfl)

/-- Counterexample to C7 as stated: the entry `{"id":"a","1":"x"}` of the manifest is
written with the field `1` before the field `id`, which is not their manifest order. -/
theorem written_text_manifest_order_counterexample :
    indexKeyManifest = utf16 "\x7b\"packages\":[\x7b\"id\":\"a\",\"1\":\"x\"\x7d]\x7d" ∧
    (run (envOf [utf16 "a"]) (Process.start (manifestOnly indexKeyManifest))).fs.files
        [utf16 "work", utf16 "dist", utf16 "a.json"]
      = some (utf16 "\x7b\n  \"1\": \"x\",\n  \"id\": \"a\"\n\x7d") ∧
    (run (envOf [utf16 "a"]) (Process.start (manifestOnly indexKeyManifest))).fs.files
        [utf16 "work", utf16 "dist", utf16 "a.json"]
      ≠ some (utf16 "\x7b\n  \"id\": \"a\",\n  \"1\": \"x\"\n\x7d") := by
  refine ⟨rfl, by decide, by decide⟩

/-! ## Reading the written file back -/

/-- C2, as amended: for a non-help identifier that is the `id` of some entry of a
manifest whose `packages` array has no `null` element, when `mkdir` and `writeFile`
succeed, the run leaves at `dist/<identifier with every slash replaced by an
underscore>.json` the serialisation of the first entry with that `id`.  That text
parses back as JSON; the parsed value deep-equals the entry (the two zeros taken as
equal) when no number of the entry is an infinity, and is the entry itself when in
addition no number of it is the negative zero. -/
theorem written_file_reads_back (env : Env) (fs : FileSystem) (raw : JSString)
    (manifest : Json) (packages : List Json)
    (h : isHelp env.argv[2]? = false)
    (hf : fs.files (manifestPath env.cwd) = some raw)
    (hp : JSON.parse raw = some manifest)
    (hk : packagesOf manifest = Except.ok packages)
    (hnull : ∀ e ∈ packages, e ≠ Json.null)
    (hid : ∃ e ∈ packages, HasId (packageIdOf env) e)
    (hm : env.mkdirOk (dirname (outputPath env.cwd (packageIdOf env))) = true)
    (hw : env.writeOk (outputPath env.cwd (packageIdOf env)) = true) :
    ∃ entry, find (packageIdOf env) packages = Except.ok (some entry) ∧
      HasId (packageIdOf env) entry ∧
      (run env (Process.start fs)).fs.files
          (resolve env.cwd [utf16 "dist"] ++
            [(packageIdOf env).map (fun c => if c = 47 then 95 else c) ++ utf16 ".json"])
        = some (JSON.stringify entry) ∧
      JSON.parse (JSON.stringify entry) = some (readBack entry) ∧
      (allFinite entry = true → deepEqual (readBack entry) entry = true) ∧
      (allFinite entry = true → noNegativeZero entry = true → readBack entry = entry) := by
  obtain ⟨entry, hfind⟩ := find_some_of_present (packageIdOf env) packages hnull hid
  obtain ⟨i, hi, hhas, -⟩ := find_some hfind
  have hwf : entry.WellFormed := found_entry_wellFormed hp hk hfind
  have hout : outputPath env.cwd (packageIdOf env) =
      resolve env.cwd [utf16 "dist"] ++
        [(packageIdOf env).map (fun c => if c = 47 then 95 else c) ++ utf16 ".json"] := by
    rw [outputPath_eq_dist, outputName, replaceSlashes_eq_map]
  refine ⟨entry, hfind, hhas, ?_, parse_stringify entry hwf,
    fun hfin => deepEqual_readBack entry hwf hfin,
    fun hfin hz => readBack_eq entry hwf hfin hz⟩
  rw [← hout, run_found env (Process.start fs) raw manifest packages entry h hf hp hk hfind hm hw]
  simp [FileSystem.writeFile, packageIdOf]

set_option exponentiation.threshold 5000 in
set_option maxRecDepth 100000 in
/-- Witness of C2: an entry with a fraction, a negative number and nested
containers. -/
theorem written_file_reads_back_witness :
    ∃ entry, find (packageIdOf (envOf [utf16 "n"])) [numbersEntry] = Except.ok (some entry) ∧
      HasId (packageIdOf (envOf [utf16 "n"])) entry ∧
      (run (envOf [utf16 "n"]) (Process.start (manifestOnly numbersManifest))).fs.files
          (resolve (envOf [utf16 "n"]).cwd [utf16 "dist"] ++
            [(packageIdOf (envOf [utf16 "n"])).map (fun c => if c = 47 then 95 else c)
              ++ utf16 ".json"])
        = some (JSON.stringify entry) ∧
      JSON.parse (JSON.stringify entry) = some (readBack entry) ∧
      (allFinite entry = true → deepEqual (readBack entry) entry = true) ∧
      (allFinite entry = true → noNegativeZero entry = true → readBack entry = entry) :=
  written_file_reads_back (envOf [utf16 "n"]) (manifestOnly numbersManifest) numbersManifest
    (Json.obj [(utf16 "packages", Json.arr [numbersEntry])]) [numbersEntry]
    (by decide) (by rfl) (by rfl) (by rfl)
    (by
      intro e he
      rw [List.mem_singleton] at he
      subst he
      exact fun hne => Json.noConfusion hne)
    ⟨numbersEntry, List.mem_singleton.2 rfl, _, rfl, by rfl⟩
    (by rfl) (by rfl)

set_option exponentiation.threshold 5000 in
set_option maxRecDepth 100000 in
/-- Counterexample to C2 as stated.  First, `-h` is the `id` of an entry of the
manifest, and the run with the argument `-h` shows the usage text and writes no file.
Second, the entry with `"size":1e400` is read as `Infinity`, the file written for it
holds `"size": null`, and the value parsed back from the file does not deep-equal the
entry. -/
theorem written_file_reads_back_counterexample :
    (JSON.parse helpIdManifest = some (Json.obj [(utf16 "packages", Json.arr [helpIdEntry])]) ∧
      HasId (utf16 "-h") helpIdEntry ∧
      (run (envOf [utf16 "-h"]) (Process.start (manifestOnly helpIdManifest))).events
        = [Event.stdout HELP_MESSAGE] ∧
      (run (envOf [utf16 "-h"]) (Process.start (manifestOnly helpIdManifest))).fs.files
        [utf16 "work", utf16 "dist", utf16 "-h.json"] = none) ∧
    (JSON.parse overflowManifest
        = some (Json.obj [(utf16 "packages", Json.arr [overflowEntry])]) ∧
      HasId (utf16 "a") overflowEntry ∧
      (run (envOf [utf16 "a"]) (Process.start (manifestOnly overflowManifest))).fs.files
        [utf16 "work", utf16 "dist", utf16 "a.json"]
        = some (utf16 "\x7b\n  \"id\": \"a\",\n  \"size\": null\n\x7d") ∧
      JSON.parse (utf16 "\x7b\n  \"id\": \"a\",\n  \"size\": null\n\x7d")
        = some (Json.obj [(utf16 "id", Json.str (utf16 "a")), (utf16 "size", Json.null)]) ∧
      deepEqual (Json.obj [(utf16 "id", Json.str (utf16 "a")), (utf16 "size", Json.null)])
        overflowEntry = false) := by
  refine ⟨⟨by rfl, ⟨_, rfl, by rfl⟩, by decide, by decide⟩,
    ⟨by rfl, ⟨_, rfl, by rfl⟩, by decide, by rfl, by decide⟩⟩

/-! ## Two identifiers, one output path -/

/-- C10: the identifiers `a/b` and `a_b` are distinct and both resolve to
`dist/a_b.json`.  With a manifest that has an entry for each, the run for `a/b` leaves
the serialisation of the first entry in that file, which parses back to that entry;
the run for `a_b` after it writes the same path and leaves the serialisation of the
second entry, and the value parsed from the file then no longer deep-equals the first
entry. -/
theorem output_path_collision :
    utf16 "a/b" ≠ utf16 "a_b" ∧
    outputPath [utf16 "work"] (utf16 "a/b") = [utf16 "work", utf16 "dist", utf16 "a_b.json"] ∧
    outputPath [utf16 "work"] (utf16 "a_b") = [utf16 "work", utf16 "dist", utf16 "a_b.json"] ∧
    JSON.parse collidingManifest
      = some (Json.obj [(utf16 "packages", Json.arr [slashEntry, underscoreEntry])]) ∧
    (run (envOf [utf16 "a/b"]) (Process.start (manifestOnly collidingManifest))).fs.files
      [utf16 "work", utf16 "dist", utf16 "a_b.json"] = some (JSON.stringify slashEntry) ∧
    JSON.parse (JSON.stringify slashEntry) = some slashEntry ∧
    deepEqual slashEntry slashEntry = true ∧
    (run (envOf [utf16 "a_b"])
      (Process.start
        (run (envOf [utf16 "a/b"]) (Process.start (manifestOnly collidingManifest))).fs)).events
      = [Event.readFile [utf16 "work", utf16 "manifests", utf16 "index.json"],
         Event.mkdir [utf16 "work", utf16 "dist"],
         Event.writeFile [utf16 "work", utf16 "dist", utf16 "a_b.json"]
           (JSON.stringify underscoreEntry),
         Event.stdout (utf16 "Wrote package metadata to /work/dist/a_b.json\n")] ∧
    (run (envOf [utf16 "a_b"])
      (Process.start
        (run (envOf [utf16 "a/b"]) (Process.start (manifestOnly collidingManifest))).fs)).fs.files
      [utf16 "work", utf16 "dist", utf16 "a_b.json"] = some (JSON.stringify underscoreEntry) ∧
    JSON.parse (JSON.stringify underscoreEntry) = some underscoreEntry ∧
    deepEqual underscoreEntry slashEntry = false := by
  refine ⟨by decide, by decide, by decide, by rfl, by decide, by rfl, by decide, by decide,
    by decide, by rfl, by decide⟩

end ApplyPackage
